import Mathlib

/-!
# A shallow embedding of `src/upb/encode.c`

This file models the one-pass backwards protobuf encoder of `upb` (file
`src/upb/encode.c`) at the byte level and proves, or refutes, the properties
claimed for it.

Modelling conventions:

* C machine integers are `Nat` values; a load of a `w`-byte unsigned integer
  from record memory yields a value `< 2 ^ (8 * w)`, which we obtain by
  reducing modulo `2 ^ (8 * w)` at the load site.  Signed integers are
  represented by their two's-complement bit patterns (also `Nat`).
* Pointers are absolute addresses (`Nat`); the null pointer is address `0`.
  The encoder's buffer is an allocation `[base, base + cap)` whose contents
  are a `List Nat` of bytes.  Pointer subtraction `a - b`, when it is stored
  into a C `size_t`, is modelled by `psub`, i.e. two's-complement wrap-around
  at 64 bits, so that differences of unrelated pointers produce the same kind
  of garbage values a flat-memory machine produces.
* The external allocator (`upb_env_realloc`, declared outside this source
  tree) is modelled from the spec: it may deny a request (parameter
  `env : Nat → Bool` says which sizes it grants), and on success it returns a
  fresh region, placed just past the old one, whose prefix holds a copy of
  the old contents and whose remaining bytes are unspecified (modelled as 0).
* Stores through pointers that do not lie inside the live allocation hit
  freed memory; they cannot change the live buffer and are modelled as
  no-ops (`memStore` / `memMove` are guarded).
-/

/-- Two's-complement wrap-around of an integer difference at 64 bits: the
value `a - b` receives when stored into a C `size_t`. -/
def psub (a b : Nat) : Nat := (((a : Int) - (b : Int)) % (2 ^ 64 : Int)).toNat

/-- The `w`-byte little-endian representation of `v` (`memcpy` of a `w`-byte
unsigned integer on the little-endian targets the source supports; the
big-endian byte-swap is an acknowledged TODO in the source). -/
def natLE : Nat → Nat → List Nat
  | 0, _ => []
  | w + 1, v => v % 256 :: natLE w (v / 256)

/-- Overwrite `mem[off .. off + data.length)` with `data` (unguarded; callers
guard the range). -/
def listWrite (mem : List Nat) (off : Nat) (data : List Nat) : List Nat :=
  mem.take off ++ data ++ mem.drop (off + data.length)

/-- A store of `data` at absolute address `addr` into the live allocation
`[base, base + cap)` with contents `mem`.  A store not contained in the live
allocation hits freed memory and leaves the allocation unchanged. -/
def memStore (base cap : Nat) (mem : List Nat) (addr : Nat) (data : List Nat) :
    List Nat :=
  if base ≤ addr ∧ addr + data.length ≤ base + cap then
    listWrite mem (addr - base) data
  else mem

/-- `memmove(dst, src, n)` against the live allocation `[base, base + cap)`:
reads `n` bytes at `src`, writes them at `dst`; accesses outside the live
allocation leave it unchanged. -/
def memMove (base cap : Nat) (mem : List Nat) (dst src n : Nat) : List Nat :=
  if base ≤ src ∧ src + n ≤ base + cap then
    memStore base cap mem dst ((mem.drop (src - base)).take n)
  else mem

/-! ## Varint / zigzag codec (`upb_encode_varint`, `upb_zzencode_32/64`) -/

/-- `UPB_PB_VARINT_MAX_LEN` from the source: a `uint64_t` varint is at most
10 bytes. -/
def UPB_PB_VARINT_MAX_LEN : Nat := 10

/-- The `while (val)` loop of `upb_encode_varint`: emit the low 7 bits, shift
right by 7, set the continuation bit when more bits remain.  `gas` bounds the
iteration count so that recursion is structural; the loop runs once per
base-128 digit, so `gas = 10` is exact for every `uint64_t` value (any
`val < 128 ^ gas`). -/
def upb_encode_varint_loop (gas : Nat) (val : Nat) : List Nat :=
  match gas with
  | 0 => []
  | gas + 1 =>
    if val = 0 then []
    else
      (if val / 128 ≠ 0 then val % 128 ||| 128 else val % 128) ::
        upb_encode_varint_loop gas (val / 128)

/-- `upb_encode_varint` from the source: values below 128 take the one-byte
fast path, larger values run the 7-bits-at-a-time loop (the argument is a
`uint64_t`, so ten iterations always complete the loop). -/
def upb_encode_varint (val : Nat) : List Nat :=
  if val < 128 then [val] else upb_encode_varint_loop UPB_PB_VARINT_MAX_LEN val

/-- `upb_zzencode_32` from the source: `(n << 1) ^ (n >> 31)` on `int32_t`.
`n` is the 32-bit two's-complement pattern of the argument; `n << 1` wraps
modulo `2^32` and the arithmetic shift `n >> 31` is all-ones exactly when the
sign bit is set. -/
def upb_zzencode_32 (n : Nat) : Nat :=
  ((n <<< 1) % 2 ^ 32) ^^^ (if n < 2 ^ 31 then 0 else 2 ^ 32 - 1)

/-- `upb_zzencode_64` from the source: `(n << 1) ^ (n >> 63)` on `int64_t`,
on 64-bit two's-complement patterns. -/
def upb_zzencode_64 (n : Nat) : Nat :=
  ((n <<< 1) % 2 ^ 64) ^^^ (if n < 2 ^ 63 then 0 else 2 ^ 64 - 1)

/-! ## The growable reverse buffer -/

/-- The `while (ret < bytes) ret *= 2;` loop of `upb_roundup_pow2`.  `gas`
bounds the iteration count so that recursion is structural; starting from
`ret = 128`, `bytes ≤ 128 * 2 ^ gas` makes the bound exact, so the seed
`gas = bytes` below never runs out. -/
def upb_roundup_pow2_loop (gas : Nat) (bytes ret : Nat) : Nat :=
  match gas with
  | 0 => ret
  | gas + 1 =>
    if ret < bytes then upb_roundup_pow2_loop gas bytes (ret * 2) else ret

/-- `upb_roundup_pow2` from the source: the smallest power of two reached by
doubling from 128 that is `≥ bytes`. -/
def upb_roundup_pow2 (bytes : Nat) : Nat := upb_roundup_pow2_loop bytes bytes 128

/-- The encoder state `upb_encstate`: a live allocation `[base, base + cap)`
holding bytes `mem` (`buf = base`, `limit = base + cap`) and the write cursor
`ptr` (an absolute address).  `lossy` is a proof-side observer, not present
in the source: it records whether a growth ever happened while used bytes
were in the buffer (the situation in which this source's growth loses data).
-/
structure upb_encstate where
  base : Nat
  cap : Nat
  ptr : Nat
  mem : List Nat
  lossy : Bool
deriving Repr, DecidableEq

/-- The number of used (already written) bytes, `e->limit - e->ptr`. -/
def upb_encstate.used (e : upb_encstate) : Nat := e.base + e.cap - e.ptr

/-- The written output, i.e. the contents of `[ptr, limit)`, read forward. -/
def upb_encstate.out (e : upb_encstate) : List Nat := e.mem.drop (e.ptr - e.base)

/-- Basic well-formedness of the encoder state: the cursor lies inside the
allocation and `mem` lists exactly the allocation's bytes. -/
def upb_encstate.wf (e : upb_encstate) : Prop :=
  e.base ≤ e.ptr ∧ e.ptr ≤ e.base + e.cap ∧ e.mem.length = e.cap

instance (e : upb_encstate) : Decidable e.wf := by
  unfold upb_encstate.wf; infer_instance

/-- Modelled from the spec: `upb_env_realloc` (the arena allocator, declared
outside this source tree) reallocates the region `[base, base + cap)` to
`new_size` bytes.  `env` says which sizes the allocator grants; on success
the new region is fresh (placed just past the old one), its first
`min cap new_size` bytes are a copy of the old contents and the rest is
unspecified (modelled as zero). -/
def upb_env_realloc (env : Nat → Bool) (base cap new_size : Nat)
    (mem : List Nat) : Option (Nat × List Nat) :=
  if env new_size then
    some (base + cap + 16, mem.take new_size ++ List.replicate (new_size - cap) 0)
  else none

/-- `upb_encode_growbuffer` from the source.  Note the `memmove`: its
destination `e->limit - old_size` and source `e->buf` are both computed from
the stale pre-realloc pointers (both equal the old `e->buf`), so the intended
"move previous data to the end" never touches the live allocation. -/
def upb_encode_growbuffer (env : Nat → Bool) (e : upb_encstate) (bytes : Nat) :
    Option upb_encstate :=
  let old_size := e.cap
  let new_size := upb_roundup_pow2 (bytes + (e.base + e.cap - e.ptr))
  match upb_env_realloc env e.base e.cap new_size e.mem with
  | none => none
  | some (new_base, new_mem) =>
    let mem2 := memMove new_base new_size new_mem
      (e.base + e.cap - old_size) e.base old_size
    some { base := new_base
           cap := new_size
           ptr := new_base + new_size - (e.base + e.cap - e.ptr)
           mem := mem2
           lossy := e.lossy || decide (0 < e.base + e.cap - e.ptr) }

/-- `upb_encode_reserve` from the source: ensure `bytes` writable bytes below
the cursor, growing if needed, then move the cursor down by `bytes`. -/
def upb_encode_reserve (env : Nat → Bool) (e : upb_encstate) (bytes : Nat) :
    Option upb_encstate :=
  if bytes ≤ e.ptr - e.base then some { e with ptr := e.ptr - bytes }
  else
    match upb_encode_growbuffer env e bytes with
    | none => none
    | some e1 => some { e1 with ptr := e1.ptr - bytes }

/-- `upb_put_bytes` from the source: reserve, then `memcpy` the data at the
new cursor. -/
def upb_put_bytes (env : Nat → Bool) (e : upb_encstate) (data : List Nat) :
    Option upb_encstate :=
  match upb_encode_reserve env e data.length with
  | none => none
  | some e1 => some { e1 with mem := memStore e1.base e1.cap e1.mem e1.ptr data }

/-- `upb_put_fixed64` from the source: the 8 raw little-endian bytes. -/
def upb_put_fixed64 (env : Nat → Bool) (e : upb_encstate) (val : Nat) :
    Option upb_encstate :=
  upb_put_bytes env e (natLE 8 val)

/-- `upb_put_fixed32` from the source: the 4 raw little-endian bytes. -/
def upb_put_fixed32 (env : Nat → Bool) (e : upb_encstate) (val : Nat) :
    Option upb_encstate :=
  upb_put_bytes env e (natLE 4 val)

/-- `upb_put_varint` from the source: reserve the 10-byte maximum, encode at
the cursor, then `memmove` the encoded bytes flush against `ptr + 10`. -/
def upb_put_varint (env : Nat → Bool) (e : upb_encstate) (val : Nat) :
    Option upb_encstate :=
  match upb_encode_reserve env e UPB_PB_VARINT_MAX_LEN with
  | none => none
  | some e1 =>
    let bs := upb_encode_varint val
    let mem1 := memStore e1.base e1.cap e1.mem e1.ptr bs
    let start := e1.ptr + UPB_PB_VARINT_MAX_LEN - bs.length
    let mem2 := memMove e1.base e1.cap mem1 start e1.ptr bs.length
    some { e1 with ptr := start, mem := mem2 }

/-- `upb_put_double` from the source: `memcpy` the bits, then `put_fixed64`.
`val` is the 64-bit pattern of the double. -/
def upb_put_double (env : Nat → Bool) (e : upb_encstate) (val : Nat) :
    Option upb_encstate :=
  upb_put_fixed64 env e val

/-- `upb_put_float` from the source, on the float's 32-bit pattern. -/
def upb_put_float (env : Nat → Bool) (e : upb_encstate) (val : Nat) :
    Option upb_encstate :=
  upb_put_fixed32 env e val

/-- `upb_put_tag` from the source: varint of `(field_number << 3) | wire_type`. -/
def upb_put_tag (env : Nat → Bool) (e : upb_encstate) (field_number wire_type : Nat) :
    Option upb_encstate :=
  upb_put_varint env e ((field_number <<< 3) ||| wire_type)

/-! ## Wire-format and descriptor constants

Wire types are fixed by the spec (§6).  The descriptor-type numbering is
documented by the index comments of `upb_desctype_to_fieldtype2` in the
source.  `UPB_LABEL_REPEATED` and the `UPB_NOT_IN_ONEOF` / `UPB_NO_HASBIT`
sentinels live in headers outside this source tree; the label's numeric
value is never observable (the source only compares against it), and the two
sentinels are modelled by `Option.none`. -/

def UPB_WIRE_TYPE_VARINT : Nat := 0
def UPB_WIRE_TYPE_64BIT : Nat := 1
def UPB_WIRE_TYPE_DELIMITED : Nat := 2
def UPB_WIRE_TYPE_START_GROUP : Nat := 3
def UPB_WIRE_TYPE_END_GROUP : Nat := 4
def UPB_WIRE_TYPE_32BIT : Nat := 5

def UPB_DESCRIPTOR_TYPE_DOUBLE : Nat := 1
def UPB_DESCRIPTOR_TYPE_FLOAT : Nat := 2
def UPB_DESCRIPTOR_TYPE_INT64 : Nat := 3
def UPB_DESCRIPTOR_TYPE_UINT64 : Nat := 4
def UPB_DESCRIPTOR_TYPE_INT32 : Nat := 5
def UPB_DESCRIPTOR_TYPE_FIXED64 : Nat := 6
def UPB_DESCRIPTOR_TYPE_FIXED32 : Nat := 7
def UPB_DESCRIPTOR_TYPE_BOOL : Nat := 8
def UPB_DESCRIPTOR_TYPE_STRING : Nat := 9
def UPB_DESCRIPTOR_TYPE_GROUP : Nat := 10
def UPB_DESCRIPTOR_TYPE_MESSAGE : Nat := 11
def UPB_DESCRIPTOR_TYPE_BYTES : Nat := 12
def UPB_DESCRIPTOR_TYPE_UINT32 : Nat := 13
def UPB_DESCRIPTOR_TYPE_ENUM : Nat := 14
def UPB_DESCRIPTOR_TYPE_SFIXED32 : Nat := 15
def UPB_DESCRIPTOR_TYPE_SFIXED64 : Nat := 16
def UPB_DESCRIPTOR_TYPE_SINT32 : Nat := 17
def UPB_DESCRIPTOR_TYPE_SINT64 : Nat := 18

/-- `UPB_LABEL_REPEATED` (header constant, value not observable). -/
def UPB_LABEL_REPEATED : Nat := 3

/-! ## The record and schema layout

Modelled from the spec (§3, §6; the `upb_msglayout_*_v1` structs and
`upb_array` live in headers outside this source tree): a field descriptor
carries number, storage offset, hasbit index (`none` = `UPB_NO_HASBIT`),
oneof membership (`none` = `UPB_NOT_IN_ONEOF`), submessage-layout index,
descriptor type and label; a message layout carries the ordered field
descriptors, the referenced sub-layouts, the oneof descriptors (each their
discriminant's `case_offset`) and the proto2 flag.

The record is an opaque memory region addressed through descriptor offsets.
Each of the three ways the source reads it gets a keyed view:
* `mem`: field storage by byte offset (`msg + f->offset`), as tagged values
  (raw integer pattern, string view, submessage pointer, array pointer);
* `cases`: oneof discriminants by `case_offset` (`upb_readcase`);
* `bits`: the set of hasbit indices whose bit is set (`upb_readhasbit`).
Reads of offsets the record does not contain yield zero bytes. -/

structure upb_msglayout_fieldinit_v1 where
  number : Nat
  offset : Nat
  hasbit : Option Nat
  oneof_index : Option Nat
  submsg_index : Nat
  type : Nat
  label : Nat
deriving Repr, DecidableEq

inductive upb_msglayout_msginit_v1 where
  | mk : (fields : List upb_msglayout_fieldinit_v1) →
      (submsgs : List upb_msglayout_msginit_v1) →
      (oneof_case_offsets : List Nat) →
      ( is_proto2 : Bool) → upb_msglayout_msginit_v1
deriving Repr

def upb_msglayout_msginit_v1.fields : upb_msglayout_msginit_v1 →
    List upb_msglayout_fieldinit_v1
  | .mk fs _ _ _ => fs

def upb_msglayout_msginit_v1.submsgs : upb_msglayout_msginit_v1 →
    List upb_msglayout_msginit_v1
  | .mk _ subs _ _ => subs

def upb_msglayout_msginit_v1.oneof_case_offsets : upb_msglayout_msginit_v1 →
    List Nat
  | .mk _ _ ones _ => ones

def upb_msglayout_msginit_v1.is_proto2 : upb_msglayout_msginit_v1 → Bool
  | .mk _ _ _ p => p

@[simp] theorem upb_msglayout_fields_mk (fs subs ones p) :
    (upb_msglayout_msginit_v1.mk fs subs ones p).fields = fs := rfl

@[simp] theorem upb_msglayout_submsgs_mk (fs subs ones p) :
    (upb_msglayout_msginit_v1.mk fs subs ones p).submsgs = subs := rfl

@[simp] theorem upb_msglayout_oneofs_mk (fs subs ones p) :
    (upb_msglayout_msginit_v1.mk fs subs ones p).oneof_case_offsets = ones := rfl

@[simp] theorem upb_msglayout_is_proto2_mk (fs subs ones p) :
    (upb_msglayout_msginit_v1.mk fs subs ones p).is_proto2 = p := rfl

mutual
inductive upb_value where
  | vNum : Nat → upb_value
  | vStr : List Nat → upb_value
  | vMsgPtr : Option upb_msg → upb_value
  | vArrPtr : Option upb_array → upb_value
inductive upb_msg where
  | mk : (mem : List (Nat × upb_value)) → (cases : List (Nat × Nat)) →
      (bits : List Nat) → upb_msg
inductive upb_array where
  | mk : (atype : Nat) → (adata : upb_arrdata) → upb_array
inductive upb_arrdata where
  | anums : List Nat → upb_arrdata
  | astrs : List (List Nat) → upb_arrdata
  | amsgs : List (Option upb_msg) → upb_arrdata
end

/-- Association-list lookup for record field storage; memory the record does
not define reads as zero bytes. -/
def upb_memlookup : List (Nat × upb_value) → Nat → upb_value
  | [], _ => .vNum 0
  | (k, v) :: rest, off => if k = off then v else upb_memlookup rest off

/-- The read `msg + f->offset` of a field's raw storage. -/
def upb_msg.read : upb_msg → Nat → upb_value
  | .mk mem _ _, off => upb_memlookup mem off

/-- Lookup of a oneof discriminant by its `case_offset`. -/
def upb_caselookup : List (Nat × Nat) → Nat → Nat
  | [], _ => 0
  | (k, v) :: rest, off => if k = off then v else upb_caselookup rest off

def upb_msg.readcaseat : upb_msg → Nat → Nat
  | .mk _ cases _, off => upb_caselookup cases off

def upb_msg.hasbitset : upb_msg → Nat → Bool
  | .mk _ _ bits, i => bits.contains i

/-- `upb_readcase` from the source: the `uint32_t` read at
`msg + m->oneofs[oneof_index].case_offset`. -/
def upb_readcase (msg : upb_msg) (m : upb_msglayout_msginit_v1)
    (oneof_index : Nat) : Nat :=
  msg.readcaseat (m.oneof_case_offsets.getD oneof_index 0)

/-- `upb_readhasbit` from the source: bit `f->hasbit` of the record's hasbit
bytes.  The source asserts `f->hasbit != UPB_NO_HASBIT`; a field without a
hasbit reads as not set. -/
def upb_readhasbit (msg : upb_msg) (f : upb_msglayout_fieldinit_v1) : Bool :=
  match f.hasbit with
  | some hb => msg.hasbitset hb
  | none => false

/-- `arr->len`: the element count of the array's storage. -/
def upb_array.len : upb_array → Nat
  | .mk _ (.anums l) => l.length
  | .mk _ (.astrs l) => l.length
  | .mk _ (.amsgs l) => l.length

def upb_array.adata : upb_array → upb_arrdata
  | .mk _ d => d

/-- `upb_put_fixedarray` from the source: `memcpy` of the `arr->len * size`
raw little-endian element bytes, then the byte-length varint.  Reading the
element region as raw scalars requires numeric storage; a record whose array
storage disagrees with the descriptor violates the layout contract (the
source asserts against it) and is modelled as failure. -/
def upb_put_fixedarray (env : Nat → Bool) (e : upb_encstate) (arr : upb_array)
    (size : Nat) : Option upb_encstate :=
  let bytes := arr.len * size
  match arr.adata with
  | .anums l =>
    match upb_put_bytes env e ((l.map fun v => natLE size (v % 2 ^ (8 * size))).flatten) with
    | none => none
    | some e1 => upb_put_varint env e1 bytes
  | _ => none

/-- `upb_encode_hasscalarfield` from the source: oneof members are present
iff the discriminant holds their number; proto2 fields consult the hasbit;
proto3 fields are always "present" here (zero-elision happens later). -/
def upb_encode_hasscalarfield (msg : upb_msg) (m : upb_msglayout_msginit_v1)
    (f : upb_msglayout_fieldinit_v1) : Bool :=
  match f.oneof_index with
  | some oi => decide (upb_readcase msg m oi = f.number)
  | none => if m.is_proto2 then upb_readhasbit msg f else true

/-- IEEE-754 comparison `val == 0` on a double's bit pattern: true exactly
for +0.0 (`0`) and −0.0 (`2^63`). -/
def double_eq_zero (bits : Nat) : Bool := bits = 0 || bits = 2 ^ 63

/-- IEEE-754 comparison `val == 0` on a float's bit pattern. -/
def float_eq_zero (bits : Nat) : Bool := bits = 0 || bits = 2 ^ 31

/-- The element loop of `VARINT_CASE` in `upb_encode_array`: the source walks
the array from the last element down to the first, emitting `encf elem` as a
varint; callers pass the element list already reversed. -/
def upb_put_varintloop (env : Nat → Bool) (e : upb_encstate)
    (elems : List Nat) (encf : Nat → Nat) : Option upb_encstate :=
  match elems with
  | [] => some e
  | v :: rest =>
    match upb_put_varint env e (encf v) with
    | none => none
    | some e1 => upb_put_varintloop env e1 rest encf

/-- The string/bytes element loop of `upb_encode_array`: per element (walked
in reverse array order; callers pass the list reversed) raw bytes, length
varint, then a delimited tag. -/
def upb_put_strloop (env : Nat → Bool) (e : upb_encstate)
    (elems : List (List Nat)) (fnumber : Nat) : Option upb_encstate :=
  match elems with
  | [] => some e
  | s :: rest =>
    match upb_put_bytes env e s with
    | none => none
    | some e1 =>
      match upb_put_varint env e1 s.length with
      | none => none
      | some e2 =>
        match upb_put_tag env e2 fnumber UPB_WIRE_TYPE_DELIMITED with
        | none => none
        | some e3 => upb_put_strloop env e3 rest fnumber

theorem sizeOf_lt_of_getElem? {α : Type} [SizeOf α] :
    ∀ (l : List α) (i : Nat) (a : α), l[i]? = some a → sizeOf a < sizeOf l := by
  intro l
  induction l with
  | nil => intro i a h; simp at h
  | cons b t ih =>
    intro i a h
    cases i with
    | zero =>
      simp at h
      subst h
      simp
      omega
    | succ j =>
      simp at h
      have := ih j a h
      simp
      omega

theorem sizeOf_submsg_lt (m : upb_msglayout_msginit_v1) (i : Nat)
    (subm : upb_msglayout_msginit_v1) (h : m.submsgs[i]? = some subm) :
    sizeOf subm < sizeOf m := by
  cases m with
  | mk fs subs ones p =>
    simp [upb_msglayout_msginit_v1.submsgs] at h
    have := sizeOf_lt_of_getElem? subs i subm h
    simp
    omega

/-- The `VARINT_CASE` body of `upb_encode_array`: packed elements (reverse
array order), then the varint of the packed run's byte count (the growth of
`e->limit - e->ptr` over the loop), then — via the common fall-through — the
delimited tag. -/
def upb_encode_varintarray (env : Nat → Bool) (e : upb_encstate)
    (arr : upb_array) (f : upb_msglayout_fieldinit_v1) (encf : Nat → Nat) :
    Option upb_encstate :=
  match arr.adata with
  | .anums l =>
    let pre_len := e.base + e.cap - e.ptr
    match upb_put_varintloop env e l.reverse encf with
    | none => none
    | some e1 =>
      match upb_put_varint env e1 ((e1.base + e1.cap - e1.ptr) - pre_len) with
      | none => none
      | some e2 => upb_put_tag env e2 f.number UPB_WIRE_TYPE_DELIMITED
  | _ => none

/-- The type of the recursive entry `upb_encode_message` as seen by the
routines it mutually recurses with (state, record pointer, layout, incoming
`*size` value).  The recursion is tied at a single point, structurally on a
depth bound, in `upb_encode_message` itself; every other routine receives
the recursive call as the explicit argument `encmsg`. -/
abbrev EncMsgT : Type :=
  upb_encstate → Option upb_msg → upb_msglayout_msginit_v1 → Nat →
    Option (upb_encstate × Nat)

/-- The `CASE(ctype, type, wire_type, encodeval)` macro of
`upb_encode_scalarfield`: when the proto3 zero-elision test fired, write
nothing; otherwise write the encoded value, then the tag. -/
def upb_scalar_case (env : Nat → Bool) (e : upb_encstate) (skip : Bool)
    (put : upb_encstate → Option upb_encstate) (fnumber wire_type : Nat) :
    Option upb_encstate :=
  if skip then some e
  else
    match put e with
    | none => none
    | some e1 => upb_put_tag env e1 fnumber wire_type

/-- The string/bytes case of `upb_encode_scalarfield`: raw bytes, length
varint, delimited tag (or nothing when elided). -/
def upb_scalar_strcase (env : Nat → Bool) (e : upb_encstate) (skip : Bool)
    (view : List Nat) (fnumber : Nat) : Option upb_encstate :=
  if skip then some e
  else
    match upb_put_bytes env e view with
    | none => none
    | some e1 =>
      match upb_put_varint env e1 view.length with
      | none => none
      | some e2 => upb_put_tag env e2 fnumber UPB_WIRE_TYPE_DELIMITED

/-- A fixed-width case of `upb_encode_array`: packed raw bytes and length
via `upb_put_fixedarray`, then (via the C `break` fall-through) the
delimited tag. -/
def upb_array_fixed_case (env : Nat → Bool) (e : upb_encstate)
    (arr : upb_array) (size fnumber : Nat) : Option upb_encstate :=
  match upb_put_fixedarray env e arr size with
  | none => none
  | some e1 => upb_put_tag env e1 fnumber UPB_WIRE_TYPE_DELIMITED

/-- The `GROUP` case of `upb_encode_scalarfield`: end-group tag, recursive
encode (discarding the size the recursion reports), start-group tag.  The
sub-layout lookup `m->submsgs[f->submsg_index]` is passed in as an `Option`;
an out-of-range index is a layout-contract violation, modelled as failure. -/
def upb_scalar_groupcase (encmsg : EncMsgT) (env : Nat → Bool)
    (junk : Nat) (e : upb_encstate) (skip : Bool) (submsg : Option upb_msg)
    (subml : Option upb_msglayout_msginit_v1) (fnumber : Nat) :
    Option upb_encstate :=
  if skip then some e
  else
    match subml with
    | none => none
    | some subm =>
      match upb_put_tag env e fnumber UPB_WIRE_TYPE_END_GROUP with
      | none => none
      | some e1 =>
        match encmsg e1 submsg subm junk with
        | none => none
        | some (e2, _) => upb_put_tag env e2 fnumber UPB_WIRE_TYPE_START_GROUP

/-- The `MESSAGE` case of `upb_encode_scalarfield`: recursive encode, then
the varint of the size the recursion reported in the uninitialized local
`size` (for a NULL submessage that local is left holding `junk`), then the
delimited tag. -/
def upb_scalar_msgcase (encmsg : EncMsgT) (env : Nat → Bool)
    (junk : Nat) (e : upb_encstate) (skip : Bool) (submsg : Option upb_msg)
    (subml : Option upb_msglayout_msginit_v1) (fnumber : Nat) :
    Option upb_encstate :=
  if skip then some e
  else
    match subml with
    | none => none
    | some subm =>
      match encmsg e submsg subm junk with
      | none => none
      | some (e1, size) =>
        match upb_put_varint env e1 size with
        | none => none
        | some e2 => upb_put_tag env e2 fnumber UPB_WIRE_TYPE_DELIMITED

/-- `upb_encode_scalarfield` from the source, one branch per `case` of the C
`switch` on `f->type` (the `CASE` macro is `upb_scalar_case`; the recursive
message encoder comes in as `encmsg`).  A field whose record storage
disagrees with the descriptor's category and a descriptor type outside the
`switch` (`UPB_UNREACHABLE()`) are layout contract violations, modelled as
failure. -/
def upb_encode_scalarfield (encmsg : EncMsgT) (junk : Nat) (env : Nat → Bool)
    (e : upb_encstate) (field_mem : upb_value) (m : upb_msglayout_msginit_v1)
    (f : upb_msglayout_fieldinit_v1) ( is_proto3 : Bool) : Option upb_encstate :=
  let skip_zero_value : Bool := is_proto3 && decide (f.oneof_index = none)
  if f.type = UPB_DESCRIPTOR_TYPE_DOUBLE then
    match field_mem with
    | .vNum v => upb_scalar_case env e (skip_zero_value && double_eq_zero (v % 2 ^ 64))
        (fun e0 => upb_put_double env e0 (v % 2 ^ 64)) f.number UPB_WIRE_TYPE_64BIT
    | _ => none
  else if f.type = UPB_DESCRIPTOR_TYPE_FLOAT then
    match field_mem with
    | .vNum v => upb_scalar_case env e (skip_zero_value && float_eq_zero (v % 2 ^ 32))
        (fun e0 => upb_put_float env e0 (v % 2 ^ 32)) f.number UPB_WIRE_TYPE_32BIT
    | _ => none
  else if f.type = UPB_DESCRIPTOR_TYPE_INT64 ∨ f.type = UPB_DESCRIPTOR_TYPE_UINT64 then
    match field_mem with
    | .vNum v => upb_scalar_case env e (skip_zero_value && decide (v % 2 ^ 64 = 0))
        (fun e0 => upb_put_varint env e0 (v % 2 ^ 64)) f.number UPB_WIRE_TYPE_VARINT
    | _ => none
  else if f.type = UPB_DESCRIPTOR_TYPE_UINT32 ∨ f.type = UPB_DESCRIPTOR_TYPE_INT32 ∨
      f.type = UPB_DESCRIPTOR_TYPE_ENUM then
    match field_mem with
    | .vNum v => upb_scalar_case env e (skip_zero_value && decide (v % 2 ^ 32 = 0))
        (fun e0 => upb_put_varint env e0 (v % 2 ^ 32)) f.number UPB_WIRE_TYPE_VARINT
    | _ => none
  else if f.type = UPB_DESCRIPTOR_TYPE_SFIXED64 ∨ f.type = UPB_DESCRIPTOR_TYPE_FIXED64 then
    match field_mem with
    | .vNum v => upb_scalar_case env e (skip_zero_value && decide (v % 2 ^ 64 = 0))
        (fun e0 => upb_put_fixed64 env e0 (v % 2 ^ 64)) f.number UPB_WIRE_TYPE_64BIT
    | _ => none
  else if f.type = UPB_DESCRIPTOR_TYPE_FIXED32 ∨ f.type = UPB_DESCRIPTOR_TYPE_SFIXED32 then
    match field_mem with
    | .vNum v => upb_scalar_case env e (skip_zero_value && decide (v % 2 ^ 32 = 0))
        (fun e0 => upb_put_fixed32 env e0 (v % 2 ^ 32)) f.number UPB_WIRE_TYPE_32BIT
    | _ => none
  else if f.type = UPB_DESCRIPTOR_TYPE_BOOL then
    match field_mem with
    | .vNum v => upb_scalar_case env e (skip_zero_value && decide (v % 2 ^ 8 = 0))
        (fun e0 => upb_put_varint env e0 (v % 2 ^ 8)) f.number UPB_WIRE_TYPE_VARINT
    | _ => none
  else if f.type = UPB_DESCRIPTOR_TYPE_SINT32 then
    match field_mem with
    | .vNum v => upb_scalar_case env e (skip_zero_value && decide (v % 2 ^ 32 = 0))
        (fun e0 => upb_put_varint env e0 (upb_zzencode_32 (v % 2 ^ 32)))
        f.number UPB_WIRE_TYPE_VARINT
    | _ => none
  else if f.type = UPB_DESCRIPTOR_TYPE_SINT64 then
    match field_mem with
    | .vNum v => upb_scalar_case env e (skip_zero_value && decide (v % 2 ^ 64 = 0))
        (fun e0 => upb_put_varint env e0 (upb_zzencode_64 (v % 2 ^ 64)))
        f.number UPB_WIRE_TYPE_VARINT
    | _ => none
  else if f.type = UPB_DESCRIPTOR_TYPE_STRING ∨ f.type = UPB_DESCRIPTOR_TYPE_BYTES then
    match field_mem with
    | .vStr view => upb_scalar_strcase env e
        (skip_zero_value && decide (view.length = 0)) view f.number
    | _ => none
  else if f.type = UPB_DESCRIPTOR_TYPE_GROUP then
    match field_mem with
    | .vMsgPtr submsg => upb_scalar_groupcase encmsg env junk e
        (skip_zero_value && submsg.isNone) submsg m.submsgs[f.submsg_index]? f.number
    | _ => none
  else if f.type = UPB_DESCRIPTOR_TYPE_MESSAGE then
    match field_mem with
    | .vMsgPtr submsg => upb_scalar_msgcase encmsg env junk e
        (skip_zero_value && submsg.isNone) submsg m.submsgs[f.submsg_index]? f.number
    | _ => none
  else none

/-- The group-array loop of `upb_encode_array`: per element (reverse array
order) end-group tag, recursive encode, start-group tag. -/
def upb_encode_grouparray (encmsg : EncMsgT) (junk : Nat) (env : Nat → Bool)
    (e : upb_encstate) (elems : List (Option upb_msg))
    (subm : upb_msglayout_msginit_v1) (fnumber : Nat) : Option upb_encstate :=
  match elems with
  | [] => some e
  | el :: rest =>
    match upb_put_tag env e fnumber UPB_WIRE_TYPE_END_GROUP with
    | none => none
    | some e1 =>
      match encmsg e1 el subm junk with
      | none => none
      | some (e2, _) =>
        match upb_put_tag env e2 fnumber UPB_WIRE_TYPE_START_GROUP with
        | none => none
        | some e3 => upb_encode_grouparray encmsg junk env e3 rest subm fnumber

/-- The message-array loop of `upb_encode_array`: per element (reverse array
order) recursive encode, length varint (of the value the recursive call left
in the uninitialized local `size`), delimited tag. -/
def upb_encode_msgarray (encmsg : EncMsgT) (junk : Nat) (env : Nat → Bool)
    (e : upb_encstate) (elems : List (Option upb_msg))
    (subm : upb_msglayout_msginit_v1) (fnumber : Nat) : Option upb_encstate :=
  match elems with
  | [] => some e
  | el :: rest =>
    match encmsg e el subm junk with
    | none => none
    | some (e1, size) =>
      match upb_put_varint env e1 size with
      | none => none
      | some e2 =>
        match upb_put_tag env e2 fnumber UPB_WIRE_TYPE_DELIMITED with
        | none => none
        | some e3 => upb_encode_msgarray encmsg junk env e3 rest subm fnumber

/-- `upb_encode_array` from the source.  A NULL or empty array writes
nothing; fixed-width and varint categories write a packed body and fall
through to the common delimited tag (`break`); string/bytes and
message/group categories return from inside the `switch`; a descriptor type
outside the `switch` falls through directly to the delimited tag.  The
`UPB_ASSERT` on `arr->type` is a debug-build contract check (a no-op here);
array storage that disagrees with the descriptor category is a contract
violation, modelled as failure. -/
def upb_encode_array (encmsg : EncMsgT) (junk : Nat) (env : Nat → Bool)
    (e : upb_encstate) (field_mem : upb_value) (m : upb_msglayout_msginit_v1)
    (f : upb_msglayout_fieldinit_v1) : Option upb_encstate :=
  match field_mem with
  | .vArrPtr arrOpt =>
    match arrOpt with
    | none => some e
    | some arr =>
      if arr.len = 0 then some e
      else if f.type = UPB_DESCRIPTOR_TYPE_DOUBLE then
        upb_array_fixed_case env e arr 8 f.number
      else if f.type = UPB_DESCRIPTOR_TYPE_FLOAT then
        upb_array_fixed_case env e arr 4 f.number
      else if f.type = UPB_DESCRIPTOR_TYPE_SFIXED64 ∨ f.type = UPB_DESCRIPTOR_TYPE_FIXED64 then
        upb_array_fixed_case env e arr 8 f.number
      else if f.type = UPB_DESCRIPTOR_TYPE_FIXED32 ∨ f.type = UPB_DESCRIPTOR_TYPE_SFIXED32 then
        upb_array_fixed_case env e arr 4 f.number
      else if f.type = UPB_DESCRIPTOR_TYPE_INT64 ∨ f.type = UPB_DESCRIPTOR_TYPE_UINT64 then
        upb_encode_varintarray env e arr f (fun v => v % 2 ^ 64)
      else if f.type = UPB_DESCRIPTOR_TYPE_UINT32 ∨ f.type = UPB_DESCRIPTOR_TYPE_INT32 ∨
          f.type = UPB_DESCRIPTOR_TYPE_ENUM then
        upb_encode_varintarray env e arr f (fun v => v % 2 ^ 32)
      else if f.type = UPB_DESCRIPTOR_TYPE_BOOL then
        upb_encode_varintarray env e arr f (fun v => v % 2 ^ 8)
      else if f.type = UPB_DESCRIPTOR_TYPE_SINT32 then
        upb_encode_varintarray env e arr f (fun v => upb_zzencode_32 (v % 2 ^ 32))
      else if f.type = UPB_DESCRIPTOR_TYPE_SINT64 then
        upb_encode_varintarray env e arr f (fun v => upb_zzencode_64 (v % 2 ^ 64))
      else if f.type = UPB_DESCRIPTOR_TYPE_STRING ∨ f.type = UPB_DESCRIPTOR_TYPE_BYTES then
        match arr.adata with
        | .astrs l => upb_put_strloop env e l.reverse f.number
        | _ => none
      else if f.type = UPB_DESCRIPTOR_TYPE_GROUP then
        match arr.adata with
        | .amsgs l =>
          match m.submsgs[f.submsg_index]? with
          | none => none
          | some subm => upb_encode_grouparray encmsg junk env e l.reverse subm f.number
        | _ => none
      else if f.type = UPB_DESCRIPTOR_TYPE_MESSAGE then
        match arr.adata with
        | .amsgs l =>
          match m.submsgs[f.submsg_index]? with
          | none => none
          | some subm => upb_encode_msgarray encmsg junk env e l.reverse subm f.number
        | _ => none
      else upb_put_tag env e f.number UPB_WIRE_TYPE_DELIMITED
  | _ => none

/-- One iteration of the field loop of `upb_encode_message`: repeated fields
go to `upb_encode_array`, singular fields to `upb_encode_scalarfield` when
present. -/
def upb_encode_field (encmsg : EncMsgT) (junk : Nat) (env : Nat → Bool)
    (e : upb_encstate) (mrec : upb_msg) (m : upb_msglayout_msginit_v1)
    (f : upb_msglayout_fieldinit_v1) : Option upb_encstate :=
  if f.label = UPB_LABEL_REPEATED then
    upb_encode_array encmsg junk env e (mrec.read f.offset) m f
  else if upb_encode_hasscalarfield mrec m f then
    upb_encode_scalarfield encmsg junk env e (mrec.read f.offset) m f (!m.is_proto2)
  else some e

/-- The field loop of `upb_encode_message`: the source iterates
`i = field_count - 1` down to `0`, so the list passed here is the layout's
field list reversed. -/
def upb_encode_fields (encmsg : EncMsgT) (junk : Nat) (env : Nat → Bool)
    (e : upb_encstate) (mrec : upb_msg) (m : upb_msglayout_msginit_v1)
    (l : List upb_msglayout_fieldinit_v1) : Option upb_encstate :=
  match l with
  | [] => some e
  | f :: rest =>
    match upb_encode_field encmsg junk env e mrec m f with
    | none => none
    | some e1 => upb_encode_fields encmsg junk env e1 mrec m rest

/-- `upb_encode_message` from the source, the single recursion point of the
encoder.  `fuel` bounds the message-nesting depth so that recursion is
structural (exhaustion yields `none`, a modelling artifact; any
`fuel > nesting depth` is exact).  `junk` models the value of uninitialized
C locals (the callers' `size_t size;`), `size_in` the value the caller's
`*size` holds on entry: for a NULL record the source returns `true` without
assigning `*size`, so the caller sees its old value.  `buf_end` is a
snapshot of the cursor *pointer*; the reported size is the pointer
difference `buf_end - e->ptr`, stored into a `size_t`. -/
def upb_encode_message : (fuel : Nat) → (junk : Nat) → (env : Nat → Bool) →
    upb_encstate → Option upb_msg → upb_msglayout_msginit_v1 → Nat →
    Option (upb_encstate × Nat)
  | 0, _, _, _, _, _, _ => none
  | fuel + 1, junk, env, e, msg, m, size_in =>
    let buf_end := e.ptr
    match msg with
    | none => some (e, size_in)
    | some mrec =>
      match upb_encode_fields (upb_encode_message fuel junk env) junk env e mrec m
          m.fields.reverse with
      | none => none
      | some e1 => some (e1, psub buf_end e1.ptr)

/-- The result a caller of `upb_encode` sees: the NULL failure return, the
one-byte static sentinel `&ch` for empty output, or the live byte range
`[e.ptr, e.limit)`. -/
inductive upb_encode_result where
  | fail : upb_encode_result
  | sentinel : upb_encode_result
  | buf : List Nat → upb_encode_result
deriving Repr, DecidableEq

/-- `upb_encode` from the source: start from the empty encoder state
(`buf = ptr = limit = NULL`), run the message encoder, then report
`e.limit - e.ptr` as the size (overwriting whatever the recursion left in
`*size`); on failure report size 0 and NULL, on empty output the static
sentinel. -/
def upb_encode (fuel : Nat) (junk : Nat) (env : Nat → Bool) (msg : Option upb_msg)
    (m : upb_msglayout_msginit_v1) (size_in : Nat) : upb_encode_result × Nat :=
  let e : upb_encstate := { base := 0, cap := 0, ptr := 0, mem := [], lossy := false }
  match upb_encode_message fuel junk env e msg m size_in with
  | none => (.fail, 0)
  | some (e1, _) =>
    let size := e1.base + e1.cap - e1.ptr
    if size = 0 then (.sentinel, 0) else (.buf e1.out, size)

/-! ## Properties of the varint codec -/

/-- The value a base-128 little-endian byte list denotes (each byte
contributes its low 7 bits); the mathematical reading of the claim's
"base-128 little-endian encoding", used only in theorem statements. -/
def varintValue : List Nat → Nat
  | [] => 0
  | b :: rest => b % 128 + 128 * varintValue rest

/-- A well-formed varint byte string as the claim describes it: nonempty,
every byte one machine byte, every byte except the last with its top bit
set, the last byte with it clear.  Used only in theorem statements. -/
def validVarint : List Nat → Bool
  | [] => false
  | [b] => decide (b < 128)
  | b :: rest => decide (128 ≤ b) && decide (b < 256) && validVarint rest

theorem lor_128_eq (x : Nat) (h : x < 128) : x ||| 128 = 128 + x := by
  revert h
  revert x
  decide

theorem upb_encode_varint_loop_zero (gas : Nat) : upb_encode_varint_loop gas 0 = [] := by
  cases gas <;> simp [upb_encode_varint_loop]

theorem upb_encode_varint_loop_ne_nil (gas val : Nat) (h0 : val ≠ 0)
    (hg : 0 < gas) : upb_encode_varint_loop gas val ≠ [] := by
  cases gas with
  | zero => omega
  | succ g => simp [upb_encode_varint_loop, h0]

theorem upb_encode_varint_loop_value :
    ∀ (gas val : Nat), val < 128 ^ gas →
      varintValue (upb_encode_varint_loop gas val) = val := by
  intro gas
  induction gas with
  | zero =>
    intro val h
    simp at h
    simp [h, upb_encode_varint_loop, varintValue]
  | succ g ih =>
    intro val h
    by_cases h0 : val = 0
    · simp [h0, upb_encode_varint_loop, varintValue]
    · have hdiv : val / 128 < 128 ^ g := by
        rw [Nat.div_lt_iff_lt_mul (by norm_num)]
        calc val < 128 ^ (g + 1) := h
        _ = 128 ^ g * 128 := by ring
      rw [upb_encode_varint_loop]
      simp only [h0, if_false]
      by_cases hd : val / 128 ≠ 0
      · rw [if_pos hd]
        simp only [varintValue]
        rw [lor_128_eq _ (Nat.mod_lt _ (by norm_num))]
        rw [ih _ hdiv]
        omega
      · rw [if_neg hd]
        simp only [varintValue]
        simp at hd
        rw [ih _ hdiv]
        have := Nat.mod_lt val (y := 128) (by norm_num)
        omega

theorem upb_encode_varint_loop_length_le :
    ∀ (k gas val : Nat), val < 128 ^ k → k ≤ gas →
      (upb_encode_varint_loop gas val).length ≤ k := by
  intro k
  induction k with
  | zero =>
    intro gas val h _
    simp at h
    simp [h, upb_encode_varint_loop_zero]
  | succ j ih =>
    intro gas val h hg
    match gas, hg with
    | g + 1, hg =>
      by_cases h0 : val = 0
      · simp [h0, upb_encode_varint_loop_zero]
      · rw [upb_encode_varint_loop]
        simp only [h0, if_false, List.length_cons]
        have hdiv : val / 128 < 128 ^ j := by
          rw [Nat.div_lt_iff_lt_mul (by norm_num)]
          calc val < 128 ^ (j + 1) := h
          _ = 128 ^ j * 128 := by ring
        have := ih g (val / 128) hdiv (by omega)
        omega

theorem upb_encode_varint_loop_gas_irrel :
    ∀ (g g' val : Nat), val < 128 ^ g → val < 128 ^ g' →
      upb_encode_varint_loop g val = upb_encode_varint_loop g' val := by
  intro g
  induction g with
  | zero =>
    intro g' val h _
    simp at h
    simp [h, upb_encode_varint_loop_zero]
  | succ j ih =>
    intro g' val h h'
    by_cases h0 : val = 0
    · simp [h0, upb_encode_varint_loop_zero]
    · match g' with
      | 0 =>
        exfalso
        simp at h'
        omega
      | k + 1 =>
        rw [upb_encode_varint_loop, upb_encode_varint_loop]
        simp only [h0, if_false]
        have hdj : val / 128 < 128 ^ j := by
          rw [Nat.div_lt_iff_lt_mul (by norm_num)]
          calc val < 128 ^ (j + 1) := h
          _ = 128 ^ j * 128 := by ring
        have hdk : val / 128 < 128 ^ k := by
          rw [Nat.div_lt_iff_lt_mul (by norm_num)]
          calc val < 128 ^ (k + 1) := h'
          _ = 128 ^ k * 128 := by ring
        rw [ih k (val / 128) hdj hdk]

theorem upb_encode_varint_loop_length_le_gas :
    ∀ (gas val : Nat), (upb_encode_varint_loop gas val).length ≤ gas := by
  intro gas
  induction gas with
  | zero => intro val; simp [upb_encode_varint_loop]
  | succ g ih =>
    intro val
    rw [upb_encode_varint_loop]
    by_cases h0 : val = 0
    · simp [h0]
    · simp only [h0, if_false, List.length_cons]
      have := ih (val / 128)
      omega

theorem upb_encode_varint_eq_loop (gas v : Nat) (h0 : v ≠ 0) (hv : v < 128 ^ gas)
    (hv10 : v < 128 ^ UPB_PB_VARINT_MAX_LEN) :
    upb_encode_varint v = upb_encode_varint_loop gas v := by
  rw [upb_encode_varint]
  by_cases hlt : v < 128
  · rw [if_pos hlt]
    match gas with
    | 0 => simp at hv; omega
    | g + 1 =>
      rw [upb_encode_varint_loop]
      have hd : v / 128 = 0 := Nat.div_eq_of_lt hlt
      simp only [h0, if_false, hd]
      simp [upb_encode_varint_loop_zero, Nat.mod_eq_of_lt hlt]
  · rw [if_neg hlt]
    exact upb_encode_varint_loop_gas_irrel _ gas v hv10 hv

theorem upb_encode_varint_loop_valid :
    ∀ (gas val : Nat), val ≠ 0 → val < 128 ^ gas →
      validVarint (upb_encode_varint_loop gas val) = true := by
  intro gas
  induction gas with
  | zero =>
    intro val h0 h
    simp at h
    omega
  | succ g ih =>
    intro val h0 h
    have hdiv : val / 128 < 128 ^ g := by
      rw [Nat.div_lt_iff_lt_mul (by norm_num)]
      calc val < 128 ^ (g + 1) := h
      _ = 128 ^ g * 128 := by ring
    rw [upb_encode_varint_loop]
    simp only [h0, if_false]
    by_cases hd : val / 128 ≠ 0
    · rw [if_pos hd]
      have hg : 0 < g := by
        rcases Nat.eq_zero_or_pos g with hg0 | hg0
        · exfalso
          rw [hg0] at hdiv
          simp at hdiv
          omega
        · exact hg0
      have hne := upb_encode_varint_loop_ne_nil g (val / 128) (by omega) hg
      rcases List.exists_cons_of_ne_nil hne with ⟨t, ts, hts⟩
      rw [hts]
      have hvalid := ih (val / 128) (by omega) hdiv
      rw [hts] at hvalid
      rw [lor_128_eq _ (Nat.mod_lt _ (by norm_num))]
      have hb : val % 128 < 128 := Nat.mod_lt _ (by norm_num)
      simp [validVarint] at hvalid ⊢
      exact ⟨by omega, hvalid⟩
    · rw [if_neg hd]
      simp at hd
      rw [hd, upb_encode_varint_loop_zero]
      have hb : val % 128 < 128 := Nat.mod_lt _ (by norm_num)
      simp [validVarint]
      omega

theorem upb_encode_varint_length_le (val : Nat) :
    (upb_encode_varint val).length ≤ 10 := by
  rw [upb_encode_varint]
  by_cases h : val < 128
  · simp [h]
  · rw [if_neg h]
    exact upb_encode_varint_loop_length_le_gas _ _

theorem upb_encode_varint_length_pos (val : Nat) :
    1 ≤ (upb_encode_varint val).length := by
  rw [upb_encode_varint]
  by_cases h : val < 128
  · simp [h]
  · rw [if_neg h]
    have := upb_encode_varint_loop_ne_nil UPB_PB_VARINT_MAX_LEN val (by omega)
      (by norm_num [UPB_PB_VARINT_MAX_LEN])
    have := List.length_pos.mpr this
    omega

theorem upb_encode_varint_value (val : Nat) (h : val < 2 ^ 64) :
    varintValue (upb_encode_varint val) = val := by
  rw [upb_encode_varint]
  by_cases hlt : val < 128
  · simp [hlt, varintValue, Nat.mod_eq_of_lt hlt]
  · rw [if_neg hlt]
    apply upb_encode_varint_loop_value
    calc val < 2 ^ 64 := h
    _ < 128 ^ UPB_PB_VARINT_MAX_LEN := by norm_num [UPB_PB_VARINT_MAX_LEN]

theorem upb_encode_varint_valid (val : Nat) (h : val < 2 ^ 64) :
    validVarint (upb_encode_varint val) = true := by
  rw [upb_encode_varint]
  by_cases hlt : val < 128
  · simp [hlt, validVarint]
  · rw [if_neg hlt]
    apply upb_encode_varint_loop_valid _ _ (by omega)
    calc val < 2 ^ 64 := h
    _ < 128 ^ UPB_PB_VARINT_MAX_LEN := by norm_num [UPB_PB_VARINT_MAX_LEN]

theorem varintValue_lt_pow (bs : List Nat) : varintValue bs < 128 ^ bs.length := by
  induction bs with
  | nil => simp [varintValue]
  | cons b rest ih =>
    simp only [varintValue, List.length_cons]
    have hb : b % 128 < 128 := Nat.mod_lt _ (by norm_num)
    have : 128 ^ (rest.length + 1) = 128 * 128 ^ rest.length := by ring
    rw [this]
    omega

theorem upb_encode_varint_small (v : Nat) (h : v < 128) :
    upb_encode_varint v = [v] := by
  simp [upb_encode_varint, h]

theorem varint_canon :
    ∀ (bs : List Nat), validVarint bs = true →
      bs = upb_encode_varint (varintValue bs) ∨
        (upb_encode_varint (varintValue bs)).length < bs.length := by
  intro bs
  induction bs with
  | nil => intro h; simp [validVarint] at h
  | cons b rest ih =>
    intro h
    match rest, ih with
    | [], _ =>
      left
      simp only [validVarint, decide_eq_true_eq] at h
      simp only [varintValue, Nat.mod_eq_of_lt h, Nat.mul_zero, Nat.add_zero]
      rw [upb_encode_varint_small b h]
    | r :: rs, ih =>
      simp only [validVarint, Bool.and_eq_true, decide_eq_true_eq] at h
      obtain ⟨⟨hb128, hb256⟩, hrest⟩ := h
      have ihr := ih hrest
      set R := varintValue (r :: rs) with hR
      have hval : varintValue (b :: r :: rs) = b % 128 + 128 * R := rfl
      have hbmod : b % 128 < 128 := Nat.mod_lt _ (by norm_num)
      by_cases hR0 : R = 0
      · right
        rw [hval, hR0, Nat.mul_zero, Nat.add_zero]
        rw [upb_encode_varint_small _ hbmod]
        simp
      · by_cases hlen : (b :: r :: rs).length ≤ 10
        · have hlenr : (r :: rs).length ≤ 9 := by
            simp only [List.length_cons] at hlen ⊢
            omega
          have hRlt9 : R < 128 ^ 9 := by
            calc R < 128 ^ (r :: rs).length := varintValue_lt_pow _
            _ ≤ 128 ^ 9 := Nat.pow_le_pow_right (by norm_num) hlenr
          have hRlt10 : R < 128 ^ UPB_PB_VARINT_MAX_LEN := by
            calc R < 128 ^ 9 := hRlt9
            _ ≤ 128 ^ UPB_PB_VARINT_MAX_LEN := by norm_num [UPB_PB_VARINT_MAX_LEN]
          have hv : b % 128 + 128 * R < 128 ^ UPB_PB_VARINT_MAX_LEN := by
            calc b % 128 + 128 * R < 128 + 128 * R := by omega
            _ = 128 * (R + 1) := by ring
            _ ≤ 128 * 128 ^ 9 := by
                have : R + 1 ≤ 128 ^ 9 := hRlt9
                exact Nat.mul_le_mul_left _ this
            _ = 128 ^ 10 := by norm_num
            _ = 128 ^ UPB_PB_VARINT_MAX_LEN := by norm_num [UPB_PB_VARINT_MAX_LEN]
          have hdiv : (b % 128 + 128 * R) / 128 = R := by omega
          have hmod : (b % 128 + 128 * R) % 128 = b % 128 := by omega
          have hLoopR : upb_encode_varint_loop 9 R = upb_encode_varint R := by
            rw [upb_encode_varint_eq_loop 9 R hR0 hRlt9 hRlt10]
          have hEnc : upb_encode_varint (b % 128 + 128 * R) =
              b :: upb_encode_varint_loop 9 R := by
            rw [upb_encode_varint_eq_loop UPB_PB_VARINT_MAX_LEN _ (by omega) hv hv]
            rw [show UPB_PB_VARINT_MAX_LEN = 9 + 1 from by
              norm_num [UPB_PB_VARINT_MAX_LEN]]
            rw [upb_encode_varint_loop]
            rw [if_neg (by omega : ¬(b % 128 + 128 * R = 0))]
            rw [hdiv, hmod, if_pos hR0]
            rw [lor_128_eq _ hbmod]
            have hbeq : 128 + b % 128 = b := by omega
            rw [hbeq]
          rcases ihr with hcan | hshort
          · left
            rw [hval, hEnc, hLoopR, ← hcan]
          · right
            rw [hval, hEnc]
            simp only [List.length_cons]
            rw [hLoopR]
            simp only [List.length_cons] at hshort
            omega
        · right
          have := upb_encode_varint_length_le (varintValue (b :: r :: rs))
          simp only [List.length_cons] at hlen ⊢
          omega

/-- C7: for every 64-bit value `v`, `upb_encode_varint v` is the unique
minimal-length base-128 little-endian encoding of `v`: 1 to 10 bytes, every
byte except the last with the top bit set and the last with it clear
(`validVarint`), denoting exactly `v` (`varintValue`), no shorter well-formed
encoding of `v` exists and the one of equal (minimal) length is it; in
particular `0 ↦ [0x00]`, `127 ↦ [0x7F]`, `128 ↦ [0x80, 0x01]`. -/
theorem varint_minimal_unique :
    (∀ v : Nat, v < 2 ^ 64 →
      1 ≤ (upb_encode_varint v).length ∧ (upb_encode_varint v).length ≤ 10 ∧
      validVarint (upb_encode_varint v) = true ∧
      varintValue (upb_encode_varint v) = v ∧
      (∀ bs : List Nat, validVarint bs = true → varintValue bs = v →
        (upb_encode_varint v).length ≤ bs.length ∧
          (bs.length = (upb_encode_varint v).length → bs = upb_encode_varint v))) ∧
    upb_encode_varint 0 = [0] ∧ upb_encode_varint 127 = [127] ∧
    upb_encode_varint 128 = [128, 1] := by
  refine ⟨?_, by decide, by decide, by decide⟩
  intro v hv
  refine ⟨upb_encode_varint_length_pos v, upb_encode_varint_length_le v,
    upb_encode_varint_valid v hv, upb_encode_varint_value v hv, ?_⟩
  intro bs hbs hbsv
  have hcan := varint_canon bs hbs
  rw [hbsv] at hcan
  rcases hcan with hcan | hshort
  · constructor
    · rw [hcan]
    · intro _
      exact hcan
  · constructor
    · omega
    · intro heq
      omega

/-- Witness for C7 at `v = 300` (and the competing well-formed encoding
`[0xAC, 0x02]`). -/
theorem varint_minimal_unique_witness :
    varintValue (upb_encode_varint 300) = 300 ∧
      (upb_encode_varint 300).length ≤ ([172, 2] : List Nat).length := by
  have h := varint_minimal_unique.1 300 (by norm_num)
  exact ⟨h.2.2.2.1, (h.2.2.2.2 [172, 2] (by decide) (by decide)).1⟩

/-! ## Properties of the zigzag codec -/

theorem xor_allones {w m : Nat} (h : m < 2 ^ w) :
    m ^^^ (2 ^ w - 1) = 2 ^ w - 1 - m := by
  apply Nat.eq_of_testBit_eq
  intro i
  rw [Nat.testBit_xor, Nat.testBit_two_pow_sub_one]
  have h2 : 2 ^ w - 1 - m = 2 ^ w - (m + 1) := by omega
  rw [h2, Nat.testBit_two_pow_sub_succ h]
  by_cases hiw : i < w
  · simp [hiw]
  · have hm : m.testBit i = false := by
      apply Nat.testBit_lt_two_pow
      calc m < 2 ^ w := h
      _ ≤ 2 ^ i := Nat.pow_le_pow_right (by norm_num) (by omega)
    simp [hiw, hm]

theorem zz_char (w rep : Nat) (h : rep < 2 ^ (w + 1)) :
    ((2 * rep) % 2 ^ (w + 1)) ^^^ (if rep < 2 ^ w then 0 else 2 ^ (w + 1) - 1) =
      if rep < 2 ^ w then 2 * rep else 2 * (2 ^ (w + 1) - rep) - 1 := by
  have hpow : 2 ^ (w + 1) = 2 * 2 ^ w := by ring
  by_cases hsign : rep < 2 ^ w
  · rw [if_pos hsign, if_pos hsign, Nat.xor_zero, Nat.mod_eq_of_lt (by omega)]
  · rw [if_neg hsign, if_neg hsign]
    push_neg at hsign
    have hmod : (2 * rep) % 2 ^ (w + 1) = 2 * rep - 2 ^ (w + 1) := by
      rw [Nat.mod_eq_sub_mod (by omega), Nat.mod_eq_of_lt (by omega)]
    rw [hmod, xor_allones (by omega)]
    omega

/-- The 32-bit two's-complement pattern of a signed integer (how an
`int32_t` argument is passed to `upb_zzencode_32`); theorem-statement
helper. -/
def int32_rep (n : Int) : Nat := (n % 2 ^ 32).toNat

/-- The 64-bit two's-complement pattern of a signed integer. -/
def int64_rep (n : Int) : Nat := (n % 2 ^ 64).toNat

/-- Modelled from the spec: `zigzagDecode` (the inverse direction lives in
the decoder, outside this source tree).  Even values decode to `u / 2`, odd
values to `-(u / 2 + 1)`. -/
def upb_zzdecode_32 (u : Nat) : Int :=
  if u % 2 = 0 then ((u / 2 : Nat) : Int) else -(((u / 2 : Nat) : Int) + 1)

/-- Modelled from the spec: 64-bit zigzag decoding. -/
def upb_zzdecode_64 (u : Nat) : Int :=
  if u % 2 = 0 then ((u / 2 : Nat) : Int) else -(((u / 2 : Nat) : Int) + 1)

theorem upb_zzencode_32_char (rep : Nat) (h : rep < 2 ^ 32) :
    upb_zzencode_32 rep = if rep < 2 ^ 31 then 2 * rep else 2 * (2 ^ 32 - rep) - 1 := by
  have := zz_char 31 rep (by norm_num at h ⊢; omega)
  norm_num at this ⊢
  rw [upb_zzencode_32, Nat.shiftLeft_eq]
  norm_num
  rw [Nat.mul_comm rep 2]
  exact this

theorem upb_zzencode_64_char (rep : Nat) (h : rep < 2 ^ 64) :
    upb_zzencode_64 rep = if rep < 2 ^ 63 then 2 * rep else 2 * (2 ^ 64 - rep) - 1 := by
  have := zz_char 63 rep (by norm_num at h ⊢; omega)
  norm_num at this ⊢
  rw [upb_zzencode_64, Nat.shiftLeft_eq]
  norm_num
  rw [Nat.mul_comm rep 2]
  exact this

theorem zz32_roundtrip (n : Int) (h1 : -(2 ^ 31) ≤ n) (h2 : n < 2 ^ 31) :
    upb_zzdecode_32 (upb_zzencode_32 (int32_rep n)) = n := by
  rcases le_or_lt 0 n with hpos | hneg
  · have hmod : n % 2 ^ 32 = n := Int.emod_eq_of_lt hpos (by omega)
    have hrep : int32_rep n = n.toNat := by rw [int32_rep, hmod]
    have hlt : n.toNat < 2 ^ 31 := by omega
    rw [hrep, upb_zzencode_32_char _ (by omega), if_pos hlt]
    rw [upb_zzdecode_32, if_pos (by omega)]
    rw [Nat.mul_div_cancel_left _ (by norm_num)]
    omega
  · have hmod : n % 2 ^ 32 = n + 2 ^ 32 := by omega
    have hrep : (int32_rep n : Int) = n + 2 ^ 32 := by
      rw [int32_rep, hmod]
      omega
    have hge : 2 ^ 31 ≤ int32_rep n := by omega
    have hlt : int32_rep n < 2 ^ 32 := by omega
    rw [upb_zzencode_32_char _ hlt, if_neg (by omega)]
    have hm1 : 1 ≤ 2 ^ 32 - int32_rep n := by omega
    rw [upb_zzdecode_32, if_neg (by omega)]
    have hdiv : (2 * (2 ^ 32 - int32_rep n) - 1) / 2 = 2 ^ 32 - int32_rep n - 1 := by
      omega
    rw [hdiv]
    push_cast
    omega

theorem zz64_roundtrip (n : Int) (h1 : -(2 ^ 63) ≤ n) (h2 : n < 2 ^ 63) :
    upb_zzdecode_64 (upb_zzencode_64 (int64_rep n)) = n := by
  rcases le_or_lt 0 n with hpos | hneg
  · have hmod : n % 2 ^ 64 = n := Int.emod_eq_of_lt hpos (by omega)
    have hrep : int64_rep n = n.toNat := by rw [int64_rep, hmod]
    have hlt : n.toNat < 2 ^ 63 := by omega
    rw [hrep, upb_zzencode_64_char _ (by omega), if_pos hlt]
    rw [upb_zzdecode_64, if_pos (by omega)]
    rw [Nat.mul_div_cancel_left _ (by norm_num)]
    omega
  · have hmod : n % 2 ^ 64 = n + 2 ^ 64 := by omega
    have hrep : (int64_rep n : Int) = n + 2 ^ 64 := by
      rw [int64_rep, hmod]
      omega
    have hge : 2 ^ 63 ≤ int64_rep n := by omega
    have hlt : int64_rep n < 2 ^ 64 := by omega
    rw [upb_zzencode_64_char _ hlt, if_neg (by omega)]
    have hm1 : 1 ≤ 2 ^ 64 - int64_rep n := by omega
    rw [upb_zzdecode_64, if_neg (by omega)]
    have hdiv : (2 * (2 ^ 64 - int64_rep n) - 1) / 2 = 2 ^ 64 - int64_rep n - 1 := by
      omega
    rw [hdiv]
    push_cast
    omega

theorem zz32_decode_encode (u : Nat) (h : u < 2 ^ 32) :
    upb_zzencode_32 (int32_rep (upb_zzdecode_32 u)) = u := by
  by_cases hev : u % 2 = 0
  · rw [upb_zzdecode_32, if_pos hev]
    have hmod : ((u / 2 : Nat) : Int) % 2 ^ 32 = ((u / 2 : Nat) : Int) :=
      Int.emod_eq_of_lt (by omega) (by omega)
    have hrep : int32_rep ((u / 2 : Nat) : Int) = u / 2 := by
      rw [int32_rep, hmod]
      omega
    rw [hrep, upb_zzencode_32_char _ (by omega), if_pos (by omega)]
    omega
  · rw [upb_zzdecode_32, if_neg hev]
    have hrep : int32_rep (-(((u / 2 : Nat) : Int) + 1)) = 2 ^ 32 - u / 2 - 1 := by
      rw [int32_rep]
      have : (-(((u / 2 : Nat) : Int) + 1)) % 2 ^ 32 = 2 ^ 32 - (u / 2 : Nat) - 1 := by
        omega
      rw [this]
      omega
    rw [hrep, upb_zzencode_32_char _ (by omega), if_neg (by omega)]
    omega

/-- C8: `upb_zzencode_32` (the source's `(n << 1) ^ (n >> 31)` on the 32-bit
two's-complement pattern, with `upb_zzencode_64` its 64-bit analogue) maps
`n ≥ 0` to `2n` and `n < 0` to `-2n - 1`, is inverted by zigzag decoding on
every 32-bit signed integer including `INT32_MIN`, is a bijection onto the
32-bit unsigned range (zigzag decoding composed the other way is also the
identity), and sends `-1 ↦ 1`, `1 ↦ 2`. -/
theorem zigzag_bijection :
    (∀ n : Int, -(2 ^ 31) ≤ n → n < 2 ^ 31 →
      upb_zzencode_32 (int32_rep n) =
        (if 0 ≤ n then (2 * n).toNat else (-(2 * n) - 1).toNat) ∧
      upb_zzdecode_32 (upb_zzencode_32 (int32_rep n)) = n) ∧
    (∀ u : Nat, u < 2 ^ 32 → upb_zzencode_32 (int32_rep (upb_zzdecode_32 u)) = u) ∧
    (∀ n : Int, -(2 ^ 63) ≤ n → n < 2 ^ 63 →
      upb_zzdecode_64 (upb_zzencode_64 (int64_rep n)) = n) ∧
    upb_zzdecode_32 (upb_zzencode_32 (int32_rep (-(2 ^ 31)))) = -(2 ^ 31) ∧
    upb_zzencode_32 (int32_rep (-1)) = 1 ∧ upb_zzencode_32 (int32_rep 1) = 2 := by
  refine ⟨?_, zz32_decode_encode, zz64_roundtrip,
    zz32_roundtrip _ (by norm_num) (by norm_num), by decide, by decide⟩
  intro n h1 h2
  refine ⟨?_, zz32_roundtrip n h1 h2⟩
  rcases le_or_lt 0 n with hpos | hneg
  · have hmod : n % 2 ^ 32 = n := Int.emod_eq_of_lt hpos (by omega)
    have hrep : int32_rep n = n.toNat := by rw [int32_rep, hmod]
    rw [hrep, upb_zzencode_32_char _ (by omega), if_pos (by omega), if_pos hpos]
    omega
  · have hmod : n % 2 ^ 32 = n + 2 ^ 32 := by omega
    have hrep : (int32_rep n : Int) = n + 2 ^ 32 := by
      rw [int32_rep, hmod]
      omega
    rw [upb_zzencode_32_char _ (by omega), if_neg (by omega), if_neg (by omega)]
    omega

/-- Witness for C8 at `n = -3` (encodes to `5`, decodes back to `-3`) and
`u = 7`. -/
theorem zigzag_bijection_witness :
    upb_zzdecode_32 (upb_zzencode_32 (int32_rep (-3))) = -3 ∧
      upb_zzencode_32 (int32_rep (upb_zzdecode_32 7)) = 7 :=
  ⟨(zigzag_bijection.1 (-3) (by norm_num) (by norm_num)).2,
    zigzag_bijection.2.1 7 (by norm_num)⟩

/-! ## Buffer-layer lemmas -/

theorem upb_roundup_pow2_loop_ge :
    ∀ (gas bytes ret : Nat), bytes ≤ ret * 2 ^ gas →
      bytes ≤ upb_roundup_pow2_loop gas bytes ret ∧
        ret ≤ upb_roundup_pow2_loop gas bytes ret := by
  intro gas
  induction gas with
  | zero =>
    intro bytes ret h
    simp at h
    simp [upb_roundup_pow2_loop]
    omega
  | succ g ih =>
    intro bytes ret h
    rw [upb_roundup_pow2_loop]
    by_cases hlt : ret < bytes
    · rw [if_pos hlt]
      have h2 : bytes ≤ ret * 2 * 2 ^ g := by
        calc bytes ≤ ret * 2 ^ (g + 1) := h
        _ = ret * 2 * 2 ^ g := by ring
      have := ih bytes (ret * 2) h2
      omega
    · rw [if_neg hlt]
      omega

theorem upb_roundup_pow2_ge (bytes : Nat) :
    bytes ≤ upb_roundup_pow2 bytes ∧ 128 ≤ upb_roundup_pow2 bytes := by
  apply upb_roundup_pow2_loop_ge
  calc bytes ≤ 2 ^ bytes := Nat.le_of_lt (Nat.lt_two_pow bytes)
  _ ≤ 128 * 2 ^ bytes := by omega

theorem drop_append_ge {α : Type} {A B : List α} {k : Nat} (h : A.length ≤ k) :
    (A ++ B).drop k = B.drop (k - A.length) := by
  rw [show k = A.length + (k - A.length) from by omega, ← List.drop_drop,
    List.drop_left]
  congr 1
  omega

theorem listWrite_length {mem data : List Nat} {off : Nat}
    (h : off + data.length ≤ mem.length) :
    (listWrite mem off data).length = mem.length := by
  unfold listWrite
  simp [List.length_take, List.length_drop]
  omega

theorem listWrite_drop_high {mem data : List Nat} {off k : Nat}
    (h : off + data.length ≤ mem.length) (hk : off + data.length ≤ k) :
    (listWrite mem off data).drop k = mem.drop k := by
  unfold listWrite
  have hlen : (mem.take off ++ data).length = off + data.length := by
    simp [List.length_take]
    omega
  rw [drop_append_ge (by omega), hlen, List.drop_drop]
  congr 1
  omega

theorem listWrite_drop_at {mem data : List Nat} {off : Nat}
    (h : off + data.length ≤ mem.length) :
    (listWrite mem off data).drop off = data ++ mem.drop (off + data.length) := by
  unfold listWrite
  rw [List.append_assoc]
  exact List.drop_left' (by simp [List.length_take]; omega)

theorem memStore_in {base cap : Nat} {mem data : List Nat} {addr : Nat}
    (h1 : base ≤ addr) (h2 : addr + data.length ≤ base + cap) :
    memStore base cap mem addr data = listWrite mem (addr - base) data := by
  unfold memStore
  rw [if_pos ⟨h1, h2⟩]

theorem memStore_length {base cap : Nat} {mem data : List Nat} {addr : Nat}
    (h : mem.length = cap) :
    (memStore base cap mem addr data).length = cap := by
  unfold memStore
  split
  · rw [listWrite_length (by omega)]
    exact h
  · exact h

theorem memMove_length {base cap : Nat} {mem : List Nat} {dst src n : Nat}
    (h : mem.length = cap) :
    (memMove base cap mem dst src n).length = cap := by
  unfold memMove
  split
  · exact memStore_length h
  · exact h

theorem growbuffer_spec {env : Nat → Bool} {e e1 : upb_encstate} {bytes : Nat}
    (hwf : e.wf) (h : upb_encode_growbuffer env e bytes = some e1) :
    e1.wf ∧ e1.used = e.used ∧ bytes ≤ e1.ptr - e1.base := by
  obtain ⟨hw1, hw2, hw3⟩ := hwf
  rw [upb_encode_growbuffer, upb_env_realloc] at h
  by_cases henv : env (upb_roundup_pow2 (bytes + (e.base + e.cap - e.ptr))) = true
  · rw [if_pos henv] at h
    simp only [Option.some.injEq] at h
    subst h
    have hge := upb_roundup_pow2_ge (bytes + (e.base + e.cap - e.ptr))
    have hmemlen :
        (e.mem.take (upb_roundup_pow2 (bytes + (e.base + e.cap - e.ptr))) ++
          List.replicate (upb_roundup_pow2 (bytes + (e.base + e.cap - e.ptr)) - e.cap) 0).length =
          upb_roundup_pow2 (bytes + (e.base + e.cap - e.ptr)) := by
      simp [List.length_take, hw3]
      omega
    refine ⟨⟨?_, ?_, ?_⟩, ?_, ?_⟩
    · simp only [upb_encstate.wf]
      omega
    · simp only [upb_encstate.wf]
      omega
    · exact memMove_length hmemlen
    · simp only [upb_encstate.used]
      omega
    · simp only []
      omega
  · rw [if_neg henv] at h
    simp at h

theorem reserve_spec {env : Nat → Bool} {e e1 : upb_encstate} {bytes : Nat}
    (hwf : e.wf) (h : upb_encode_reserve env e bytes = some e1) :
    e1.wf ∧ e1.used = e.used + bytes := by
  rw [upb_encode_reserve] at h
  by_cases hroom : bytes ≤ e.ptr - e.base
  · rw [if_pos hroom] at h
    simp only [Option.some.injEq] at h
    subst h
    obtain ⟨hw1, hw2, hw3⟩ := hwf
    refine ⟨⟨?_, ?_, ?_⟩, ?_⟩
    · show e.base ≤ e.ptr - bytes
      omega
    · show e.ptr - bytes ≤ e.base + e.cap
      omega
    · exact hw3
    · show e.base + e.cap - (e.ptr - bytes) = (e.base + e.cap - e.ptr) + bytes
      omega
  · rw [if_neg hroom] at h
    rcases hgb : upb_encode_growbuffer env e bytes with _ | e2
    · rw [hgb] at h
      simp at h
    · rw [hgb] at h
      simp only [Option.some.injEq] at h
      subst h
      obtain ⟨⟨hg1, hg2, hg3⟩, hgu, hgb2⟩ := growbuffer_spec hwf hgb
      simp only [upb_encstate.used] at hgu
      refine ⟨⟨?_, ?_, ?_⟩, ?_⟩
      · show e2.base ≤ e2.ptr - bytes
        omega
      · show e2.ptr - bytes ≤ e2.base + e2.cap
        omega
      · exact hg3
      · show e2.base + e2.cap - (e2.ptr - bytes) = (e.base + e.cap - e.ptr) + bytes
        omega

theorem put_bytes_spec {env : Nat → Bool} {e e1 : upb_encstate} {data : List Nat}
    (hwf : e.wf) (h : upb_put_bytes env e data = some e1) :
    e1.wf ∧ e1.used = e.used + data.length := by
  rw [upb_put_bytes] at h
  rcases hr : upb_encode_reserve env e data.length with _ | e2
  · rw [hr] at h
    simp at h
  · rw [hr] at h
    simp only [Option.some.injEq] at h
    subst h
    obtain ⟨⟨h1, h2, h3⟩, hu⟩ := reserve_spec hwf hr
    exact ⟨⟨h1, h2, memStore_length h3⟩, hu⟩

theorem put_fixed64_spec {env : Nat → Bool} {e e1 : upb_encstate} {val : Nat}
    (hwf : e.wf) (h : upb_put_fixed64 env e val = some e1) :
    e1.wf ∧ e1.used = e.used + 8 :=
  put_bytes_spec hwf h

theorem put_fixed32_spec {env : Nat → Bool} {e e1 : upb_encstate} {val : Nat}
    (hwf : e.wf) (h : upb_put_fixed32 env e val = some e1) :
    e1.wf ∧ e1.used = e.used + 4 :=
  put_bytes_spec hwf h

theorem put_varint_spec {env : Nat → Bool} {e e1 : upb_encstate} {val : Nat}
    (hwf : e.wf) (h : upb_put_varint env e val = some e1) :
    e1.wf ∧ e1.used = e.used + (upb_encode_varint val).length := by
  rw [upb_put_varint] at h
  rcases hr : upb_encode_reserve env e UPB_PB_VARINT_MAX_LEN with _ | e2
  · rw [hr] at h
    simp at h
  · rw [hr] at h
    simp only [Option.some.injEq] at h
    subst h
    obtain ⟨⟨h1, h2, h3⟩, hu⟩ := reserve_spec hwf hr
    have hlen := upb_encode_varint_length_le val
    have hpos := upb_encode_varint_length_pos val
    have hmax : UPB_PB_VARINT_MAX_LEN = 10 := rfl
    have hm1 : (memStore e2.base e2.cap e2.mem e2.ptr (upb_encode_varint val)).length
        = e2.cap := memStore_length h3
    simp only [upb_encstate.used] at hu
    refine ⟨⟨?_, ?_, ?_⟩, ?_⟩
    · show e2.base ≤ e2.ptr + UPB_PB_VARINT_MAX_LEN - (upb_encode_varint val).length
      omega
    · show e2.ptr + UPB_PB_VARINT_MAX_LEN - (upb_encode_varint val).length ≤
        e2.base + e2.cap
      omega
    · exact memMove_length hm1
    · show e2.base + e2.cap -
          (e2.ptr + UPB_PB_VARINT_MAX_LEN - (upb_encode_varint val).length) =
        (e.base + e.cap - e.ptr) + (upb_encode_varint val).length
      omega

theorem put_tag_spec {env : Nat → Bool} {e e1 : upb_encstate} {num wt : Nat}
    (hwf : e.wf) (h : upb_put_tag env e num wt = some e1) :
    e1.wf ∧ e.used < e1.used := by
  rw [upb_put_tag] at h
  obtain ⟨h1, h2⟩ := put_varint_spec hwf h
  have := upb_encode_varint_length_pos ((num <<< 3) ||| wt)
  exact ⟨h1, by omega⟩

theorem put_double_spec {env : Nat → Bool} {e e1 : upb_encstate} {val : Nat}
    (hwf : e.wf) (h : upb_put_double env e val = some e1) :
    e1.wf ∧ e1.used = e.used + 8 :=
  put_fixed64_spec hwf h

theorem put_float_spec {env : Nat → Bool} {e e1 : upb_encstate} {val : Nat}
    (hwf : e.wf) (h : upb_put_float env e val = some e1) :
    e1.wf ∧ e1.used = e.used + 4 :=
  put_fixed32_spec hwf h

theorem put_fixedarray_spec {env : Nat → Bool} {e e1 : upb_encstate}
    {arr : upb_array} {size : Nat}
    (hwf : e.wf) (h : upb_put_fixedarray env e arr size = some e1) :
    e1.wf ∧ e.used ≤ e1.used := by
  rw [upb_put_fixedarray] at h
  rcases harr : arr.adata with l | l | l <;> rw [harr] at h <;> try simp at h
  rcases hb : upb_put_bytes env e ((l.map fun v => natLE size (v % 2 ^ (8 * size))).flatten)
    with _ | e2
  · rw [hb] at h
    simp at h
  · rw [hb] at h
    obtain ⟨h1, h2⟩ := put_bytes_spec hwf hb
    obtain ⟨h3, h4⟩ := put_varint_spec h1 h
    exact ⟨h3, by omega⟩

theorem put_varintloop_spec {env : Nat → Bool} {encf : Nat → Nat} :
    ∀ {elems : List Nat} {e e1 : upb_encstate},
      e.wf → upb_put_varintloop env e elems encf = some e1 →
      e1.wf ∧ e.used ≤ e1.used := by
  intro elems
  induction elems with
  | nil =>
    intro e e1 hwf h
    rw [upb_put_varintloop] at h
    simp only [Option.some.injEq] at h
    subst h
    exact ⟨hwf, Nat.le_refl _⟩
  | cons v rest ih =>
    intro e e1 hwf h
    rw [upb_put_varintloop] at h
    rcases hv : upb_put_varint env e (encf v) with _ | e2
    · rw [hv] at h
      simp at h
    · rw [hv] at h
      obtain ⟨h1, h2⟩ := put_varint_spec hwf hv
      obtain ⟨h3, h4⟩ := ih h1 h
      exact ⟨h3, by omega⟩

theorem put_strloop_spec {env : Nat → Bool} {fnumber : Nat} :
    ∀ {elems : List (List Nat)} {e e1 : upb_encstate},
      e.wf → upb_put_strloop env e elems fnumber = some e1 →
      e1.wf ∧ e.used ≤ e1.used := by
  intro elems
  induction elems with
  | nil =>
    intro e e1 hwf h
    rw [upb_put_strloop] at h
    simp only [Option.some.injEq] at h
    subst h
    exact ⟨hwf, Nat.le_refl _⟩
  | cons s rest ih =>
    intro e e1 hwf h
    rw [upb_put_strloop] at h
    rcases h1 : upb_put_bytes env e s with _ | e2
    · rw [h1] at h
      simp at h
    · rw [h1] at h
      dsimp only at h
      rcases h2 : upb_put_varint env e2 s.length with _ | e3
      · rw [h2] at h
        simp at h
      · rw [h2] at h
        dsimp only at h
        rcases h3 : upb_put_tag env e3 fnumber UPB_WIRE_TYPE_DELIMITED with _ | e4
        · rw [h3] at h
          simp at h
        · rw [h3] at h
          obtain ⟨w2, u2⟩ := put_bytes_spec hwf h1
          obtain ⟨w3, u3⟩ := put_varint_spec w2 h2
          obtain ⟨w4, u4⟩ := put_tag_spec w3 h3
          obtain ⟨w5, u5⟩ := ih w4 h
          exact ⟨w5, by omega⟩

theorem put_varintarray_spec {env : Nat → Bool} {e e1 : upb_encstate}
    {arr : upb_array} {f : upb_msglayout_fieldinit_v1} {encf : Nat → Nat}
    (hwf : e.wf) (h : upb_encode_varintarray env e arr f encf = some e1) :
    e1.wf ∧ e.used ≤ e1.used := by
  rw [upb_encode_varintarray] at h
  rcases harr : arr.adata with l | l | l <;> rw [harr] at h <;> try simp at h
  rcases h1 : upb_put_varintloop env e l.reverse encf with _ | e2
  · rw [h1] at h
    simp at h
  · rw [h1] at h
    dsimp only at h
    rcases h2 : upb_put_varint env e2 ((e2.base + e2.cap - e2.ptr) -
        (e.base + e.cap - e.ptr)) with _ | e3
    · rw [h2] at h
      simp at h
    · rw [h2] at h
      obtain ⟨w2, u2⟩ := put_varintloop_spec hwf h1
      obtain ⟨w3, u3⟩ := put_varint_spec w2 h2
      obtain ⟨w4, u4⟩ := put_tag_spec w3 h
      exact ⟨w4, by omega⟩

/-- Monotonicity interface of the recursive message encoder, as used by the
routines that receive it: success preserves well-formedness and never
shrinks the used region. -/
def EncMono (encmsg : EncMsgT) : Prop :=
  ∀ e msg m si r, encmsg e msg m si = some r → e.wf → r.1.wf ∧ e.used ≤ r.1.used

theorem scalar_case_spec {env : Nat → Bool} {e e1 : upb_encstate} {skip : Bool}
    {put : upb_encstate → Option upb_encstate} {fnumber wt : Nat}
    (hput : ∀ e2, put e = some e2 → e2.wf ∧ e.used ≤ e2.used)
    (hwf : e.wf) (h : upb_scalar_case env e skip put fnumber wt = some e1) :
    e1.wf ∧ e.used ≤ e1.used := by
  rw [upb_scalar_case] at h
  split at h
  · simp only [Option.some.injEq] at h
    subst h
    exact ⟨hwf, Nat.le_refl _⟩
  · rcases hp : put e with _ | e2
    · rw [hp] at h
      simp at h
    · rw [hp] at h
      dsimp only at h
      obtain ⟨w2, u2⟩ := hput e2 hp
      obtain ⟨w3, u3⟩ := put_tag_spec w2 h
      exact ⟨w3, by omega⟩

theorem scalar_strcase_spec {env : Nat → Bool} {e e1 : upb_encstate} {skip : Bool}
    {view : List Nat} {fnumber : Nat}
    (hwf : e.wf) (h : upb_scalar_strcase env e skip view fnumber = some e1) :
    e1.wf ∧ e.used ≤ e1.used := by
  rw [upb_scalar_strcase] at h
  split at h
  · simp only [Option.some.injEq] at h
    subst h
    exact ⟨hwf, Nat.le_refl _⟩
  · rcases h1 : upb_put_bytes env e view with _ | e2
    · rw [h1] at h
      simp at h
    · rw [h1] at h
      dsimp only at h
      rcases h2 : upb_put_varint env e2 view.length with _ | e3
      · rw [h2] at h
        simp at h
      · rw [h2] at h
        dsimp only at h
        obtain ⟨w2, u2⟩ := put_bytes_spec hwf h1
        obtain ⟨w3, u3⟩ := put_varint_spec w2 h2
        obtain ⟨w4, u4⟩ := put_tag_spec w3 h
        exact ⟨w4, by omega⟩

theorem array_fixed_case_spec {env : Nat → Bool} {e e1 : upb_encstate}
    {arr : upb_array} {size fnumber : Nat}
    (hwf : e.wf) (h : upb_array_fixed_case env e arr size fnumber = some e1) :
    e1.wf ∧ e.used ≤ e1.used := by
  rw [upb_array_fixed_case] at h
  rcases h1 : upb_put_fixedarray env e arr size with _ | e2
  · rw [h1] at h
    simp at h
  · rw [h1] at h
    dsimp only at h
    obtain ⟨w2, u2⟩ := put_fixedarray_spec hwf h1
    obtain ⟨w3, u3⟩ := put_tag_spec w2 h
    exact ⟨w3, by omega⟩

theorem scalar_groupcase_spec {encmsg : EncMsgT} {env : Nat → Bool} {junk : Nat}
    {e e1 : upb_encstate} {skip : Bool} {submsg : Option upb_msg}
    {subml : Option upb_msglayout_msginit_v1} {fnumber : Nat}
    (hm : EncMono encmsg) (hwf : e.wf)
    (h : upb_scalar_groupcase encmsg env junk e skip submsg subml fnumber = some e1) :
    e1.wf ∧ e.used ≤ e1.used := by
  rw [upb_scalar_groupcase.eq_def] at h
  split at h
  · simp only [Option.some.injEq] at h
    subst h
    exact ⟨hwf, Nat.le_refl _⟩
  · rcases subml with _ | subm
    · simp at h
    · dsimp only at h
      rcases h1 : upb_put_tag env e fnumber UPB_WIRE_TYPE_END_GROUP with _ | e2
      · rw [h1] at h
        simp at h
      · rw [h1] at h
        dsimp only at h
        rcases h2 : encmsg e2 submsg subm junk with _ | r
        · rw [h2] at h
          simp at h
        · rw [h2] at h
          obtain ⟨w2, u2⟩ := put_tag_spec hwf h1
          obtain ⟨w3, u3⟩ := hm e2 submsg subm junk r h2 w2
          rcases r with ⟨e3, sz⟩
          dsimp only at h w3 u3
          obtain ⟨w4, u4⟩ := put_tag_spec w3 h
          exact ⟨w4, by omega⟩

theorem scalar_msgcase_spec {encmsg : EncMsgT} {env : Nat → Bool} {junk : Nat}
    {e e1 : upb_encstate} {skip : Bool} {submsg : Option upb_msg}
    {subml : Option upb_msglayout_msginit_v1} {fnumber : Nat}
    (hm : EncMono encmsg) (hwf : e.wf)
    (h : upb_scalar_msgcase encmsg env junk e skip submsg subml fnumber = some e1) :
    e1.wf ∧ e.used ≤ e1.used := by
  rw [upb_scalar_msgcase.eq_def] at h
  split at h
  · simp only [Option.some.injEq] at h
    subst h
    exact ⟨hwf, Nat.le_refl _⟩
  · rcases subml with _ | subm
    · simp at h
    · dsimp only at h
      rcases h1 : encmsg e submsg subm junk with _ | r
      · rw [h1] at h
        simp at h
      · rw [h1] at h
        obtain ⟨w2, u2⟩ := hm e submsg subm junk r h1 hwf
        rcases r with ⟨e2, sz⟩
        dsimp only at h w2 u2
        rcases h2 : upb_put_varint env e2 sz with _ | e3
        · rw [h2] at h
          simp at h
        · rw [h2] at h
          dsimp only at h
          obtain ⟨w3, u3⟩ := put_varint_spec w2 h2
          obtain ⟨w4, u4⟩ := put_tag_spec w3 h
          exact ⟨w4, by omega⟩


theorem scalarfield_spec {encmsg : EncMsgT} {junk : Nat} {env : Nat → Bool}
    {e e1 : upb_encstate} {v : upb_value} {m : upb_msglayout_msginit_v1}
    {f : upb_msglayout_fieldinit_v1} {p3 : Bool}
    (hm : EncMono encmsg) (hwf : e.wf)
    (h : upb_encode_scalarfield encmsg junk env e v m f p3 = some e1) :
    e1.wf ∧ e.used ≤ e1.used := by
  rw [upb_encode_scalarfield.eq_def] at h
  by_cases t1 : f.type = UPB_DESCRIPTOR_TYPE_DOUBLE
  · rw [if_pos t1] at h
    cases v with
    | vNum vv =>
      exact scalar_case_spec
        (fun e2 he => ⟨(put_double_spec hwf he).1, by have := (put_double_spec hwf he).2; omega⟩)
        hwf h
    | vStr vs => exact Option.noConfusion h
    | vMsgPtr vm => exact Option.noConfusion h
    | vArrPtr va => exact Option.noConfusion h
  rw [if_neg t1] at h
  by_cases t2 : f.type = UPB_DESCRIPTOR_TYPE_FLOAT
  · rw [if_pos t2] at h
    cases v with
    | vNum vv =>
      exact scalar_case_spec
        (fun e2 he => ⟨(put_float_spec hwf he).1, by have := (put_float_spec hwf he).2; omega⟩)
        hwf h
    | vStr vs => exact Option.noConfusion h
    | vMsgPtr vm => exact Option.noConfusion h
    | vArrPtr va => exact Option.noConfusion h
  rw [if_neg t2] at h
  by_cases t3 : f.type = UPB_DESCRIPTOR_TYPE_INT64 ∨ f.type = UPB_DESCRIPTOR_TYPE_UINT64
  · rw [if_pos t3] at h
    cases v with
    | vNum vv =>
      exact scalar_case_spec
        (fun e2 he => ⟨(put_varint_spec hwf he).1, by have := (put_varint_spec hwf he).2; omega⟩)
        hwf h
    | vStr vs => exact Option.noConfusion h
    | vMsgPtr vm => exact Option.noConfusion h
    | vArrPtr va => exact Option.noConfusion h
  rw [if_neg t3] at h
  by_cases t4 : f.type = UPB_DESCRIPTOR_TYPE_UINT32 ∨ f.type = UPB_DESCRIPTOR_TYPE_INT32 ∨
      f.type = UPB_DESCRIPTOR_TYPE_ENUM
  · rw [if_pos t4] at h
    cases v with
    | vNum vv =>
      exact scalar_case_spec
        (fun e2 he => ⟨(put_varint_spec hwf he).1, by have := (put_varint_spec hwf he).2; omega⟩)
        hwf h
    | vStr vs => exact Option.noConfusion h
    | vMsgPtr vm => exact Option.noConfusion h
    | vArrPtr va => exact Option.noConfusion h
  rw [if_neg t4] at h
  by_cases t5 : f.type = UPB_DESCRIPTOR_TYPE_SFIXED64 ∨ f.type = UPB_DESCRIPTOR_TYPE_FIXED64
  · rw [if_pos t5] at h
    cases v with
    | vNum vv =>
      exact scalar_case_spec
        (fun e2 he => ⟨(put_fixed64_spec hwf he).1, by have := (put_fixed64_spec hwf he).2; omega⟩)
        hwf h
    | vStr vs => exact Option.noConfusion h
    | vMsgPtr vm => exact Option.noConfusion h
    | vArrPtr va => exact Option.noConfusion h
  rw [if_neg t5] at h
  by_cases t6 : f.type = UPB_DESCRIPTOR_TYPE_FIXED32 ∨ f.type = UPB_DESCRIPTOR_TYPE_SFIXED32
  · rw [if_pos t6] at h
    cases v with
    | vNum vv =>
      exact scalar_case_spec
        (fun e2 he => ⟨(put_fixed32_spec hwf he).1, by have := (put_fixed32_spec hwf he).2; omega⟩)
        hwf h
    | vStr vs => exact Option.noConfusion h
    | vMsgPtr vm => exact Option.noConfusion h
    | vArrPtr va => exact Option.noConfusion h
  rw [if_neg t6] at h
  by_cases t7 : f.type = UPB_DESCRIPTOR_TYPE_BOOL
  · rw [if_pos t7] at h
    cases v with
    | vNum vv =>
      exact scalar_case_spec
        (fun e2 he => ⟨(put_varint_spec hwf he).1, by have := (put_varint_spec hwf he).2; omega⟩)
        hwf h
    | vStr vs => exact Option.noConfusion h
    | vMsgPtr vm => exact Option.noConfusion h
    | vArrPtr va => exact Option.noConfusion h
  rw [if_neg t7] at h
  by_cases t8 : f.type = UPB_DESCRIPTOR_TYPE_SINT32
  · rw [if_pos t8] at h
    cases v with
    | vNum vv =>
      exact scalar_case_spec
        (fun e2 he => ⟨(put_varint_spec hwf he).1, by have := (put_varint_spec hwf he).2; omega⟩)
        hwf h
    | vStr vs => exact Option.noConfusion h
    | vMsgPtr vm => exact Option.noConfusion h
    | vArrPtr va => exact Option.noConfusion h
  rw [if_neg t8] at h
  by_cases t9 : f.type = UPB_DESCRIPTOR_TYPE_SINT64
  · rw [if_pos t9] at h
    cases v with
    | vNum vv =>
      exact scalar_case_spec
        (fun e2 he => ⟨(put_varint_spec hwf he).1, by have := (put_varint_spec hwf he).2; omega⟩)
        hwf h
    | vStr vs => exact Option.noConfusion h
    | vMsgPtr vm => exact Option.noConfusion h
    | vArrPtr va => exact Option.noConfusion h
  rw [if_neg t9] at h
  by_cases t10 : f.type = UPB_DESCRIPTOR_TYPE_STRING ∨ f.type = UPB_DESCRIPTOR_TYPE_BYTES
  · rw [if_pos t10] at h
    cases v with
    | vStr vs => exact scalar_strcase_spec hwf h
    | vNum vv => exact Option.noConfusion h
    | vMsgPtr vm => exact Option.noConfusion h
    | vArrPtr va => exact Option.noConfusion h
  rw [if_neg t10] at h
  by_cases t11 : f.type = UPB_DESCRIPTOR_TYPE_GROUP
  · rw [if_pos t11] at h
    cases v with
    | vMsgPtr vm => exact scalar_groupcase_spec hm hwf h
    | vNum vv => exact Option.noConfusion h
    | vStr vs => exact Option.noConfusion h
    | vArrPtr va => exact Option.noConfusion h
  rw [if_neg t11] at h
  by_cases t12 : f.type = UPB_DESCRIPTOR_TYPE_MESSAGE
  · rw [if_pos t12] at h
    cases v with
    | vMsgPtr vm => exact scalar_msgcase_spec hm hwf h
    | vNum vv => exact Option.noConfusion h
    | vStr vs => exact Option.noConfusion h
    | vArrPtr va => exact Option.noConfusion h
  rw [if_neg t12] at h
  exact Option.noConfusion h

theorem grouparray_spec {encmsg : EncMsgT} {junk : Nat} {env : Nat → Bool}
    {subm : upb_msglayout_msginit_v1} {fnumber : Nat} (hm : EncMono encmsg) :
    ∀ {elems : List (Option upb_msg)} {e e1 : upb_encstate}, e.wf →
      upb_encode_grouparray encmsg junk env e elems subm fnumber = some e1 →
      e1.wf ∧ e.used ≤ e1.used := by
  intro elems
  induction elems with
  | nil =>
    intro e e1 hwf h
    rw [upb_encode_grouparray] at h
    simp only [Option.some.injEq] at h
    subst h
    exact ⟨hwf, Nat.le_refl _⟩
  | cons el rest ih =>
    intro e e1 hwf h
    rw [upb_encode_grouparray] at h
    rcases h1 : upb_put_tag env e fnumber UPB_WIRE_TYPE_END_GROUP with _ | e2
    · rw [h1] at h
      simp at h
    · rw [h1] at h
      dsimp only at h
      rcases h2 : encmsg e2 el subm junk with _ | r
      · rw [h2] at h
        simp at h
      · rw [h2] at h
        obtain ⟨w2, u2⟩ := put_tag_spec hwf h1
        obtain ⟨w3, u3⟩ := hm e2 el subm junk r h2 w2
        rcases r with ⟨e3, sz⟩
        dsimp only at h w3 u3
        rcases h3 : upb_put_tag env e3 fnumber UPB_WIRE_TYPE_START_GROUP with _ | e4
        · rw [h3] at h
          simp at h
        · rw [h3] at h
          dsimp only at h
          obtain ⟨w4, u4⟩ := put_tag_spec w3 h3
          obtain ⟨w5, u5⟩ := ih w4 h
          exact ⟨w5, by omega⟩

theorem msgarray_spec {encmsg : EncMsgT} {junk : Nat} {env : Nat → Bool}
    {subm : upb_msglayout_msginit_v1} {fnumber : Nat} (hm : EncMono encmsg) :
    ∀ {elems : List (Option upb_msg)} {e e1 : upb_encstate}, e.wf →
      upb_encode_msgarray encmsg junk env e elems subm fnumber = some e1 →
      e1.wf ∧ e.used ≤ e1.used := by
  intro elems
  induction elems with
  | nil =>
    intro e e1 hwf h
    rw [upb_encode_msgarray] at h
    simp only [Option.some.injEq] at h
    subst h
    exact ⟨hwf, Nat.le_refl _⟩
  | cons el rest ih =>
    intro e e1 hwf h
    rw [upb_encode_msgarray] at h
    rcases h1 : encmsg e el subm junk with _ | r
    · rw [h1] at h
      simp at h
    · rw [h1] at h
      obtain ⟨w2, u2⟩ := hm e el subm junk r h1 hwf
      rcases r with ⟨e2, sz⟩
      dsimp only at h w2 u2
      rcases h2 : upb_put_varint env e2 sz with _ | e3
      · rw [h2] at h
        simp at h
      · rw [h2] at h
        dsimp only at h
        rcases h3 : upb_put_tag env e3 fnumber UPB_WIRE_TYPE_DELIMITED with _ | e4
        · rw [h3] at h
          simp at h
        · rw [h3] at h
          dsimp only at h
          obtain ⟨w3, u3⟩ := put_varint_spec w2 h2
          obtain ⟨w4, u4⟩ := put_tag_spec w3 h3
          obtain ⟨w5, u5⟩ := ih w4 h
          exact ⟨w5, by omega⟩

theorem array_spec {encmsg : EncMsgT} {junk : Nat} {env : Nat → Bool}
    {e e1 : upb_encstate} {v : upb_value} {m : upb_msglayout_msginit_v1}
    {f : upb_msglayout_fieldinit_v1}
    (hm : EncMono encmsg) (hwf : e.wf)
    (h : upb_encode_array encmsg junk env e v m f = some e1) :
    e1.wf ∧ e.used ≤ e1.used := by
  rw [upb_encode_array.eq_def] at h
  cases v with
  | vNum vv => exact Option.noConfusion h
  | vStr vs => exact Option.noConfusion h
  | vMsgPtr vm => exact Option.noConfusion h
  | vArrPtr arrOpt =>
    rcases arrOpt with _ | arr
    · dsimp only at h
      simp only [Option.some.injEq] at h
      subst h
      exact ⟨hwf, Nat.le_refl _⟩
    · dsimp only at h
      by_cases hlen : arr.len = 0
      · rw [if_pos hlen] at h
        simp only [Option.some.injEq] at h
        subst h
        exact ⟨hwf, Nat.le_refl _⟩
      rw [if_neg hlen] at h
      by_cases t1 : f.type = UPB_DESCRIPTOR_TYPE_DOUBLE
      · rw [if_pos t1] at h
        exact array_fixed_case_spec hwf h
      rw [if_neg t1] at h
      by_cases t2 : f.type = UPB_DESCRIPTOR_TYPE_FLOAT
      · rw [if_pos t2] at h
        exact array_fixed_case_spec hwf h
      rw [if_neg t2] at h
      by_cases t3 : f.type = UPB_DESCRIPTOR_TYPE_SFIXED64 ∨ f.type = UPB_DESCRIPTOR_TYPE_FIXED64
      · rw [if_pos t3] at h
        exact array_fixed_case_spec hwf h
      rw [if_neg t3] at h
      by_cases t4 : f.type = UPB_DESCRIPTOR_TYPE_FIXED32 ∨ f.type = UPB_DESCRIPTOR_TYPE_SFIXED32
      · rw [if_pos t4] at h
        exact array_fixed_case_spec hwf h
      rw [if_neg t4] at h
      by_cases t5 : f.type = UPB_DESCRIPTOR_TYPE_INT64 ∨ f.type = UPB_DESCRIPTOR_TYPE_UINT64
      · rw [if_pos t5] at h
        exact put_varintarray_spec hwf h
      rw [if_neg t5] at h
      by_cases t6 : f.type = UPB_DESCRIPTOR_TYPE_UINT32 ∨ f.type = UPB_DESCRIPTOR_TYPE_INT32 ∨
          f.type = UPB_DESCRIPTOR_TYPE_ENUM
      · rw [if_pos t6] at h
        exact put_varintarray_spec hwf h
      rw [if_neg t6] at h
      by_cases t7 : f.type = UPB_DESCRIPTOR_TYPE_BOOL
      · rw [if_pos t7] at h
        exact put_varintarray_spec hwf h
      rw [if_neg t7] at h
      by_cases t8 : f.type = UPB_DESCRIPTOR_TYPE_SINT32
      · rw [if_pos t8] at h
        exact put_varintarray_spec hwf h
      rw [if_neg t8] at h
      by_cases t9 : f.type = UPB_DESCRIPTOR_TYPE_SINT64
      · rw [if_pos t9] at h
        exact put_varintarray_spec hwf h
      rw [if_neg t9] at h
      by_cases t10 : f.type = UPB_DESCRIPTOR_TYPE_STRING ∨ f.type = UPB_DESCRIPTOR_TYPE_BYTES
      · rw [if_pos t10] at h
        rcases harr : arr.adata with l | l | l <;> rw [harr] at h
        · exact Option.noConfusion h
        · exact put_strloop_spec hwf h
        · exact Option.noConfusion h
      rw [if_neg t10] at h
      by_cases t11 : f.type = UPB_DESCRIPTOR_TYPE_GROUP
      · rw [if_pos t11] at h
        rcases harr : arr.adata with l | l | l <;> rw [harr] at h
        · exact Option.noConfusion h
        · exact Option.noConfusion h
        · dsimp only at h
          rcases hsub : m.submsgs[f.submsg_index]? with _ | subm
          · rw [hsub] at h
            simp at h
          · rw [hsub] at h
            dsimp only at h
            exact grouparray_spec hm hwf h
      rw [if_neg t11] at h
      by_cases t12 : f.type = UPB_DESCRIPTOR_TYPE_MESSAGE
      · rw [if_pos t12] at h
        rcases harr : arr.adata with l | l | l <;> rw [harr] at h
        · exact Option.noConfusion h
        · exact Option.noConfusion h
        · dsimp only at h
          rcases hsub : m.submsgs[f.submsg_index]? with _ | subm
          · rw [hsub] at h
            simp at h
          · rw [hsub] at h
            dsimp only at h
            exact msgarray_spec hm hwf h
      rw [if_neg t12] at h
      obtain ⟨w2, u2⟩ := put_tag_spec hwf h
      exact ⟨w2, by omega⟩

theorem field_spec {encmsg : EncMsgT} {junk : Nat} {env : Nat → Bool}
    {e e1 : upb_encstate} {mrec : upb_msg} {m : upb_msglayout_msginit_v1}
    {f : upb_msglayout_fieldinit_v1}
    (hm : EncMono encmsg) (hwf : e.wf)
    (h : upb_encode_field encmsg junk env e mrec m f = some e1) :
    e1.wf ∧ e.used ≤ e1.used := by
  rw [upb_encode_field] at h
  split at h
  · exact array_spec hm hwf h
  · split at h
    · exact scalarfield_spec hm hwf h
    · simp only [Option.some.injEq] at h
      subst h
      exact ⟨hwf, Nat.le_refl _⟩

theorem fields_spec {encmsg : EncMsgT} {junk : Nat} {env : Nat → Bool}
    {mrec : upb_msg} {m : upb_msglayout_msginit_v1} (hm : EncMono encmsg) :
    ∀ {l : List upb_msglayout_fieldinit_v1} {e e1 : upb_encstate}, e.wf →
      upb_encode_fields encmsg junk env e mrec m l = some e1 →
      e1.wf ∧ e.used ≤ e1.used := by
  intro l
  induction l with
  | nil =>
    intro e e1 hwf h
    rw [upb_encode_fields] at h
    simp only [Option.some.injEq] at h
    subst h
    exact ⟨hwf, Nat.le_refl _⟩
  | cons f rest ih =>
    intro e e1 hwf h
    rw [upb_encode_fields] at h
    rcases h1 : upb_encode_field encmsg junk env e mrec m f with _ | e2
    · rw [h1] at h
      simp at h
    · rw [h1] at h
      dsimp only at h
      obtain ⟨w2, u2⟩ := field_spec hm hwf h1
      obtain ⟨w3, u3⟩ := ih w2 h
      exact ⟨w3, by omega⟩

/-- Success of `upb_encode_message` preserves well-formedness and never
shrinks the used region, at every fuel. -/
theorem encode_message_mono :
    ∀ (fuel junk : Nat) (env : Nat → Bool),
      EncMono (upb_encode_message fuel junk env) := by
  intro fuel
  induction fuel with
  | zero =>
    intro junk env e msg m si r h
    exact Option.noConfusion h
  | succ fuel ih =>
    intro junk env e msg m si r h hwf
    rw [upb_encode_message.eq_def] at h
    dsimp only at h
    rcases msg with _ | mrec
    · dsimp only at h
      simp only [Option.some.injEq] at h
      subst h
      exact ⟨hwf, Nat.le_refl _⟩
    · dsimp only at h
      rcases h1 : upb_encode_fields (upb_encode_message fuel junk env) junk env e mrec m
          m.fields.reverse with _ | e2
      · rw [h1] at h
        simp at h
      · rw [h1] at h
        dsimp only at h
        simp only [Option.some.injEq] at h
        subst h
        exact fields_spec (ih junk env) hwf h1

/-- The claim's notion (C4) of a singular field's zero value — numeric 0
(at the width the descriptor type loads, with IEEE `== 0` for double/float),
false, empty string/bytes, null submessage pointer — stated from the claim
for use in theorem statements; values whose storage variant cannot occur for
the type read as nonzero. -/
def claim_is_zero (f : upb_msglayout_fieldinit_v1) (v : upb_value) : Bool :=
  if f.type = UPB_DESCRIPTOR_TYPE_DOUBLE then
    match v with
    | .vNum x => double_eq_zero (x % 2 ^ 64)
    | _ => false
  else if f.type = UPB_DESCRIPTOR_TYPE_FLOAT then
    match v with
    | .vNum x => float_eq_zero (x % 2 ^ 32)
    | _ => false
  else if f.type = UPB_DESCRIPTOR_TYPE_INT64 ∨ f.type = UPB_DESCRIPTOR_TYPE_UINT64 then
    match v with
    | .vNum x => decide (x % 2 ^ 64 = 0)
    | _ => false
  else if f.type = UPB_DESCRIPTOR_TYPE_UINT32 ∨ f.type = UPB_DESCRIPTOR_TYPE_INT32 ∨
      f.type = UPB_DESCRIPTOR_TYPE_ENUM then
    match v with
    | .vNum x => decide (x % 2 ^ 32 = 0)
    | _ => false
  else if f.type = UPB_DESCRIPTOR_TYPE_SFIXED64 ∨ f.type = UPB_DESCRIPTOR_TYPE_FIXED64 then
    match v with
    | .vNum x => decide (x % 2 ^ 64 = 0)
    | _ => false
  else if f.type = UPB_DESCRIPTOR_TYPE_FIXED32 ∨ f.type = UPB_DESCRIPTOR_TYPE_SFIXED32 then
    match v with
    | .vNum x => decide (x % 2 ^ 32 = 0)
    | _ => false
  else if f.type = UPB_DESCRIPTOR_TYPE_BOOL then
    match v with
    | .vNum x => decide (x % 2 ^ 8 = 0)
    | _ => false
  else if f.type = UPB_DESCRIPTOR_TYPE_SINT32 then
    match v with
    | .vNum x => decide (x % 2 ^ 32 = 0)
    | _ => false
  else if f.type = UPB_DESCRIPTOR_TYPE_SINT64 then
    match v with
    | .vNum x => decide (x % 2 ^ 64 = 0)
    | _ => false
  else if f.type = UPB_DESCRIPTOR_TYPE_STRING ∨ f.type = UPB_DESCRIPTOR_TYPE_BYTES then
    match v with
    | .vStr s => decide (s.length = 0)
    | _ => false
  else if f.type = UPB_DESCRIPTOR_TYPE_GROUP then
    match v with
    | .vMsgPtr p => p.isNone
    | _ => false
  else if f.type = UPB_DESCRIPTOR_TYPE_MESSAGE then
    match v with
    | .vMsgPtr p => p.isNone
    | _ => false
  else false

theorem scalar_case_emission {env : Nat → Bool} {e e1 : upb_encstate} {skip : Bool}
    {put : upb_encstate → Option upb_encstate} {fnumber wt : Nat}
    (hput : ∀ e2, put e = some e2 → e2.wf ∧ e.used ≤ e2.used)
    (hwf : e.wf) (h : upb_scalar_case env e skip put fnumber wt = some e1) :
    (e.used < e1.used ↔ skip = false) := by
  rw [upb_scalar_case] at h
  by_cases hs : skip = true
  · rw [if_pos hs] at h
    simp only [Option.some.injEq] at h
    subst h
    simp [hs]
  · simp only [Bool.not_eq_true] at hs
    rw [hs] at h
    simp only [Bool.false_eq_true, if_false] at h
    rcases hp : put e with _ | e2
    · rw [hp] at h
      simp at h
    · rw [hp] at h
      dsimp only at h
      obtain ⟨w2, u2⟩ := hput e2 hp
      obtain ⟨w3, u3⟩ := put_tag_spec w2 h
      simp [hs]
      omega

theorem scalar_strcase_emission {env : Nat → Bool} {e e1 : upb_encstate}
    {skip : Bool} {view : List Nat} {fnumber : Nat}
    (hwf : e.wf) (h : upb_scalar_strcase env e skip view fnumber = some e1) :
    (e.used < e1.used ↔ skip = false) := by
  rw [upb_scalar_strcase] at h
  by_cases hs : skip = true
  · rw [if_pos hs] at h
    simp only [Option.some.injEq] at h
    subst h
    simp [hs]
  · simp only [Bool.not_eq_true] at hs
    rw [hs] at h
    simp only [Bool.false_eq_true, if_false] at h
    rcases h1 : upb_put_bytes env e view with _ | e2
    · rw [h1] at h
      simp at h
    · rw [h1] at h
      dsimp only at h
      rcases h2 : upb_put_varint env e2 view.length with _ | e3
      · rw [h2] at h
        simp at h
      · rw [h2] at h
        dsimp only at h
        obtain ⟨w2, u2⟩ := put_bytes_spec hwf h1
        obtain ⟨w3, u3⟩ := put_varint_spec w2 h2
        obtain ⟨w4, u4⟩ := put_tag_spec w3 h
        simp [hs]
        omega

theorem scalar_groupcase_emission {encmsg : EncMsgT} {env : Nat → Bool} {junk : Nat}
    {e e1 : upb_encstate} {skip : Bool} {submsg : Option upb_msg}
    {subml : Option upb_msglayout_msginit_v1} {fnumber : Nat}
    (hm : EncMono encmsg) (hwf : e.wf)
    (h : upb_scalar_groupcase encmsg env junk e skip submsg subml fnumber = some e1) :
    (e.used < e1.used ↔ skip = false) := by
  rw [upb_scalar_groupcase.eq_def] at h
  by_cases hs : skip = true
  · rw [if_pos hs] at h
    simp only [Option.some.injEq] at h
    subst h
    simp [hs]
  · simp only [Bool.not_eq_true] at hs
    rw [hs] at h
    simp only [Bool.false_eq_true, if_false] at h
    rcases subml with _ | subm
    · simp at h
    · dsimp only at h
      rcases h1 : upb_put_tag env e fnumber UPB_WIRE_TYPE_END_GROUP with _ | e2
      · rw [h1] at h
        simp at h
      · rw [h1] at h
        dsimp only at h
        rcases h2 : encmsg e2 submsg subm junk with _ | r
        · rw [h2] at h
          simp at h
        · rw [h2] at h
          obtain ⟨w2, u2⟩ := put_tag_spec hwf h1
          obtain ⟨w3, u3⟩ := hm e2 submsg subm junk r h2 w2
          rcases r with ⟨e3, sz⟩
          dsimp only at h w3 u3
          obtain ⟨w4, u4⟩ := put_tag_spec w3 h
          simp [hs]
          omega

theorem scalar_msgcase_emission {encmsg : EncMsgT} {env : Nat → Bool} {junk : Nat}
    {e e1 : upb_encstate} {skip : Bool} {submsg : Option upb_msg}
    {subml : Option upb_msglayout_msginit_v1} {fnumber : Nat}
    (hm : EncMono encmsg) (hwf : e.wf)
    (h : upb_scalar_msgcase encmsg env junk e skip submsg subml fnumber = some e1) :
    (e.used < e1.used ↔ skip = false) := by
  rw [upb_scalar_msgcase.eq_def] at h
  by_cases hs : skip = true
  · rw [if_pos hs] at h
    simp only [Option.some.injEq] at h
    subst h
    simp [hs]
  · simp only [Bool.not_eq_true] at hs
    rw [hs] at h
    simp only [Bool.false_eq_true, if_false] at h
    rcases subml with _ | subm
    · simp at h
    · dsimp only at h
      rcases h1 : encmsg e submsg subm junk with _ | r
      · rw [h1] at h
        simp at h
      · rw [h1] at h
        obtain ⟨w2, u2⟩ := hm e submsg subm junk r h1 hwf
        rcases r with ⟨e2, sz⟩
        dsimp only at h w2 u2
        rcases h2 : upb_put_varint env e2 sz with _ | e3
        · rw [h2] at h
          simp at h
        · rw [h2] at h
          dsimp only at h
          obtain ⟨w3, u3⟩ := put_varint_spec w2 h2
          obtain ⟨w4, u4⟩ := put_tag_spec w3 h
          simp [hs]
          omega

theorem scalarfield_emission {encmsg : EncMsgT} {junk : Nat} {env : Nat → Bool}
    {e e1 : upb_encstate} {v : upb_value} {m : upb_msglayout_msginit_v1}
    {f : upb_msglayout_fieldinit_v1} {p3 : Bool}
    (hm : EncMono encmsg) (hwf : e.wf)
    (h : upb_encode_scalarfield encmsg junk env e v m f p3 = some e1) :
    (e.used < e1.used ↔
      ((p3 && decide (f.oneof_index = none)) && claim_is_zero f v) = false) := by
  rw [upb_encode_scalarfield.eq_def] at h
  by_cases t1 : f.type = UPB_DESCRIPTOR_TYPE_DOUBLE
  · rw [if_pos t1] at h
    cases v with
    | vNum vv =>
      have he := scalar_case_emission
        (fun e2 he => ⟨(put_double_spec hwf he).1, by have := (put_double_spec hwf he).2; omega⟩)
        hwf h
      rw [he, claim_is_zero.eq_def, if_pos t1]
    | vStr vs => exact Option.noConfusion h
    | vMsgPtr vm => exact Option.noConfusion h
    | vArrPtr va => exact Option.noConfusion h
  rw [if_neg t1] at h
  by_cases t2 : f.type = UPB_DESCRIPTOR_TYPE_FLOAT
  · rw [if_pos t2] at h
    cases v with
    | vNum vv =>
      have he := scalar_case_emission
        (fun e2 he => ⟨(put_float_spec hwf he).1, by have := (put_float_spec hwf he).2; omega⟩)
        hwf h
      rw [he, claim_is_zero.eq_def, if_neg t1, if_pos t2]
    | vStr vs => exact Option.noConfusion h
    | vMsgPtr vm => exact Option.noConfusion h
    | vArrPtr va => exact Option.noConfusion h
  rw [if_neg t2] at h
  by_cases t3 : f.type = UPB_DESCRIPTOR_TYPE_INT64 ∨ f.type = UPB_DESCRIPTOR_TYPE_UINT64
  · rw [if_pos t3] at h
    cases v with
    | vNum vv =>
      have he := scalar_case_emission
        (fun e2 he => ⟨(put_varint_spec hwf he).1, by have := (put_varint_spec hwf he).2; omega⟩)
        hwf h
      rw [he, claim_is_zero.eq_def, if_neg t1, if_neg t2, if_pos t3]
    | vStr vs => exact Option.noConfusion h
    | vMsgPtr vm => exact Option.noConfusion h
    | vArrPtr va => exact Option.noConfusion h
  rw [if_neg t3] at h
  by_cases t4 : f.type = UPB_DESCRIPTOR_TYPE_UINT32 ∨ f.type = UPB_DESCRIPTOR_TYPE_INT32 ∨
      f.type = UPB_DESCRIPTOR_TYPE_ENUM
  · rw [if_pos t4] at h
    cases v with
    | vNum vv =>
      have he := scalar_case_emission
        (fun e2 he => ⟨(put_varint_spec hwf he).1, by have := (put_varint_spec hwf he).2; omega⟩)
        hwf h
      rw [he, claim_is_zero.eq_def, if_neg t1, if_neg t2, if_neg t3, if_pos t4]
    | vStr vs => exact Option.noConfusion h
    | vMsgPtr vm => exact Option.noConfusion h
    | vArrPtr va => exact Option.noConfusion h
  rw [if_neg t4] at h
  by_cases t5 : f.type = UPB_DESCRIPTOR_TYPE_SFIXED64 ∨ f.type = UPB_DESCRIPTOR_TYPE_FIXED64
  · rw [if_pos t5] at h
    cases v with
    | vNum vv =>
      have he := scalar_case_emission
        (fun e2 he => ⟨(put_fixed64_spec hwf he).1, by have := (put_fixed64_spec hwf he).2; omega⟩)
        hwf h
      rw [he, claim_is_zero.eq_def, if_neg t1, if_neg t2, if_neg t3, if_neg t4, if_pos t5]
    | vStr vs => exact Option.noConfusion h
    | vMsgPtr vm => exact Option.noConfusion h
    | vArrPtr va => exact Option.noConfusion h
  rw [if_neg t5] at h
  by_cases t6 : f.type = UPB_DESCRIPTOR_TYPE_FIXED32 ∨ f.type = UPB_DESCRIPTOR_TYPE_SFIXED32
  · rw [if_pos t6] at h
    cases v with
    | vNum vv =>
      have he := scalar_case_emission
        (fun e2 he => ⟨(put_fixed32_spec hwf he).1, by have := (put_fixed32_spec hwf he).2; omega⟩)
        hwf h
      rw [he, claim_is_zero.eq_def, if_neg t1, if_neg t2, if_neg t3, if_neg t4, if_neg t5, if_pos t6]
    | vStr vs => exact Option.noConfusion h
    | vMsgPtr vm => exact Option.noConfusion h
    | vArrPtr va => exact Option.noConfusion h
  rw [if_neg t6] at h
  by_cases t7 : f.type = UPB_DESCRIPTOR_TYPE_BOOL
  · rw [if_pos t7] at h
    cases v with
    | vNum vv =>
      have he := scalar_case_emission
        (fun e2 he => ⟨(put_varint_spec hwf he).1, by have := (put_varint_spec hwf he).2; omega⟩)
        hwf h
      rw [he, claim_is_zero.eq_def, if_neg t1, if_neg t2, if_neg t3, if_neg t4, if_neg t5, if_neg t6, if_pos t7]
    | vStr vs => exact Option.noConfusion h
    | vMsgPtr vm => exact Option.noConfusion h
    | vArrPtr va => exact Option.noConfusion h
  rw [if_neg t7] at h
  by_cases t8 : f.type = UPB_DESCRIPTOR_TYPE_SINT32
  · rw [if_pos t8] at h
    cases v with
    | vNum vv =>
      have he := scalar_case_emission
        (fun e2 he => ⟨(put_varint_spec hwf he).1, by have := (put_varint_spec hwf he).2; omega⟩)
        hwf h
      rw [he, claim_is_zero.eq_def, if_neg t1, if_neg t2, if_neg t3, if_neg t4, if_neg t5, if_neg t6, if_neg t7, if_pos t8]
    | vStr vs => exact Option.noConfusion h
    | vMsgPtr vm => exact Option.noConfusion h
    | vArrPtr va => exact Option.noConfusion h
  rw [if_neg t8] at h
  by_cases t9 : f.type = UPB_DESCRIPTOR_TYPE_SINT64
  · rw [if_pos t9] at h
    cases v with
    | vNum vv =>
      have he := scalar_case_emission
        (fun e2 he => ⟨(put_varint_spec hwf he).1, by have := (put_varint_spec hwf he).2; omega⟩)
        hwf h
      rw [he, claim_is_zero.eq_def, if_neg t1, if_neg t2, if_neg t3, if_neg t4, if_neg t5, if_neg t6, if_neg t7, if_neg t8, if_pos t9]
    | vStr vs => exact Option.noConfusion h
    | vMsgPtr vm => exact Option.noConfusion h
    | vArrPtr va => exact Option.noConfusion h
  rw [if_neg t9] at h
  by_cases t10 : f.type = UPB_DESCRIPTOR_TYPE_STRING ∨ f.type = UPB_DESCRIPTOR_TYPE_BYTES
  · rw [if_pos t10] at h
    cases v with
    | vStr vs =>
      have he := scalar_strcase_emission hwf h
      rw [he, claim_is_zero.eq_def, if_neg t1, if_neg t2, if_neg t3, if_neg t4, if_neg t5, if_neg t6, if_neg t7, if_neg t8, if_neg t9, if_pos t10]
    | vNum vv => exact Option.noConfusion h
    | vMsgPtr vm => exact Option.noConfusion h
    | vArrPtr va => exact Option.noConfusion h
  rw [if_neg t10] at h
  by_cases t11 : f.type = UPB_DESCRIPTOR_TYPE_GROUP
  · rw [if_pos t11] at h
    cases v with
    | vMsgPtr vm =>
      have he := scalar_groupcase_emission hm hwf h
      rw [he, claim_is_zero.eq_def, if_neg t1, if_neg t2, if_neg t3, if_neg t4, if_neg t5, if_neg t6, if_neg t7, if_neg t8, if_neg t9, if_neg t10, if_pos t11]
    | vNum vv => exact Option.noConfusion h
    | vStr vs => exact Option.noConfusion h
    | vArrPtr va => exact Option.noConfusion h
  rw [if_neg t11] at h
  by_cases t12 : f.type = UPB_DESCRIPTOR_TYPE_MESSAGE
  · rw [if_pos t12] at h
    cases v with
    | vMsgPtr vm =>
      have he := scalar_msgcase_emission hm hwf h
      rw [he, claim_is_zero.eq_def, if_neg t1, if_neg t2, if_neg t3, if_neg t4, if_neg t5, if_neg t6, if_neg t7, if_neg t8, if_neg t9, if_neg t10, if_neg t11, if_pos t12]
    | vNum vv => exact Option.noConfusion h
    | vStr vs => exact Option.noConfusion h
    | vArrPtr va => exact Option.noConfusion h
  rw [if_neg t12] at h
  exact Option.noConfusion h

/-- C4: for a singular field, a successful field step emits bytes (the used
byte count strictly grows) iff the field is present: a oneof member is
present iff the oneof's discriminant equals the field's number; a proto2
field outside any oneof iff its hasbit is set (a zero value with the hasbit
set is still emitted); a proto3 field outside any oneof iff its value
differs from its type's zero value (numeric 0, false, empty string/bytes,
null submessage pointer). -/
theorem singular_field_presence (fuel junk : Nat) (env : Nat → Bool)
    (e e1 : upb_encstate) (mrec : upb_msg) (m : upb_msglayout_msginit_v1)
    (f : upb_msglayout_fieldinit_v1)
    (hsing : f.label ≠ UPB_LABEL_REPEATED) (hwf : e.wf)
    (h : upb_encode_field (upb_encode_message fuel junk env) junk env e mrec m f
      = some e1) :
    (e.used < e1.used ↔
      match f.oneof_index with
      | some oi => upb_readcase mrec m oi = f.number
      | none =>
        if m.is_proto2 then upb_readhasbit mrec f = true
        else claim_is_zero f (mrec.read f.offset) = false) := by
  rw [upb_encode_field] at h
  rw [if_neg hsing] at h
  by_cases hhas : upb_encode_hasscalarfield mrec m f = true
  · rw [if_pos hhas] at h
    have he := scalarfield_emission (encode_message_mono fuel junk env) hwf h
    rw [he]
    rw [upb_encode_hasscalarfield] at hhas
    rcases ho : f.oneof_index with _ | oi
    · simp only [ho] at hhas
      by_cases hp2 : m.is_proto2 = true
      · rw [if_pos hp2] at hhas
        simp [ho, hp2, hhas]
      · simp only [Bool.not_eq_true] at hp2
        simp [ho, hp2]
    · simp only [ho, decide_eq_true_eq] at hhas
      simp [ho, hhas]
  · rw [if_neg hhas] at h
    simp only [Option.some.injEq] at h
    subst h
    rw [upb_encode_hasscalarfield] at hhas
    rcases ho : f.oneof_index with _ | oi
    · simp only [ho] at hhas
      by_cases hp2 : m.is_proto2 = true
      · rw [if_pos hp2] at hhas
        simp only [Bool.not_eq_true] at hhas
        simp [ho, hp2, hhas]
      · rw [if_neg hp2] at hhas
        exact absurd rfl hhas
    · simp only [ho, decide_eq_true_eq] at hhas
      simp [ho, hhas]

/-- Concrete inputs exercising `singular_field_presence`: a proto3 layout
with one singular `int32` field at offset 0, a record holding 5 there, an
always-approving allocator, and the empty initial encoder state. -/
def envC4 : Nat → Bool := fun _ => true

def fC4 : upb_msglayout_fieldinit_v1 :=
  ⟨1, 0, none, none, 0, UPB_DESCRIPTOR_TYPE_INT32, 1⟩

def mC4 : upb_msglayout_msginit_v1 := .mk [fC4] [] [] false

def mrecC4 : upb_msg := .mk [(0, .vNum 5)] [] []

def eC4 : upb_encstate := ⟨0, 0, 0, [], false⟩

/-- The encoder state the field step on the C4 witness inputs produces. -/
def e1C4 : upb_encstate :=
  ⟨16, 128, 142,
    List.replicate 117 0 ++ [8, 5] ++ List.replicate 7 0 ++ [8, 5], false⟩

set_option maxRecDepth 4000 in
/-- Witness for `singular_field_presence` at the concrete C4 inputs: the
hypotheses hold there and the theorem applies. -/
theorem singular_field_presence_witness :
    fC4.label ≠ UPB_LABEL_REPEATED ∧ eC4.wf ∧
    upb_encode_field (upb_encode_message 1 0 envC4) 0 envC4 eC4 mrecC4 mC4 fC4
      = some e1C4 ∧
    (eC4.used < e1C4.used ↔
      match fC4.oneof_index with
      | some oi => upb_readcase mrecC4 mC4 oi = fC4.number
      | none =>
        if mC4.is_proto2 then upb_readhasbit mrecC4 fC4 = true
        else claim_is_zero fC4 (mrecC4.read fC4.offset) = false) :=
  ⟨by decide, by decide, by decide,
    singular_field_presence 1 0 envC4 eC4 e1C4 mrecC4 mC4 fC4
      (by decide) (by decide) (by decide)⟩

theorem natLE_length : ∀ (w v : Nat), (natLE w v).length = w
  | 0, _ => rfl
  | w + 1, v => by
    show (v % 256 :: natLE w (v / 256)).length = w + 1
    simp [natLE_length w (v / 256)]

theorem reserve_nogrow {env : Nat → Bool} {e : upb_encstate} {bytes : Nat}
    (hroom : bytes ≤ e.ptr - e.base) :
    upb_encode_reserve env e bytes = some { e with ptr := e.ptr - bytes } := by
  rw [upb_encode_reserve, if_pos hroom]

theorem put_bytes_nogrow {env : Nat → Bool} {e e1 : upb_encstate}
    {data : List Nat}
    (hwf : e.wf) (hroom : data.length ≤ e.ptr - e.base)
    (h : upb_put_bytes env e data = some e1) :
    e1.base = e.base ∧ e1.cap = e.cap ∧ e1.ptr + data.length = e.ptr ∧
      e1.out = data ++ e.out := by
  obtain ⟨hw1, hw2, hw3⟩ := hwf
  rw [upb_put_bytes, reserve_nogrow hroom] at h
  dsimp only at h
  simp only [Option.some.injEq] at h
  subst h
  refine ⟨rfl, rfl, by show e.ptr - data.length + data.length = e.ptr; omega, ?_⟩
  show (memStore e.base e.cap e.mem (e.ptr - data.length) data).drop
      (e.ptr - data.length - e.base) = data ++ e.mem.drop (e.ptr - e.base)
  rw [memStore_in (by omega) (by omega)]
  rw [listWrite_drop_at (by omega)]
  congr 1
  congr 1
  omega

theorem put_varint_nogrow {env : Nat → Bool} {e e1 : upb_encstate} {val : Nat}
    (hwf : e.wf) (hroom : UPB_PB_VARINT_MAX_LEN ≤ e.ptr - e.base)
    (h : upb_put_varint env e val = some e1) :
    e1.base = e.base ∧ e1.cap = e.cap ∧
      e1.ptr + (upb_encode_varint val).length = e.ptr ∧
      e1.out = upb_encode_varint val ++ e.out := by
  obtain ⟨hw1, hw2, hw3⟩ := hwf
  have hlen := upb_encode_varint_length_le val
  have hpos := upb_encode_varint_length_pos val
  have hmax : UPB_PB_VARINT_MAX_LEN = 10 := rfl
  rw [hmax] at hroom
  rw [upb_put_varint, hmax, reserve_nogrow hroom] at h
  dsimp only at h
  simp only [Option.some.injEq] at h
  subst h
  refine ⟨rfl, rfl,
    by
      show e.ptr - 10 + 10 - (upb_encode_varint val).length +
        (upb_encode_varint val).length = e.ptr
      omega, ?_⟩
  show (memMove e.base e.cap (memStore e.base e.cap e.mem (e.ptr - 10)
        (upb_encode_varint val))
      (e.ptr - 10 + 10 - (upb_encode_varint val).length) (e.ptr - 10)
      (upb_encode_varint val).length).drop
      (e.ptr - 10 + 10 - (upb_encode_varint val).length - e.base) =
    upb_encode_varint val ++ e.mem.drop (e.ptr - e.base)
  rw [memStore_in (by omega) (by omega)]
  have hm1len : (listWrite e.mem (e.ptr - 10 - e.base)
      (upb_encode_varint val)).length = e.mem.length :=
    listWrite_length (by omega)
  rw [memMove, if_pos ⟨by omega, by omega⟩]
  have hdata : ((listWrite e.mem (e.ptr - 10 - e.base)
        (upb_encode_varint val)).drop (e.ptr - 10 - e.base)).take
        (upb_encode_varint val).length = upb_encode_varint val := by
    rw [listWrite_drop_at (by omega)]
    exact List.take_left _ _
  rw [hdata]
  rw [memStore_in (by omega) (by omega)]
  rw [listWrite_drop_at (by rw [hm1len]; omega)]
  congr 1
  rw [listWrite_drop_high (by omega) (by omega)]
  congr 1
  omega

/-- C10: each write primitive, when it succeeds without triggering buffer
growth, leaves the previously written region `[ptr, limit)` byte-for-byte
unchanged, extends the output only downward, and moves the cursor down by
exactly the number of bytes it appends: `reserve` by its argument (touching
no memory), `put_bytes` by the data length with the data prepended to the
output, `put_varint` (and so `put_tag`) by exactly the varint width of its
value even though it reserves the 10-byte maximum, and `put_fixed64` /
`put_fixed32` by 8 / 4 with the raw little-endian bytes prepended. -/
theorem write_primitive_frame :
    (∀ (env : Nat → Bool) (e e1 : upb_encstate) (bytes : Nat),
      e.wf → bytes ≤ e.ptr - e.base →
      upb_encode_reserve env e bytes = some e1 →
      e1.base = e.base ∧ e1.cap = e.cap ∧ e1.mem = e.mem ∧
        e1.ptr + bytes = e.ptr) ∧
    (∀ (env : Nat → Bool) (e e1 : upb_encstate) (data : List Nat),
      e.wf → data.length ≤ e.ptr - e.base →
      upb_put_bytes env e data = some e1 →
      e1.base = e.base ∧ e1.cap = e.cap ∧ e1.ptr + data.length = e.ptr ∧
        e1.out = data ++ e.out) ∧
    (∀ (env : Nat → Bool) (e e1 : upb_encstate) (val : Nat),
      e.wf → UPB_PB_VARINT_MAX_LEN ≤ e.ptr - e.base →
      upb_put_varint env e val = some e1 →
      e1.base = e.base ∧ e1.cap = e.cap ∧
        e1.ptr + (upb_encode_varint val).length = e.ptr ∧
        e1.out = upb_encode_varint val ++ e.out) ∧
    (∀ (env : Nat → Bool) (e e1 : upb_encstate) (val : Nat),
      e.wf → 8 ≤ e.ptr - e.base →
      upb_put_fixed64 env e val = some e1 →
      e1.base = e.base ∧ e1.cap = e.cap ∧ e1.ptr + 8 = e.ptr ∧
        e1.out = natLE 8 val ++ e.out) ∧
    (∀ (env : Nat → Bool) (e e1 : upb_encstate) (val : Nat),
      e.wf → 4 ≤ e.ptr - e.base →
      upb_put_fixed32 env e val = some e1 →
      e1.base = e.base ∧ e1.cap = e.cap ∧ e1.ptr + 4 = e.ptr ∧
        e1.out = natLE 4 val ++ e.out) ∧
    (∀ (env : Nat → Bool) (e e1 : upb_encstate) (num wt : Nat),
      e.wf → UPB_PB_VARINT_MAX_LEN ≤ e.ptr - e.base →
      upb_put_tag env e num wt = some e1 →
      e1.base = e.base ∧ e1.cap = e.cap ∧
        e1.ptr + (upb_encode_varint ((num <<< 3) ||| wt)).length = e.ptr ∧
        e1.out = upb_encode_varint ((num <<< 3) ||| wt) ++ e.out) := by
  refine ⟨?_, ?_, ?_, ?_, ?_, ?_⟩
  · intro env e e1 bytes hwf hroom h
    rw [reserve_nogrow hroom] at h
    simp only [Option.some.injEq] at h
    subst h
    exact ⟨rfl, rfl, rfl, by show e.ptr - bytes + bytes = e.ptr; omega⟩
  · intro env e e1 data hwf hroom h
    exact put_bytes_nogrow hwf hroom h
  · intro env e e1 val hwf hroom h
    exact put_varint_nogrow hwf hroom h
  · intro env e e1 val hwf hroom h
    have hl : (natLE 8 val).length = 8 := natLE_length 8 val
    obtain ⟨c1, c2, c3, c4⟩ := put_bytes_nogrow hwf (by omega) h
    rw [hl] at c3
    exact ⟨c1, c2, c3, c4⟩
  · intro env e e1 val hwf hroom h
    have hl : (natLE 4 val).length = 4 := natLE_length 4 val
    obtain ⟨c1, c2, c3, c4⟩ := put_bytes_nogrow hwf (by omega) h
    rw [hl] at c3
    exact ⟨c1, c2, c3, c4⟩
  · intro env e e1 num wt hwf hroom h
    rw [upb_put_tag] at h
    exact put_varint_nogrow hwf hroom h

/-- Concrete inputs exercising `write_primitive_frame`: a 16-byte buffer with
an empty output region, an allocator that denies everything (so only the
no-growth path can run), and the value 300 (a two-byte varint). -/
def envC10 : Nat → Bool := fun _ => false

def e0C10 : upb_encstate := ⟨0, 16, 16, List.replicate 16 0, false⟩

/-- The encoder state `upb_put_varint` on the C10 witness inputs produces. -/
def e1C10 : upb_encstate :=
  ⟨0, 16, 14, [0, 0, 0, 0, 0, 0, 172, 2, 0, 0, 0, 0, 0, 0, 172, 2], false⟩

/-- Witness for `write_primitive_frame` at the concrete C10 inputs: the
hypotheses of its `put_varint` clause hold there and the theorem applies. -/
theorem write_primitive_frame_witness :
    e0C10.wf ∧ UPB_PB_VARINT_MAX_LEN ≤ e0C10.ptr - e0C10.base ∧
    upb_put_varint envC10 e0C10 300 = some e1C10 ∧
    (e1C10.base = e0C10.base ∧ e1C10.cap = e0C10.cap ∧
      e1C10.ptr + (upb_encode_varint 300).length = e0C10.ptr ∧
      e1C10.out = upb_encode_varint 300 ++ e0C10.out) :=
  ⟨by decide, by decide, by decide,
    write_primitive_frame.2.2.1 envC10 e0C10 e1C10 300
      (by decide) (by decide) (by decide)⟩

/-! ## Totality of the write operations under an always-granting allocator -/

theorem growbuffer_total {env : Nat → Bool} {e : upb_encstate} {bytes : Nat}
    (henv : ∀ n, env n = true) :
    ∃ e1, upb_encode_growbuffer env e bytes = some e1 := by
  rw [upb_encode_growbuffer, upb_env_realloc]
  rw [henv]
  exact ⟨_, rfl⟩

theorem reserve_total {env : Nat → Bool} {e : upb_encstate} {bytes : Nat}
    (henv : ∀ n, env n = true) (hwf : e.wf) :
    ∃ e1, upb_encode_reserve env e bytes = some e1 ∧ e1.wf := by
  have hex : ∃ e1, upb_encode_reserve env e bytes = some e1 := by
    rw [upb_encode_reserve]
    by_cases hroom : bytes ≤ e.ptr - e.base
    · rw [if_pos hroom]
      exact ⟨_, rfl⟩
    · rw [if_neg hroom]
      obtain ⟨e2, h2⟩ := @growbuffer_total env e bytes henv
      rw [h2]
      exact ⟨_, rfl⟩
  obtain ⟨e1, h1⟩ := hex
  exact ⟨e1, h1, (reserve_spec hwf h1).1⟩

theorem put_bytes_total {env : Nat → Bool} {e : upb_encstate} {data : List Nat}
    (henv : ∀ n, env n = true) (hwf : e.wf) :
    ∃ e1, upb_put_bytes env e data = some e1 ∧ e1.wf := by
  obtain ⟨e2, h2, hw2⟩ := @reserve_total env e data.length henv hwf
  have hs : upb_put_bytes env e data
      = some { e2 with mem := memStore e2.base e2.cap e2.mem e2.ptr data } := by
    rw [upb_put_bytes, h2]
  exact ⟨_, hs, (put_bytes_spec hwf hs).1⟩

theorem put_varint_total {env : Nat → Bool} {e : upb_encstate} {val : Nat}
    (henv : ∀ n, env n = true) (hwf : e.wf) :
    ∃ e1, upb_put_varint env e val = some e1 ∧ e1.wf := by
  obtain ⟨e2, h2, hw2⟩ := @reserve_total env e UPB_PB_VARINT_MAX_LEN henv hwf
  have hs : upb_put_varint env e val = some
      { e2 with
        ptr := e2.ptr + UPB_PB_VARINT_MAX_LEN - (upb_encode_varint val).length
        mem := memMove e2.base e2.cap
          (memStore e2.base e2.cap e2.mem e2.ptr (upb_encode_varint val))
          (e2.ptr + UPB_PB_VARINT_MAX_LEN - (upb_encode_varint val).length)
          e2.ptr (upb_encode_varint val).length } := by
    rw [upb_put_varint, h2]
  exact ⟨_, hs, (put_varint_spec hwf hs).1⟩

theorem put_fixed64_total {env : Nat → Bool} {e : upb_encstate} {val : Nat}
    (henv : ∀ n, env n = true) (hwf : e.wf) :
    ∃ e1, upb_put_fixed64 env e val = some e1 ∧ e1.wf :=
  put_bytes_total henv hwf

theorem put_fixed32_total {env : Nat → Bool} {e : upb_encstate} {val : Nat}
    (henv : ∀ n, env n = true) (hwf : e.wf) :
    ∃ e1, upb_put_fixed32 env e val = some e1 ∧ e1.wf :=
  put_bytes_total henv hwf

theorem put_double_total {env : Nat → Bool} {e : upb_encstate} {val : Nat}
    (henv : ∀ n, env n = true) (hwf : e.wf) :
    ∃ e1, upb_put_double env e val = some e1 ∧ e1.wf :=
  put_fixed64_total henv hwf

theorem put_float_total {env : Nat → Bool} {e : upb_encstate} {val : Nat}
    (henv : ∀ n, env n = true) (hwf : e.wf) :
    ∃ e1, upb_put_float env e val = some e1 ∧ e1.wf :=
  put_fixed32_total henv hwf

theorem put_tag_total {env : Nat → Bool} {e : upb_encstate} {num wt : Nat}
    (henv : ∀ n, env n = true) (hwf : e.wf) :
    ∃ e1, upb_put_tag env e num wt = some e1 ∧ e1.wf :=
  put_varint_total henv hwf

theorem put_fixedarray_total {env : Nat → Bool} {e : upb_encstate}
    {arr : upb_array} {size : Nat} {l : List Nat}
    (henv : ∀ n, env n = true) (hwf : e.wf) (harr : arr.adata = .anums l) :
    ∃ e1, upb_put_fixedarray env e arr size = some e1 ∧ e1.wf := by
  obtain ⟨e2, h2, hw2⟩ := @put_bytes_total env e
    ((l.map fun v => natLE size (v % 2 ^ (8 * size))).flatten) henv hwf
  obtain ⟨e3, h3, hw3⟩ := @put_varint_total env e2 (arr.len * size) henv hw2
  refine ⟨e3, ?_, hw3⟩
  rw [upb_put_fixedarray, harr]
  dsimp only
  rw [h2]
  dsimp only
  exact h3

theorem put_varintloop_total {env : Nat → Bool} {encf : Nat → Nat} :
    ∀ {elems : List Nat} {e : upb_encstate}, (∀ n, env n = true) → e.wf →
    ∃ e1, upb_put_varintloop env e elems encf = some e1 ∧ e1.wf := by
  intro elems
  induction elems with
  | nil =>
    intro e henv hwf
    exact ⟨e, rfl, hwf⟩
  | cons v rest ih =>
    intro e henv hwf
    obtain ⟨e2, h2, hw2⟩ := @put_varint_total env e (encf v) henv hwf
    obtain ⟨e3, h3, hw3⟩ := ih henv hw2
    refine ⟨e3, ?_, hw3⟩
    rw [upb_put_varintloop, h2]
    exact h3

theorem put_strloop_total {env : Nat → Bool} {fnumber : Nat} :
    ∀ {elems : List (List Nat)} {e : upb_encstate}, (∀ n, env n = true) → e.wf →
    ∃ e1, upb_put_strloop env e elems fnumber = some e1 ∧ e1.wf := by
  intro elems
  induction elems with
  | nil =>
    intro e henv hwf
    exact ⟨e, rfl, hwf⟩
  | cons s rest ih =>
    intro e henv hwf
    obtain ⟨e2, h2, hw2⟩ := @put_bytes_total env e s henv hwf
    obtain ⟨e3, h3, hw3⟩ := @put_varint_total env e2 s.length henv hw2
    obtain ⟨e4, h4, hw4⟩ := @put_tag_total env e3 fnumber UPB_WIRE_TYPE_DELIMITED henv hw3
    obtain ⟨e5, h5, hw5⟩ := ih henv hw4
    refine ⟨e5, ?_, hw5⟩
    rw [upb_put_strloop, h2]
    dsimp only
    rw [h3]
    dsimp only
    rw [h4]
    exact h5

theorem varintarray_total {env : Nat → Bool} {e : upb_encstate}
    {arr : upb_array} {f : upb_msglayout_fieldinit_v1} {encf : Nat → Nat}
    {l : List Nat}
    (henv : ∀ n, env n = true) (hwf : e.wf) (harr : arr.adata = .anums l) :
    ∃ e1, upb_encode_varintarray env e arr f encf = some e1 ∧ e1.wf := by
  obtain ⟨e2, h2, hw2⟩ := @put_varintloop_total env encf l.reverse e henv hwf
  obtain ⟨e3, h3, hw3⟩ := @put_varint_total env e2
    ((e2.base + e2.cap - e2.ptr) - (e.base + e.cap - e.ptr)) henv hw2
  obtain ⟨e4, h4, hw4⟩ := @put_tag_total env e3 f.number UPB_WIRE_TYPE_DELIMITED henv hw3
  refine ⟨e4, ?_, hw4⟩
  rw [upb_encode_varintarray, harr]
  dsimp only
  rw [h2]
  dsimp only
  rw [h3]
  exact h4

/-! ## The record/layout agreement contract

The source dereferences record storage according to the descriptor: a
singular field's storage must hold the category the descriptor type
announces (raw scalar, string view, submessage pointer), a repeated field's
storage an array pointer whose array holds elements of that category, and a
`GROUP`/`MESSAGE` descriptor must have a sub-layout at `f->submsg_index`
(the source asserts these with `UPB_ASSERT` / `UPB_UNREACHABLE`).  The
predicates below state this contract, mirroring the `switch` structure of
`upb_encode_scalarfield` and `upb_encode_array`; `msg_ok` additionally
carries the nesting-depth bound `fuel` of the model's recursion. -/

/-- The contract for a singular field's storage `v` (the branch order is
that of `upb_encode_scalarfield`); `msgok` checks a submessage against a
sub-layout. -/
def scalar_ok (msgok : upb_msglayout_msginit_v1 → Option upb_msg → Bool)
    (m : upb_msglayout_msginit_v1) (f : upb_msglayout_fieldinit_v1)
    (v : upb_value) : Bool :=
  if f.type = UPB_DESCRIPTOR_TYPE_GROUP ∨ f.type = UPB_DESCRIPTOR_TYPE_MESSAGE then
    match v with
    | .vMsgPtr sub =>
      match m.submsgs[f.submsg_index]? with
      | none => false
      | some subml => msgok subml sub
    | _ => false
  else if f.type = UPB_DESCRIPTOR_TYPE_STRING ∨ f.type = UPB_DESCRIPTOR_TYPE_BYTES then
    match v with
    | .vStr _ => true
    | _ => false
  else if 1 ≤ f.type ∧ f.type ≤ 18 then
    match v with
    | .vNum _ => true
    | _ => false
  else false

/-- The contract for a repeated field's storage `v` (the branch order is
that of `upb_encode_array`). -/
def array_ok (msgok : upb_msglayout_msginit_v1 → Option upb_msg → Bool)
    (m : upb_msglayout_msginit_v1) (f : upb_msglayout_fieldinit_v1)
    (v : upb_value) : Bool :=
  match v with
  | .vArrPtr none => true
  | .vArrPtr (some arr) =>
    if arr.len = 0 then true
    else if f.type = UPB_DESCRIPTOR_TYPE_STRING ∨ f.type = UPB_DESCRIPTOR_TYPE_BYTES then
      match arr.adata with
      | .astrs _ => true
      | _ => false
    else if f.type = UPB_DESCRIPTOR_TYPE_GROUP ∨ f.type = UPB_DESCRIPTOR_TYPE_MESSAGE then
      match arr.adata with
      | .amsgs l =>
        (match m.submsgs[f.submsg_index]? with
         | none => false
         | some subml => l.all fun el => msgok subml el)
      | _ => false
    else if f.type = UPB_DESCRIPTOR_TYPE_DOUBLE ∨ f.type = UPB_DESCRIPTOR_TYPE_FLOAT ∨
        f.type = UPB_DESCRIPTOR_TYPE_SFIXED64 ∨ f.type = UPB_DESCRIPTOR_TYPE_FIXED64 ∨
        f.type = UPB_DESCRIPTOR_TYPE_FIXED32 ∨ f.type = UPB_DESCRIPTOR_TYPE_SFIXED32 ∨
        f.type = UPB_DESCRIPTOR_TYPE_INT64 ∨ f.type = UPB_DESCRIPTOR_TYPE_UINT64 ∨
        f.type = UPB_DESCRIPTOR_TYPE_UINT32 ∨ f.type = UPB_DESCRIPTOR_TYPE_INT32 ∨
        f.type = UPB_DESCRIPTOR_TYPE_ENUM ∨ f.type = UPB_DESCRIPTOR_TYPE_BOOL ∨
        f.type = UPB_DESCRIPTOR_TYPE_SINT32 ∨ f.type = UPB_DESCRIPTOR_TYPE_SINT64 then
      match arr.adata with
      | .anums _ => true
      | _ => false
    else true
  | _ => false

/-- The contract for one field of a record. -/
def field_ok (msgok : upb_msglayout_msginit_v1 → Option upb_msg → Bool)
    (m : upb_msglayout_msginit_v1) (mrec : upb_msg)
    (f : upb_msglayout_fieldinit_v1) : Bool :=
  if f.label = UPB_LABEL_REPEATED then array_ok msgok m f (mrec.read f.offset)
  else scalar_ok msgok m f (mrec.read f.offset)

/-- The contract for a record against a layout, to nesting depth `fuel`
(`none` is the NULL record, fine at any positive depth). -/
def msg_ok : Nat → upb_msglayout_msginit_v1 → Option upb_msg → Bool
  | 0, _, _ => false
  | _ + 1, _, none => true
  | fuel + 1, m, some mrec => m.fields.all (field_ok (msg_ok fuel) m mrec)

theorem scalar_case_total {env : Nat → Bool} {e : upb_encstate} {skip : Bool}
    {put : upb_encstate → Option upb_encstate} {fnumber wt : Nat}
    (henv : ∀ n, env n = true) (hwf : e.wf)
    (hput : ∃ e2, put e = some e2 ∧ e2.wf) :
    ∃ e1, upb_scalar_case env e skip put fnumber wt = some e1 ∧ e1.wf := by
  rw [upb_scalar_case]
  by_cases hs : skip = true
  · rw [if_pos hs]
    exact ⟨e, rfl, hwf⟩
  · simp only [Bool.not_eq_true] at hs
    rw [hs]
    simp only [Bool.false_eq_true, if_false]
    obtain ⟨e2, h2, hw2⟩ := hput
    rw [h2]
    exact put_tag_total henv hw2

theorem scalar_strcase_total {env : Nat → Bool} {e : upb_encstate}
    {skip : Bool} {view : List Nat} {fnumber : Nat}
    (henv : ∀ n, env n = true) (hwf : e.wf) :
    ∃ e1, upb_scalar_strcase env e skip view fnumber = some e1 ∧ e1.wf := by
  rw [upb_scalar_strcase]
  by_cases hs : skip = true
  · rw [if_pos hs]
    exact ⟨e, rfl, hwf⟩
  · simp only [Bool.not_eq_true] at hs
    rw [hs]
    simp only [Bool.false_eq_true, if_false]
    obtain ⟨e2, h2, hw2⟩ := @put_bytes_total env e view henv hwf
    rw [h2]
    dsimp only
    obtain ⟨e3, h3, hw3⟩ := @put_varint_total env e2 view.length henv hw2
    rw [h3]
    exact put_tag_total henv hw3

theorem scalar_groupcase_total {encmsg : EncMsgT} {env : Nat → Bool} {junk : Nat}
    {e : upb_encstate} {skip : Bool} {submsg : Option upb_msg}
    {subml : Option upb_msglayout_msginit_v1} {subm : upb_msglayout_msginit_v1}
    {fnumber : Nat}
    (henv : ∀ n, env n = true) (hwf : e.wf) (hsub : subml = some subm)
    (hrec : ∀ e2 : upb_encstate, e2.wf →
      ∃ r, encmsg e2 submsg subm junk = some r ∧ r.1.wf) :
    ∃ e1, upb_scalar_groupcase encmsg env junk e skip submsg subml fnumber
      = some e1 ∧ e1.wf := by
  rw [upb_scalar_groupcase.eq_def, hsub]
  by_cases hs : skip = true
  · rw [if_pos hs]
    exact ⟨e, rfl, hwf⟩
  · simp only [Bool.not_eq_true] at hs
    rw [hs]
    simp only [Bool.false_eq_true, if_false]
    obtain ⟨e2, h2, hw2⟩ := @put_tag_total env e fnumber UPB_WIRE_TYPE_END_GROUP henv hwf
    rw [h2]
    dsimp only
    obtain ⟨⟨e3, sz⟩, h3, hw3⟩ := hrec e2 hw2
    rw [h3]
    exact put_tag_total henv hw3

theorem scalar_msgcase_total {encmsg : EncMsgT} {env : Nat → Bool} {junk : Nat}
    {e : upb_encstate} {skip : Bool} {submsg : Option upb_msg}
    {subml : Option upb_msglayout_msginit_v1} {subm : upb_msglayout_msginit_v1}
    {fnumber : Nat}
    (henv : ∀ n, env n = true) (hwf : e.wf) (hsub : subml = some subm)
    (hrec : ∀ e2 : upb_encstate, e2.wf →
      ∃ r, encmsg e2 submsg subm junk = some r ∧ r.1.wf) :
    ∃ e1, upb_scalar_msgcase encmsg env junk e skip submsg subml fnumber
      = some e1 ∧ e1.wf := by
  rw [upb_scalar_msgcase.eq_def, hsub]
  by_cases hs : skip = true
  · rw [if_pos hs]
    exact ⟨e, rfl, hwf⟩
  · simp only [Bool.not_eq_true] at hs
    rw [hs]
    simp only [Bool.false_eq_true, if_false]
    obtain ⟨⟨e2, sz⟩, h2, hw2⟩ := hrec e hwf
    rw [h2]
    dsimp only
    obtain ⟨e3, h3, hw3⟩ := @put_varint_total env e2 sz henv hw2
    rw [h3]
    exact put_tag_total henv hw3

theorem array_fixed_case_total {env : Nat → Bool} {e : upb_encstate}
    {arr : upb_array} {size fnumber : Nat} {l : List Nat}
    (henv : ∀ n, env n = true) (hwf : e.wf) (harr : arr.adata = .anums l) :
    ∃ e1, upb_array_fixed_case env e arr size fnumber = some e1 ∧ e1.wf := by
  rw [upb_array_fixed_case]
  obtain ⟨e2, h2, hw2⟩ := @put_fixedarray_total env e arr size l henv hwf harr
  rw [h2]
  exact put_tag_total henv hw2

theorem grouparray_total {encmsg : EncMsgT} {env : Nat → Bool} {junk : Nat}
    {subm : upb_msglayout_msginit_v1} {fnumber : Nat} :
    ∀ {elems : List (Option upb_msg)} {e : upb_encstate},
    (∀ n, env n = true) → e.wf →
    (∀ el ∈ elems, ∀ e2 : upb_encstate, e2.wf →
      ∃ r, encmsg e2 el subm junk = some r ∧ r.1.wf) →
    ∃ e1, upb_encode_grouparray encmsg junk env e elems subm fnumber
      = some e1 ∧ e1.wf := by
  intro elems
  induction elems with
  | nil =>
    intro e henv hwf hall
    exact ⟨e, rfl, hwf⟩
  | cons el rest ih =>
    intro e henv hwf hall
    obtain ⟨e2, h2, hw2⟩ := @put_tag_total env e fnumber UPB_WIRE_TYPE_END_GROUP henv hwf
    obtain ⟨⟨e3, sz⟩, h3, hw3⟩ := hall el (List.mem_cons_self el rest) e2 hw2
    obtain ⟨e4, h4, hw4⟩ := @put_tag_total env e3 fnumber UPB_WIRE_TYPE_START_GROUP henv hw3
    obtain ⟨e5, h5, hw5⟩ := ih henv hw4
      (fun el2 hel2 => hall el2 (List.mem_cons_of_mem el hel2))
    refine ⟨e5, ?_, hw5⟩
    rw [upb_encode_grouparray, h2]
    dsimp only
    rw [h3]
    dsimp only
    rw [h4]
    exact h5

theorem msgarray_total {encmsg : EncMsgT} {env : Nat → Bool} {junk : Nat}
    {subm : upb_msglayout_msginit_v1} {fnumber : Nat} :
    ∀ {elems : List (Option upb_msg)} {e : upb_encstate},
    (∀ n, env n = true) → e.wf →
    (∀ el ∈ elems, ∀ e2 : upb_encstate, e2.wf →
      ∃ r, encmsg e2 el subm junk = some r ∧ r.1.wf) →
    ∃ e1, upb_encode_msgarray encmsg junk env e elems subm fnumber
      = some e1 ∧ e1.wf := by
  intro elems
  induction elems with
  | nil =>
    intro e henv hwf hall
    exact ⟨e, rfl, hwf⟩
  | cons el rest ih =>
    intro e henv hwf hall
    obtain ⟨⟨e2, sz⟩, h2, hw2⟩ := hall el (List.mem_cons_self el rest) e hwf
    obtain ⟨e3, h3, hw3⟩ := @put_varint_total env e2 sz henv hw2
    obtain ⟨e4, h4, hw4⟩ := @put_tag_total env e3 fnumber UPB_WIRE_TYPE_DELIMITED henv hw3
    obtain ⟨e5, h5, hw5⟩ := ih henv hw4
      (fun el2 hel2 => hall el2 (List.mem_cons_of_mem el hel2))
    refine ⟨e5, ?_, hw5⟩
    rw [upb_encode_msgarray, h2]
    dsimp only
    rw [h3]
    dsimp only
    rw [h4]
    exact h5

theorem scalarfield_total {encmsg : EncMsgT} {junk : Nat} {env : Nat → Bool}
    {msgok : upb_msglayout_msginit_v1 → Option upb_msg → Bool}
    {e : upb_encstate} {v : upb_value} {m : upb_msglayout_msginit_v1}
    {f : upb_msglayout_fieldinit_v1} {p3 : Bool}
    (henv : ∀ n, env n = true) (hwf : e.wf) (hck : scalar_ok msgok m f v = true)
    (hrec : ∀ subml sub, msgok subml sub = true → ∀ e2 : upb_encstate, e2.wf →
      ∃ r, encmsg e2 sub subml junk = some r ∧ r.1.wf) :
    ∃ e1, upb_encode_scalarfield encmsg junk env e v m f p3 = some e1 ∧ e1.wf := by
  rw [upb_encode_scalarfield.eq_def]
  by_cases t1 : f.type = UPB_DESCRIPTOR_TYPE_DOUBLE
  · rw [if_pos t1]
    rw [scalar_ok.eq_def, if_neg (by rw [t1]; decide), if_neg (by rw [t1]; decide),
      if_pos (by rw [t1]; decide)] at hck
    cases v with
    | vNum vv =>
      dsimp only
      exact scalar_case_total henv hwf (put_double_total henv hwf)
    | vStr vs => simp at hck
    | vMsgPtr vm => simp at hck
    | vArrPtr va => simp at hck
  rw [if_neg t1]
  by_cases t2 : f.type = UPB_DESCRIPTOR_TYPE_FLOAT
  · rw [if_pos t2]
    rw [scalar_ok.eq_def, if_neg (by rw [t2]; decide), if_neg (by rw [t2]; decide),
      if_pos (by rw [t2]; decide)] at hck
    cases v with
    | vNum vv =>
      dsimp only
      exact scalar_case_total henv hwf (put_float_total henv hwf)
    | vStr vs => simp at hck
    | vMsgPtr vm => simp at hck
    | vArrPtr va => simp at hck
  rw [if_neg t2]
  by_cases t3 : f.type = UPB_DESCRIPTOR_TYPE_INT64 ∨ f.type = UPB_DESCRIPTOR_TYPE_UINT64
  · rw [if_pos t3]
    rw [scalar_ok.eq_def, if_neg (by rcases t3 with h | h <;> rw [h] <;> decide), if_neg (by rcases t3 with h | h <;> rw [h] <;> decide),
      if_pos (by rcases t3 with h | h <;> rw [h] <;> decide)] at hck
    cases v with
    | vNum vv =>
      dsimp only
      exact scalar_case_total henv hwf (put_varint_total henv hwf)
    | vStr vs => simp at hck
    | vMsgPtr vm => simp at hck
    | vArrPtr va => simp at hck
  rw [if_neg t3]
  by_cases t4 : f.type = UPB_DESCRIPTOR_TYPE_UINT32 ∨ f.type = UPB_DESCRIPTOR_TYPE_INT32 ∨ f.type = UPB_DESCRIPTOR_TYPE_ENUM
  · rw [if_pos t4]
    rw [scalar_ok.eq_def, if_neg (by rcases t4 with h | h | h <;> rw [h] <;> decide), if_neg (by rcases t4 with h | h | h <;> rw [h] <;> decide),
      if_pos (by rcases t4 with h | h | h <;> rw [h] <;> decide)] at hck
    cases v with
    | vNum vv =>
      dsimp only
      exact scalar_case_total henv hwf (put_varint_total henv hwf)
    | vStr vs => simp at hck
    | vMsgPtr vm => simp at hck
    | vArrPtr va => simp at hck
  rw [if_neg t4]
  by_cases t5 : f.type = UPB_DESCRIPTOR_TYPE_SFIXED64 ∨ f.type = UPB_DESCRIPTOR_TYPE_FIXED64
  · rw [if_pos t5]
    rw [scalar_ok.eq_def, if_neg (by rcases t5 with h | h <;> rw [h] <;> decide), if_neg (by rcases t5 with h | h <;> rw [h] <;> decide),
      if_pos (by rcases t5 with h | h <;> rw [h] <;> decide)] at hck
    cases v with
    | vNum vv =>
      dsimp only
      exact scalar_case_total henv hwf (put_fixed64_total henv hwf)
    | vStr vs => simp at hck
    | vMsgPtr vm => simp at hck
    | vArrPtr va => simp at hck
  rw [if_neg t5]
  by_cases t6 : f.type = UPB_DESCRIPTOR_TYPE_FIXED32 ∨ f.type = UPB_DESCRIPTOR_TYPE_SFIXED32
  · rw [if_pos t6]
    rw [scalar_ok.eq_def, if_neg (by rcases t6 with h | h <;> rw [h] <;> decide), if_neg (by rcases t6 with h | h <;> rw [h] <;> decide),
      if_pos (by rcases t6 with h | h <;> rw [h] <;> decide)] at hck
    cases v with
    | vNum vv =>
      dsimp only
      exact scalar_case_total henv hwf (put_fixed32_total henv hwf)
    | vStr vs => simp at hck
    | vMsgPtr vm => simp at hck
    | vArrPtr va => simp at hck
  rw [if_neg t6]
  by_cases t7 : f.type = UPB_DESCRIPTOR_TYPE_BOOL
  · rw [if_pos t7]
    rw [scalar_ok.eq_def, if_neg (by rw [t7]; decide), if_neg (by rw [t7]; decide),
      if_pos (by rw [t7]; decide)] at hck
    cases v with
    | vNum vv =>
      dsimp only
      exact scalar_case_total henv hwf (put_varint_total henv hwf)
    | vStr vs => simp at hck
    | vMsgPtr vm => simp at hck
    | vArrPtr va => simp at hck
  rw [if_neg t7]
  by_cases t8 : f.type = UPB_DESCRIPTOR_TYPE_SINT32
  · rw [if_pos t8]
    rw [scalar_ok.eq_def, if_neg (by rw [t8]; decide), if_neg (by rw [t8]; decide),
      if_pos (by rw [t8]; decide)] at hck
    cases v with
    | vNum vv =>
      dsimp only
      exact scalar_case_total henv hwf (put_varint_total henv hwf)
    | vStr vs => simp at hck
    | vMsgPtr vm => simp at hck
    | vArrPtr va => simp at hck
  rw [if_neg t8]
  by_cases t9 : f.type = UPB_DESCRIPTOR_TYPE_SINT64
  · rw [if_pos t9]
    rw [scalar_ok.eq_def, if_neg (by rw [t9]; decide), if_neg (by rw [t9]; decide),
      if_pos (by rw [t9]; decide)] at hck
    cases v with
    | vNum vv =>
      dsimp only
      exact scalar_case_total henv hwf (put_varint_total henv hwf)
    | vStr vs => simp at hck
    | vMsgPtr vm => simp at hck
    | vArrPtr va => simp at hck
  rw [if_neg t9]
  by_cases t10 : f.type = UPB_DESCRIPTOR_TYPE_STRING ∨ f.type = UPB_DESCRIPTOR_TYPE_BYTES
  · rw [if_pos t10]
    rw [scalar_ok.eq_def, if_neg (by rcases t10 with h | h <;> rw [h] <;> decide), if_pos t10] at hck
    cases v with
    | vStr vs =>
      dsimp only
      exact scalar_strcase_total henv hwf
    | vNum vv => simp at hck
    | vMsgPtr vm => simp at hck
    | vArrPtr va => simp at hck
  rw [if_neg t10]
  by_cases t11 : f.type = UPB_DESCRIPTOR_TYPE_GROUP
  · rw [if_pos t11]
    rw [scalar_ok.eq_def, if_pos (Or.inl t11)] at hck
    cases v with
    | vMsgPtr sub =>
      dsimp only
      dsimp only at hck
      rcases hlk : m.submsgs[f.submsg_index]? with _ | subm
      · rw [hlk] at hck
        simp at hck
      · rw [hlk] at hck
        dsimp only at hck
        exact scalar_groupcase_total henv hwf rfl (hrec subm sub hck)
    | vNum vv => simp at hck
    | vStr vs => simp at hck
    | vArrPtr va => simp at hck
  rw [if_neg t11]
  by_cases t12 : f.type = UPB_DESCRIPTOR_TYPE_MESSAGE
  · rw [if_pos t12]
    rw [scalar_ok.eq_def, if_pos (Or.inr t12)] at hck
    cases v with
    | vMsgPtr sub =>
      dsimp only
      dsimp only at hck
      rcases hlk : m.submsgs[f.submsg_index]? with _ | subm
      · rw [hlk] at hck
        simp at hck
      · rw [hlk] at hck
        dsimp only at hck
        exact scalar_msgcase_total henv hwf rfl (hrec subm sub hck)
    | vNum vv => simp at hck
    | vStr vs => simp at hck
    | vArrPtr va => simp at hck
  rw [if_neg t12]
  exfalso
  rw [scalar_ok.eq_def, if_neg (not_or.mpr ⟨t11, t12⟩), if_neg t10, if_neg
    (by
      simp only [UPB_DESCRIPTOR_TYPE_DOUBLE, UPB_DESCRIPTOR_TYPE_FLOAT, UPB_DESCRIPTOR_TYPE_INT64, UPB_DESCRIPTOR_TYPE_UINT64, UPB_DESCRIPTOR_TYPE_INT32, UPB_DESCRIPTOR_TYPE_UINT32, UPB_DESCRIPTOR_TYPE_ENUM, UPB_DESCRIPTOR_TYPE_SFIXED64, UPB_DESCRIPTOR_TYPE_FIXED64, UPB_DESCRIPTOR_TYPE_FIXED32, UPB_DESCRIPTOR_TYPE_SFIXED32, UPB_DESCRIPTOR_TYPE_BOOL, UPB_DESCRIPTOR_TYPE_SINT32, UPB_DESCRIPTOR_TYPE_SINT64, UPB_DESCRIPTOR_TYPE_STRING, UPB_DESCRIPTOR_TYPE_BYTES, UPB_DESCRIPTOR_TYPE_GROUP, UPB_DESCRIPTOR_TYPE_MESSAGE
        , not_or] at t1 t2 t3 t4 t5 t6 t7 t8 t9 t10 t11 t12
      omega)] at hck
  exact absurd hck (by decide)

theorem array_total {encmsg : EncMsgT} {junk : Nat} {env : Nat → Bool}
    {msgok : upb_msglayout_msginit_v1 → Option upb_msg → Bool}
    {e : upb_encstate} {v : upb_value} {m : upb_msglayout_msginit_v1}
    {f : upb_msglayout_fieldinit_v1}
    (henv : ∀ n, env n = true) (hwf : e.wf) (hck : array_ok msgok m f v = true)
    (hrec : ∀ subml sub, msgok subml sub = true → ∀ e2 : upb_encstate, e2.wf →
      ∃ r, encmsg e2 sub subml junk = some r ∧ r.1.wf) :
    ∃ e1, upb_encode_array encmsg junk env e v m f = some e1 ∧ e1.wf := by
  rw [upb_encode_array.eq_def]
  rw [array_ok.eq_def] at hck
  cases v with
  | vNum vv => simp at hck
  | vStr vs => simp at hck
  | vMsgPtr vm => simp at hck
  | vArrPtr arrOpt =>
    dsimp only at hck ⊢
    cases arrOpt with
    | none => exact ⟨e, rfl, hwf⟩
    | some arr =>
      dsimp only at hck ⊢
      by_cases hlen : arr.len = 0
      · rw [if_pos hlen]
        exact ⟨e, rfl, hwf⟩
      rw [if_neg hlen]
      rw [if_neg hlen] at hck
      by_cases a1 : f.type = UPB_DESCRIPTOR_TYPE_DOUBLE
      · rw [if_pos a1]
        rw [if_neg (show ¬(f.type = UPB_DESCRIPTOR_TYPE_STRING ∨ f.type = UPB_DESCRIPTOR_TYPE_BYTES) by rw [a1]; decide),
          if_neg (show ¬(f.type = UPB_DESCRIPTOR_TYPE_GROUP ∨ f.type = UPB_DESCRIPTOR_TYPE_MESSAGE) by rw [a1]; decide),
          if_pos (show f.type = UPB_DESCRIPTOR_TYPE_DOUBLE ∨ f.type = UPB_DESCRIPTOR_TYPE_FLOAT ∨
          f.type = UPB_DESCRIPTOR_TYPE_SFIXED64 ∨ f.type = UPB_DESCRIPTOR_TYPE_FIXED64 ∨
          f.type = UPB_DESCRIPTOR_TYPE_FIXED32 ∨ f.type = UPB_DESCRIPTOR_TYPE_SFIXED32 ∨
          f.type = UPB_DESCRIPTOR_TYPE_INT64 ∨ f.type = UPB_DESCRIPTOR_TYPE_UINT64 ∨
          f.type = UPB_DESCRIPTOR_TYPE_UINT32 ∨ f.type = UPB_DESCRIPTOR_TYPE_INT32 ∨
          f.type = UPB_DESCRIPTOR_TYPE_ENUM ∨ f.type = UPB_DESCRIPTOR_TYPE_BOOL ∨
          f.type = UPB_DESCRIPTOR_TYPE_SINT32 ∨ f.type = UPB_DESCRIPTOR_TYPE_SINT64 by rw [a1]; decide)] at hck
        rcases harr : arr.adata with l | l | l
        · exact array_fixed_case_total henv hwf harr
        · rw [harr] at hck
          simp at hck
        · rw [harr] at hck
          simp at hck
      rw [if_neg a1]
      by_cases a2 : f.type = UPB_DESCRIPTOR_TYPE_FLOAT
      · rw [if_pos a2]
        rw [if_neg (show ¬(f.type = UPB_DESCRIPTOR_TYPE_STRING ∨ f.type = UPB_DESCRIPTOR_TYPE_BYTES) by rw [a2]; decide),
          if_neg (show ¬(f.type = UPB_DESCRIPTOR_TYPE_GROUP ∨ f.type = UPB_DESCRIPTOR_TYPE_MESSAGE) by rw [a2]; decide),
          if_pos (show f.type = UPB_DESCRIPTOR_TYPE_DOUBLE ∨ f.type = UPB_DESCRIPTOR_TYPE_FLOAT ∨
          f.type = UPB_DESCRIPTOR_TYPE_SFIXED64 ∨ f.type = UPB_DESCRIPTOR_TYPE_FIXED64 ∨
          f.type = UPB_DESCRIPTOR_TYPE_FIXED32 ∨ f.type = UPB_DESCRIPTOR_TYPE_SFIXED32 ∨
          f.type = UPB_DESCRIPTOR_TYPE_INT64 ∨ f.type = UPB_DESCRIPTOR_TYPE_UINT64 ∨
          f.type = UPB_DESCRIPTOR_TYPE_UINT32 ∨ f.type = UPB_DESCRIPTOR_TYPE_INT32 ∨
          f.type = UPB_DESCRIPTOR_TYPE_ENUM ∨ f.type = UPB_DESCRIPTOR_TYPE_BOOL ∨
          f.type = UPB_DESCRIPTOR_TYPE_SINT32 ∨ f.type = UPB_DESCRIPTOR_TYPE_SINT64 by rw [a2]; decide)] at hck
        rcases harr : arr.adata with l | l | l
        · exact array_fixed_case_total henv hwf harr
        · rw [harr] at hck
          simp at hck
        · rw [harr] at hck
          simp at hck
      rw [if_neg a2]
      by_cases a3 : f.type = UPB_DESCRIPTOR_TYPE_SFIXED64 ∨ f.type = UPB_DESCRIPTOR_TYPE_FIXED64
      · rw [if_pos a3]
        rw [if_neg (show ¬(f.type = UPB_DESCRIPTOR_TYPE_STRING ∨ f.type = UPB_DESCRIPTOR_TYPE_BYTES) by rcases a3 with h | h <;> rw [h] <;> decide),
          if_neg (show ¬(f.type = UPB_DESCRIPTOR_TYPE_GROUP ∨ f.type = UPB_DESCRIPTOR_TYPE_MESSAGE) by rcases a3 with h | h <;> rw [h] <;> decide),
          if_pos (show f.type = UPB_DESCRIPTOR_TYPE_DOUBLE ∨ f.type = UPB_DESCRIPTOR_TYPE_FLOAT ∨
          f.type = UPB_DESCRIPTOR_TYPE_SFIXED64 ∨ f.type = UPB_DESCRIPTOR_TYPE_FIXED64 ∨
          f.type = UPB_DESCRIPTOR_TYPE_FIXED32 ∨ f.type = UPB_DESCRIPTOR_TYPE_SFIXED32 ∨
          f.type = UPB_DESCRIPTOR_TYPE_INT64 ∨ f.type = UPB_DESCRIPTOR_TYPE_UINT64 ∨
          f.type = UPB_DESCRIPTOR_TYPE_UINT32 ∨ f.type = UPB_DESCRIPTOR_TYPE_INT32 ∨
          f.type = UPB_DESCRIPTOR_TYPE_ENUM ∨ f.type = UPB_DESCRIPTOR_TYPE_BOOL ∨
          f.type = UPB_DESCRIPTOR_TYPE_SINT32 ∨ f.type = UPB_DESCRIPTOR_TYPE_SINT64 by rcases a3 with h | h <;> rw [h] <;> decide)] at hck
        rcases harr : arr.adata with l | l | l
        · exact array_fixed_case_total henv hwf harr
        · rw [harr] at hck
          simp at hck
        · rw [harr] at hck
          simp at hck
      rw [if_neg a3]
      by_cases a4 : f.type = UPB_DESCRIPTOR_TYPE_FIXED32 ∨ f.type = UPB_DESCRIPTOR_TYPE_SFIXED32
      · rw [if_pos a4]
        rw [if_neg (show ¬(f.type = UPB_DESCRIPTOR_TYPE_STRING ∨ f.type = UPB_DESCRIPTOR_TYPE_BYTES) by rcases a4 with h | h <;> rw [h] <;> decide),
          if_neg (show ¬(f.type = UPB_DESCRIPTOR_TYPE_GROUP ∨ f.type = UPB_DESCRIPTOR_TYPE_MESSAGE) by rcases a4 with h | h <;> rw [h] <;> decide),
          if_pos (show f.type = UPB_DESCRIPTOR_TYPE_DOUBLE ∨ f.type = UPB_DESCRIPTOR_TYPE_FLOAT ∨
          f.type = UPB_DESCRIPTOR_TYPE_SFIXED64 ∨ f.type = UPB_DESCRIPTOR_TYPE_FIXED64 ∨
          f.type = UPB_DESCRIPTOR_TYPE_FIXED32 ∨ f.type = UPB_DESCRIPTOR_TYPE_SFIXED32 ∨
          f.type = UPB_DESCRIPTOR_TYPE_INT64 ∨ f.type = UPB_DESCRIPTOR_TYPE_UINT64 ∨
          f.type = UPB_DESCRIPTOR_TYPE_UINT32 ∨ f.type = UPB_DESCRIPTOR_TYPE_INT32 ∨
          f.type = UPB_DESCRIPTOR_TYPE_ENUM ∨ f.type = UPB_DESCRIPTOR_TYPE_BOOL ∨
          f.type = UPB_DESCRIPTOR_TYPE_SINT32 ∨ f.type = UPB_DESCRIPTOR_TYPE_SINT64 by rcases a4 with h | h <;> rw [h] <;> decide)] at hck
        rcases harr : arr.adata with l | l | l
        · exact array_fixed_case_total henv hwf harr
        · rw [harr] at hck
          simp at hck
        · rw [harr] at hck
          simp at hck
      rw [if_neg a4]
      by_cases a5 : f.type = UPB_DESCRIPTOR_TYPE_INT64 ∨ f.type = UPB_DESCRIPTOR_TYPE_UINT64
      · rw [if_pos a5]
        rw [if_neg (show ¬(f.type = UPB_DESCRIPTOR_TYPE_STRING ∨ f.type = UPB_DESCRIPTOR_TYPE_BYTES) by rcases a5 with h | h <;> rw [h] <;> decide),
          if_neg (show ¬(f.type = UPB_DESCRIPTOR_TYPE_GROUP ∨ f.type = UPB_DESCRIPTOR_TYPE_MESSAGE) by rcases a5 with h | h <;> rw [h] <;> decide),
          if_pos (show f.type = UPB_DESCRIPTOR_TYPE_DOUBLE ∨ f.type = UPB_DESCRIPTOR_TYPE_FLOAT ∨
          f.type = UPB_DESCRIPTOR_TYPE_SFIXED64 ∨ f.type = UPB_DESCRIPTOR_TYPE_FIXED64 ∨
          f.type = UPB_DESCRIPTOR_TYPE_FIXED32 ∨ f.type = UPB_DESCRIPTOR_TYPE_SFIXED32 ∨
          f.type = UPB_DESCRIPTOR_TYPE_INT64 ∨ f.type = UPB_DESCRIPTOR_TYPE_UINT64 ∨
          f.type = UPB_DESCRIPTOR_TYPE_UINT32 ∨ f.type = UPB_DESCRIPTOR_TYPE_INT32 ∨
          f.type = UPB_DESCRIPTOR_TYPE_ENUM ∨ f.type = UPB_DESCRIPTOR_TYPE_BOOL ∨
          f.type = UPB_DESCRIPTOR_TYPE_SINT32 ∨ f.type = UPB_DESCRIPTOR_TYPE_SINT64 by rcases a5 with h | h <;> rw [h] <;> decide)] at hck
        rcases harr : arr.adata with l | l | l
        · exact varintarray_total henv hwf harr
        · rw [harr] at hck
          simp at hck
        · rw [harr] at hck
          simp at hck
      rw [if_neg a5]
      by_cases a6 : f.type = UPB_DESCRIPTOR_TYPE_UINT32 ∨ f.type = UPB_DESCRIPTOR_TYPE_INT32 ∨ f.type = UPB_DESCRIPTOR_TYPE_ENUM
      · rw [if_pos a6]
        rw [if_neg (show ¬(f.type = UPB_DESCRIPTOR_TYPE_STRING ∨ f.type = UPB_DESCRIPTOR_TYPE_BYTES) by rcases a6 with h | h | h <;> rw [h] <;> decide),
          if_neg (show ¬(f.type = UPB_DESCRIPTOR_TYPE_GROUP ∨ f.type = UPB_DESCRIPTOR_TYPE_MESSAGE) by rcases a6 with h | h | h <;> rw [h] <;> decide),
          if_pos (show f.type = UPB_DESCRIPTOR_TYPE_DOUBLE ∨ f.type = UPB_DESCRIPTOR_TYPE_FLOAT ∨
          f.type = UPB_DESCRIPTOR_TYPE_SFIXED64 ∨ f.type = UPB_DESCRIPTOR_TYPE_FIXED64 ∨
          f.type = UPB_DESCRIPTOR_TYPE_FIXED32 ∨ f.type = UPB_DESCRIPTOR_TYPE_SFIXED32 ∨
          f.type = UPB_DESCRIPTOR_TYPE_INT64 ∨ f.type = UPB_DESCRIPTOR_TYPE_UINT64 ∨
          f.type = UPB_DESCRIPTOR_TYPE_UINT32 ∨ f.type = UPB_DESCRIPTOR_TYPE_INT32 ∨
          f.type = UPB_DESCRIPTOR_TYPE_ENUM ∨ f.type = UPB_DESCRIPTOR_TYPE_BOOL ∨
          f.type = UPB_DESCRIPTOR_TYPE_SINT32 ∨ f.type = UPB_DESCRIPTOR_TYPE_SINT64 by rcases a6 with h | h | h <;> rw [h] <;> decide)] at hck
        rcases harr : arr.adata with l | l | l
        · exact varintarray_total henv hwf harr
        · rw [harr] at hck
          simp at hck
        · rw [harr] at hck
          simp at hck
      rw [if_neg a6]
      by_cases a7 : f.type = UPB_DESCRIPTOR_TYPE_BOOL
      · rw [if_pos a7]
        rw [if_neg (show ¬(f.type = UPB_DESCRIPTOR_TYPE_STRING ∨ f.type = UPB_DESCRIPTOR_TYPE_BYTES) by rw [a7]; decide),
          if_neg (show ¬(f.type = UPB_DESCRIPTOR_TYPE_GROUP ∨ f.type = UPB_DESCRIPTOR_TYPE_MESSAGE) by rw [a7]; decide),
          if_pos (show f.type = UPB_DESCRIPTOR_TYPE_DOUBLE ∨ f.type = UPB_DESCRIPTOR_TYPE_FLOAT ∨
          f.type = UPB_DESCRIPTOR_TYPE_SFIXED64 ∨ f.type = UPB_DESCRIPTOR_TYPE_FIXED64 ∨
          f.type = UPB_DESCRIPTOR_TYPE_FIXED32 ∨ f.type = UPB_DESCRIPTOR_TYPE_SFIXED32 ∨
          f.type = UPB_DESCRIPTOR_TYPE_INT64 ∨ f.type = UPB_DESCRIPTOR_TYPE_UINT64 ∨
          f.type = UPB_DESCRIPTOR_TYPE_UINT32 ∨ f.type = UPB_DESCRIPTOR_TYPE_INT32 ∨
          f.type = UPB_DESCRIPTOR_TYPE_ENUM ∨ f.type = UPB_DESCRIPTOR_TYPE_BOOL ∨
          f.type = UPB_DESCRIPTOR_TYPE_SINT32 ∨ f.type = UPB_DESCRIPTOR_TYPE_SINT64 by rw [a7]; decide)] at hck
        rcases harr : arr.adata with l | l | l
        · exact varintarray_total henv hwf harr
        · rw [harr] at hck
          simp at hck
        · rw [harr] at hck
          simp at hck
      rw [if_neg a7]
      by_cases a8 : f.type = UPB_DESCRIPTOR_TYPE_SINT32
      · rw [if_pos a8]
        rw [if_neg (show ¬(f.type = UPB_DESCRIPTOR_TYPE_STRING ∨ f.type = UPB_DESCRIPTOR_TYPE_BYTES) by rw [a8]; decide),
          if_neg (show ¬(f.type = UPB_DESCRIPTOR_TYPE_GROUP ∨ f.type = UPB_DESCRIPTOR_TYPE_MESSAGE) by rw [a8]; decide),
          if_pos (show f.type = UPB_DESCRIPTOR_TYPE_DOUBLE ∨ f.type = UPB_DESCRIPTOR_TYPE_FLOAT ∨
          f.type = UPB_DESCRIPTOR_TYPE_SFIXED64 ∨ f.type = UPB_DESCRIPTOR_TYPE_FIXED64 ∨
          f.type = UPB_DESCRIPTOR_TYPE_FIXED32 ∨ f.type = UPB_DESCRIPTOR_TYPE_SFIXED32 ∨
          f.type = UPB_DESCRIPTOR_TYPE_INT64 ∨ f.type = UPB_DESCRIPTOR_TYPE_UINT64 ∨
          f.type = UPB_DESCRIPTOR_TYPE_UINT32 ∨ f.type = UPB_DESCRIPTOR_TYPE_INT32 ∨
          f.type = UPB_DESCRIPTOR_TYPE_ENUM ∨ f.type = UPB_DESCRIPTOR_TYPE_BOOL ∨
          f.type = UPB_DESCRIPTOR_TYPE_SINT32 ∨ f.type = UPB_DESCRIPTOR_TYPE_SINT64 by rw [a8]; decide)] at hck
        rcases harr : arr.adata with l | l | l
        · exact varintarray_total henv hwf harr
        · rw [harr] at hck
          simp at hck
        · rw [harr] at hck
          simp at hck
      rw [if_neg a8]
      by_cases a9 : f.type = UPB_DESCRIPTOR_TYPE_SINT64
      · rw [if_pos a9]
        rw [if_neg (show ¬(f.type = UPB_DESCRIPTOR_TYPE_STRING ∨ f.type = UPB_DESCRIPTOR_TYPE_BYTES) by rw [a9]; decide),
          if_neg (show ¬(f.type = UPB_DESCRIPTOR_TYPE_GROUP ∨ f.type = UPB_DESCRIPTOR_TYPE_MESSAGE) by rw [a9]; decide),
          if_pos (show f.type = UPB_DESCRIPTOR_TYPE_DOUBLE ∨ f.type = UPB_DESCRIPTOR_TYPE_FLOAT ∨
          f.type = UPB_DESCRIPTOR_TYPE_SFIXED64 ∨ f.type = UPB_DESCRIPTOR_TYPE_FIXED64 ∨
          f.type = UPB_DESCRIPTOR_TYPE_FIXED32 ∨ f.type = UPB_DESCRIPTOR_TYPE_SFIXED32 ∨
          f.type = UPB_DESCRIPTOR_TYPE_INT64 ∨ f.type = UPB_DESCRIPTOR_TYPE_UINT64 ∨
          f.type = UPB_DESCRIPTOR_TYPE_UINT32 ∨ f.type = UPB_DESCRIPTOR_TYPE_INT32 ∨
          f.type = UPB_DESCRIPTOR_TYPE_ENUM ∨ f.type = UPB_DESCRIPTOR_TYPE_BOOL ∨
          f.type = UPB_DESCRIPTOR_TYPE_SINT32 ∨ f.type = UPB_DESCRIPTOR_TYPE_SINT64 by rw [a9]; decide)] at hck
        rcases harr : arr.adata with l | l | l
        · exact varintarray_total henv hwf harr
        · rw [harr] at hck
          simp at hck
        · rw [harr] at hck
          simp at hck
      rw [if_neg a9]
      by_cases a10 : f.type = UPB_DESCRIPTOR_TYPE_STRING ∨ f.type = UPB_DESCRIPTOR_TYPE_BYTES
      · rw [if_pos a10]
        rw [if_pos (show f.type = UPB_DESCRIPTOR_TYPE_STRING ∨ f.type = UPB_DESCRIPTOR_TYPE_BYTES from a10)] at hck
        rcases harr : arr.adata with l | l | l
        · rw [harr] at hck
          simp at hck
        · dsimp only
          exact put_strloop_total henv hwf
        · rw [harr] at hck
          simp at hck
      rw [if_neg a10]
      by_cases a11 : f.type = UPB_DESCRIPTOR_TYPE_GROUP
      · rw [if_pos a11]
        rw [if_neg (show ¬(f.type = UPB_DESCRIPTOR_TYPE_STRING ∨ f.type = UPB_DESCRIPTOR_TYPE_BYTES) by rw [a11]; decide),
          if_pos (show f.type = UPB_DESCRIPTOR_TYPE_GROUP ∨ f.type = UPB_DESCRIPTOR_TYPE_MESSAGE from Or.inl a11)] at hck
        rcases harr : arr.adata with l | l | l
        · rw [harr] at hck
          simp at hck
        · rw [harr] at hck
          simp at hck
        · rw [harr] at hck
          dsimp only at hck ⊢
          rcases hlk : m.submsgs[f.submsg_index]? with _ | subm
          · rw [hlk] at hck
            simp at hck
          · rw [hlk] at hck
            dsimp only at hck
            exact grouparray_total henv hwf (fun el hel => hrec subm el
              (List.all_eq_true.mp hck el (List.mem_reverse.mp hel)))
      rw [if_neg a11]
      by_cases a12 : f.type = UPB_DESCRIPTOR_TYPE_MESSAGE
      · rw [if_pos a12]
        rw [if_neg (show ¬(f.type = UPB_DESCRIPTOR_TYPE_STRING ∨ f.type = UPB_DESCRIPTOR_TYPE_BYTES) by rw [a12]; decide),
          if_pos (show f.type = UPB_DESCRIPTOR_TYPE_GROUP ∨ f.type = UPB_DESCRIPTOR_TYPE_MESSAGE from Or.inr a12)] at hck
        rcases harr : arr.adata with l | l | l
        · rw [harr] at hck
          simp at hck
        · rw [harr] at hck
          simp at hck
        · rw [harr] at hck
          dsimp only at hck ⊢
          rcases hlk : m.submsgs[f.submsg_index]? with _ | subm
          · rw [hlk] at hck
            simp at hck
          · rw [hlk] at hck
            dsimp only at hck
            exact msgarray_total henv hwf (fun el hel => hrec subm el
              (List.all_eq_true.mp hck el (List.mem_reverse.mp hel)))
      rw [if_neg a12]
      exact put_tag_total henv hwf

theorem field_total {encmsg : EncMsgT} {junk : Nat} {env : Nat → Bool}
    {msgok : upb_msglayout_msginit_v1 → Option upb_msg → Bool}
    {e : upb_encstate} {mrec : upb_msg} {m : upb_msglayout_msginit_v1}
    {f : upb_msglayout_fieldinit_v1}
    (henv : ∀ n, env n = true) (hwf : e.wf)
    (hck : field_ok msgok m mrec f = true)
    (hrec : ∀ subml sub, msgok subml sub = true → ∀ e2 : upb_encstate, e2.wf →
      ∃ r, encmsg e2 sub subml junk = some r ∧ r.1.wf) :
    ∃ e1, upb_encode_field encmsg junk env e mrec m f = some e1 ∧ e1.wf := by
  rw [upb_encode_field]
  rw [field_ok] at hck
  by_cases hlab : f.label = UPB_LABEL_REPEATED
  · rw [if_pos hlab]
    rw [if_pos hlab] at hck
    exact array_total henv hwf hck hrec
  · rw [if_neg hlab]
    rw [if_neg hlab] at hck
    by_cases hhas : upb_encode_hasscalarfield mrec m f = true
    · rw [if_pos hhas]
      exact scalarfield_total henv hwf hck hrec
    · rw [if_neg hhas]
      exact ⟨e, rfl, hwf⟩

theorem fields_total {encmsg : EncMsgT} {junk : Nat} {env : Nat → Bool}
    {msgok : upb_msglayout_msginit_v1 → Option upb_msg → Bool}
    {mrec : upb_msg} {m : upb_msglayout_msginit_v1}
    (henv : ∀ n, env n = true)
    (hrec : ∀ subml sub, msgok subml sub = true → ∀ e2 : upb_encstate, e2.wf →
      ∃ r, encmsg e2 sub subml junk = some r ∧ r.1.wf) :
    ∀ {l : List upb_msglayout_fieldinit_v1} {e : upb_encstate},
      e.wf → (∀ f ∈ l, field_ok msgok m mrec f = true) →
      ∃ e1, upb_encode_fields encmsg junk env e mrec m l = some e1 ∧ e1.wf := by
  intro l
  induction l with
  | nil =>
    intro e hwf hall
    exact ⟨e, rfl, hwf⟩
  | cons f rest ih =>
    intro e hwf hall
    obtain ⟨e2, h2, hw2⟩ := field_total henv hwf
      (hall f (List.mem_cons_self f rest)) hrec
    obtain ⟨e3, h3, hw3⟩ := ih hw2
      (fun f2 hf2 => hall f2 (List.mem_cons_of_mem f hf2))
    refine ⟨e3, ?_, hw3⟩
    rw [upb_encode_fields, h2]
    exact h3

/-- Totality of the message encoder: under an allocator that grants every
request, a record that satisfies the layout contract to depth `fuel`
encodes successfully (and the resulting state is well-formed). -/
theorem encode_message_total :
    ∀ (fuel junk : Nat) (env : Nat → Bool), (∀ n, env n = true) →
    ∀ (e : upb_encstate) (msg : Option upb_msg)
      (m : upb_msglayout_msginit_v1) (si : Nat),
      e.wf → msg_ok fuel m msg = true →
      ∃ r, upb_encode_message fuel junk env e msg m si = some r ∧ r.1.wf := by
  intro fuel
  induction fuel with
  | zero =>
    intro junk env henv e msg m si hwf hok
    simp [msg_ok] at hok
  | succ fuel ih =>
    intro junk env henv e msg m si hwf hok
    rcases msg with _ | mrec
    · exact ⟨(e, si), rfl, hwf⟩
    · have hok2 : m.fields.all (field_ok (msg_ok fuel) m mrec) = true := hok
      have hall : ∀ f ∈ m.fields.reverse, field_ok (msg_ok fuel) m mrec f = true := by
        intro f hf
        exact List.all_eq_true.mp hok2 f (List.mem_reverse.mp hf)
      have hrec : ∀ subml sub, msg_ok fuel subml sub = true →
          ∀ e2 : upb_encstate, e2.wf →
          ∃ r, upb_encode_message fuel junk env e2 sub subml junk = some r ∧
            r.1.wf :=
        fun subml sub hok3 e2 hw2 => ih junk env henv e2 sub subml junk hw2 hok3
      obtain ⟨e1, h1, hw1⟩ := fields_total henv hrec hwf hall
      refine ⟨(e1, psub e.ptr e1.ptr), ?_, hw1⟩
      rw [upb_encode_message.eq_def]
      dsimp only
      rw [h1]

/-- C9: the top-level encode either fails and reports `(NULL, 0)` — and,
whenever the allocator grants every request and the record satisfies the
layout contract, it does not fail at all, so failure can only come from a
denied growth request (or the model's depth bound) — or succeeds with zero
length and returns the distinguished sentinel with reported length 0, or
succeeds returning the written byte range, whose length is exactly the
nonzero reported length; a partial buffer is never exposed as output. -/
theorem upb_encode_trichotomy :
    (∀ (fuel junk : Nat) (env : Nat → Bool) (msg : Option upb_msg)
       (m : upb_msglayout_msginit_v1) (si : Nat),
       upb_encode fuel junk env msg m si = (.fail, 0) ∨
       upb_encode fuel junk env msg m si = (.sentinel, 0) ∨
       (∃ bs, (upb_encode fuel junk env msg m si).1 = .buf bs ∧
         bs.length = (upb_encode fuel junk env msg m si).2 ∧
         0 < (upb_encode fuel junk env msg m si).2)) ∧
    (∀ (fuel junk : Nat) (env : Nat → Bool) (msg : Option upb_msg)
       (m : upb_msglayout_msginit_v1) (si : Nat),
       (∀ n, env n = true) → msg_ok fuel m msg = true →
       (upb_encode fuel junk env msg m si).1 ≠ .fail) := by
  constructor
  · intro fuel junk env msg m si
    rw [upb_encode]
    rcases hm : upb_encode_message fuel junk env
        ⟨0, 0, 0, [], false⟩ msg m si with _ | ⟨e1, sz⟩
    · left
      rfl
    · dsimp only
      have hwf1 : e1.wf :=
        (encode_message_mono fuel junk env ⟨0, 0, 0, [], false⟩ msg m si
          (e1, sz) hm (by decide)).1
      obtain ⟨hw1, hw2, hw3⟩ := hwf1
      by_cases hsz : e1.base + e1.cap - e1.ptr = 0
      · right
        left
        rw [if_pos hsz]
      · right
        right
        rw [if_neg hsz]
        refine ⟨e1.out, rfl, ?_, by show 0 < e1.base + e1.cap - e1.ptr; omega⟩
        show (e1.mem.drop (e1.ptr - e1.base)).length = e1.base + e1.cap - e1.ptr
        rw [List.length_drop]
        omega
  · intro fuel junk env msg m si henv hok
    obtain ⟨⟨e1, sz⟩, h1, hw1⟩ := encode_message_total fuel junk env henv
      ⟨0, 0, 0, [], false⟩ msg m si (by decide) hok
    rw [upb_encode]
    rw [h1]
    dsimp only
    split
    · simp
    · simp

/-- Concrete inputs exercising `upb_encode_trichotomy`: an always-granting
allocator and a proto3 record holding 5 in its one `int32` field. -/
def envC9 : Nat → Bool := fun _ => true

def fC9 : upb_msglayout_fieldinit_v1 :=
  ⟨1, 0, none, none, 0, UPB_DESCRIPTOR_TYPE_INT32, 1⟩

def mC9 : upb_msglayout_msginit_v1 := .mk [fC9] [] [] false

def mrecC9 : upb_msg := .mk [(0, .vNum 5)] [] []

set_option maxRecDepth 4000 in
/-- Witness for `upb_encode_trichotomy` at the concrete C9 inputs: the
hypotheses of its no-failure clause hold there and the theorem applies. -/
theorem upb_encode_trichotomy_witness :
    (∀ n, envC9 n = true) ∧ msg_ok 2 mC9 (some mrecC9) = true ∧
    (upb_encode 2 0 envC9 (some mrecC9) mC9 0).1 ≠ .fail :=
  ⟨fun n => rfl, by decide,
    upb_encode_trichotomy.2 2 0 envC9 (some mrecC9) mC9 0
      (fun n => rfl) (by decide)⟩

/-! ## Concrete failing inputs for the growth / size-reporting defects -/

/-- An always-granting allocator for the concrete runs below. -/
def envCB : Nat → Bool := fun _ => true

/-- A 16-byte buffer holding the two written bytes `[7, 9]` at its end. -/
def eC1 : upb_encstate := ⟨0, 16, 14, List.replicate 14 0 ++ [7, 9], false⟩

set_option maxRecDepth 8000 in
/-- C1 (defect): growing a buffer that already holds written bytes loses
them.  On `eC1` (used region `[7, 9]`) a growth to 128 bytes succeeds and
preserves the used byte *count*, but the used region adjacent to the new end
reads `[0, 0]`: the `memmove` of `upb_encode_growbuffer` computes both its
destination `e->limit - old_size` and its source `e->buf` from stale
pre-realloc pointers, so the used bytes are never copied to the end of the
new region. -/
theorem growbuffer_loses_used_bytes :
    eC1.wf ∧ eC1.used = 2 ∧ eC1.out = [7, 9] ∧
    (upb_encode_growbuffer envCB eC1 20).map upb_encstate.used = some 2 ∧
    (upb_encode_growbuffer envCB eC1 20).map upb_encstate.out = some [0, 0] ∧
    [0, 0] ≠ ([7, 9] : List Nat) := by decide

def fInt32 : upb_msglayout_fieldinit_v1 :=
  ⟨1, 0, none, none, 0, UPB_DESCRIPTOR_TYPE_INT32, 1⟩

def Lflat : upb_msglayout_msginit_v1 := .mk [fInt32] [] [] false

def msgFlat : upb_msg := .mk [(0, .vNum 5)] [] []

def fMsg : upb_msglayout_fieldinit_v1 :=
  ⟨1, 0, none, none, 0, UPB_DESCRIPTOR_TYPE_MESSAGE, 1⟩

/-- A layout whose one field is a submessage laid out by `Lflat`. -/
def Lnest : upb_msglayout_msginit_v1 := .mk [fMsg] [Lflat] [] false

def msgNest : upb_msg := .mk [(0, .vMsgPtr (some msgFlat))] [] []

set_option maxRecDepth 8000 in
/-- C2 (defect): the length prefix of a nested submessage is garbage when
the buffer moved during the submessage's encoding.  `msgNest` holds a
submessage whose body encodes to the 2 bytes `[8, 5]`, so its length prefix
ought to be `encodeVarint 2 = [2]`; instead `upb_encode_message` snapshots
`buf_end = e->ptr` before encoding (here the initial NULL cursor), the
buffer reallocates while the body is written, and the reported size
`buf_end - e->ptr` is the 64-bit wraparound value `2^64 - 142`, emitted as
a 10-byte varint. -/
theorem nested_length_prefix_garbage :
    upb_encode 5 0 envCB (some msgNest) Lnest 0
      = (.buf ([10] ++ upb_encode_varint (2 ^ 64 - 142) ++ [8, 5]), 13) ∧
    upb_encode_varint 2 = [2] ∧
    (upb_encode_varint (2 ^ 64 - 142)).length = 10 := by decide

/-- C3 (defect): for a NULL record `upb_encode_message` returns success
without storing to `*size`, so the caller reads back whatever was in it.
With 77 in the incoming size slot the reported byte length is 77, not the 0
the claim promises (the encoder state is indeed unchanged). -/
theorem null_record_size_unreported :
    upb_encode_message 1 0 envCB ⟨0, 0, 0, [], false⟩ none Lflat 77
      = some (⟨0, 0, 0, [], false⟩, 77) ∧ (77 : Nat) ≠ 0 := by decide

def fStrA : upb_msglayout_fieldinit_v1 :=
  ⟨1, 0, none, none, 0, UPB_DESCRIPTOR_TYPE_STRING, 1⟩

def fStrB : upb_msglayout_fieldinit_v1 :=
  ⟨2, 8, none, none, 0, UPB_DESCRIPTOR_TYPE_STRING, 1⟩

/-- Two 70-byte string fields, declared `[#1, #2]`. -/
def L2s : upb_msglayout_msginit_v1 := .mk [fStrA, fStrB] [] [] false

def sA : List Nat := List.replicate 70 65

def sB : List Nat := List.replicate 70 66

def msg2s : upb_msg := .mk [(0, .vStr sA), (8, .vStr sB)] [] []

def LA : upb_msglayout_msginit_v1 := .mk [fStrA] [] [] false

def msgA : upb_msg := .mk [(0, .vStr sA)] [] []

def LB : upb_msglayout_msginit_v1 := .mk [fStrB] [] [] false

def msgB : upb_msg := .mk [(8, .vStr sB)] [] []

/-- Field #1's record as the encoder itself emits it alone. -/
def recA : List Nat := 10 :: 70 :: sA

/-- Field #2's record as the encoder itself emits it alone. -/
def recB : List Nat := 18 :: 70 :: sB

set_option maxRecDepth 20000 in
/-- C5 (defect): with both fields present the output is not the two records
in declaration order.  Each 70-byte string field alone encodes to its
72-byte record; together they need 144 bytes, the buffer grows past the
initial 128 while field #2's record is already in it, the growth loses
those bytes (C1), and the combined output — though reported as 144 bytes —
is not `recA ++ recB`. -/
theorem field_order_lost_on_growth :
    upb_encode 1 0 envCB (some msgA) LA 0 = (.buf recA, 72) ∧
    upb_encode 1 0 envCB (some msgB) LB 0 = (.buf recB, 72) ∧
    (upb_encode 1 0 envCB (some msg2s) L2s 0).2 = 144 ∧
    (upb_encode 1 0 envCB (some msg2s) L2s 0).1 ≠ .buf (recA ++ recB) := by
  decide

def fRep : upb_msglayout_fieldinit_v1 :=
  ⟨1, 0, none, none, 0, UPB_DESCRIPTOR_TYPE_UINT64, 3⟩

def Lrep : upb_msglayout_msginit_v1 := .mk [fRep] [] [] false

/-- Thirteen `uint64` elements of ten varint bytes each: a 130-byte packed
body, which forces growth mid-array. -/
def arrRep : upb_array := .mk 0 (.anums (List.replicate 13 (2 ^ 63)))

def msgRep : upb_msg := .mk [(0, .vArrPtr (some arrRep))] [] []

/-- The packed record the claim describes: tag `(1 << 3) | 2`, length varint
of 130, then the element varints in array order. -/
def expectedC6 : List Nat :=
  [10] ++ upb_encode_varint 130 ++
    (List.replicate 13 (upb_encode_varint (2 ^ 63))).flatten

set_option maxRecDepth 20000 in
/-- C6 (defect): a packed varint run long enough to trigger growth is
corrupted.  The 13-element `uint64` array's packed record should be the
133-byte `expectedC6`; the reported length is 133 but the emitted bytes are
not that record — the elements written before the growth were lost with the
old buffer. -/
theorem packed_varint_array_corrupted_on_growth :
    expectedC6.length = 133 ∧
    (upb_encode 1 0 envCB (some msgRep) Lrep 0).2 = 133 ∧
    (upb_encode 1 0 envCB (some msgRep) Lrep 0).1 ≠ .buf expectedC6 := by
  decide
